import Mathlib

/-! # url-shortener: a shallow embedding and its verified properties

The development follows the Go packages of the repository:

* `strings`, `url`, `crc32`, `regexp`: the parts of the Go standard library the
  repository calls (`net/url`, `hash/crc32`, `strings`, `regexp`), written out as
  executable functions over byte strings;
* `shortener`: `pkg/shortener/shortener.go`;
* `model`: `pkg/model/url.go`;
* `repository`: `pkg/repository/repository.go` and `postgres.go`;
* `handler`: `pkg/handler/handler.go`.

A Go `string` is a sequence of bytes, so it is a `List (Fin 256)` here; `str`
gives the UTF-8 bytes of a literal and `ch` the byte of an ASCII character.
Go's `(value, error)` results are `Except String value`; an error value names
the kind of failure and leaves out the text Go quotes after it.
-/

set_option maxRecDepth 100000
set_option maxHeartbeats 1000000

/-- A byte of a Go string. -/
abbrev Byte := Fin 256

/-- A Go `string`: an immutable sequence of bytes. -/
abbrev GoString := List Byte

/-- The UTF-8 bytes of a literal. -/
def str (s : String) : GoString :=
  (s.data.flatMap String.utf8EncodeChar).map (fun b => b.val)

/-- The byte of an ASCII character literal. -/
def ch (c : Char) : Byte := Fin.ofNat c.toNat

/-- Equality of Go results is decidable when it is for values and errors. -/
instance instDecidableEqExcept {ε α : Type} [DecidableEq ε] [DecidableEq α] :
    DecidableEq (Except ε α) := fun a b =>
  match a, b with
  | .ok x, .ok y => if h : x = y then isTrue (by rw [h]) else isFalse (by intro e; cases e; exact h rfl)
  | .error x, .error y =>
    if h : x = y then isTrue (by rw [h]) else isFalse (by intro e; cases e; exact h rfl)
  | .ok _, .error _ => isFalse (by intro e; cases e)
  | .error _, .ok _ => isFalse (by intro e; cases e)

/-! ## Package `strings` -/

namespace strings

/-- Go `strings.HasPrefix`. -/
def HasPrefix (s pre : GoString) : Bool := pre.isPrefixOf s

/-- Go `strings.HasSuffix`. -/
def HasSuffix (s suf : GoString) : Bool := suf.isSuffixOf s

/-- Go `strings.TrimPrefix`: `s` without the leading `pre`, or `s` itself. -/
def TrimPrefix (s pre : GoString) : GoString :=
  if HasPrefix s pre then s.drop pre.length else s

/-- Go `strings.IndexByte`: position of the first `c`, if any. -/
def IndexByte : GoString → Byte → Option Nat
  | [], _ => none
  | x :: xs, c => if x = c then some 0 else (IndexByte xs c).map (· + 1)

/-- Go `strings.LastIndexByte`: position of the last `c`, if any. -/
def LastIndexByte : GoString → Byte → Option Nat
  | [], _ => none
  | x :: xs, c =>
    match LastIndexByte xs c with
    | some i => some (i + 1)
    | none => if x = c then some 0 else none

/-- Go `strings.Index`: position of the first occurrence of `sep`, if any. -/
def Index : GoString → GoString → Option Nat
  | [], sep => if sep = [] then some 0 else none
  | x :: xs, sep =>
    if HasPrefix (x :: xs) sep then some 0 else (Index xs sep).map (· + 1)

/-- Go `strings.Cut` at a one-byte separator: `(before, after, found)`. -/
def Cut : GoString → Byte → GoString × GoString × Bool
  | [], _ => ([], [], false)
  | x :: xs, sep =>
    if x = sep then ([], xs, true)
    else
      let r := Cut xs sep
      (x :: r.1, r.2.1, r.2.2)

/-- Go `strings.Contains` for a one-byte pattern. -/
def ContainsByte (s : GoString) (c : Byte) : Bool := s.contains c

/-- Go `strings.Count` for a one-byte pattern. -/
def Count (s : GoString) (c : Byte) : Nat := s.count c

/-- ASCII lower-casing of one byte. -/
def lowerByte (c : Byte) : Byte :=
  if ch 'A' ≤ c ∧ c ≤ ch 'Z' then Fin.ofNat (c.val + 32) else c

/-- Go `strings.ToLower` on the ASCII letters. -/
def ToLower (s : GoString) : GoString := s.map lowerByte

/-- The segments of `s` between the occurrences of `sep`. -/
def Split : GoString → Byte → List GoString
  | [], _ => [[]]
  | x :: xs, sep =>
    if x = sep then [] :: Split xs sep
    else
      match Split xs sep with
      | [] => [[x]]
      | seg :: segs => (x :: seg) :: segs

end strings

/-! ## Package `net/url` -/

namespace url

/-- Go `ishex`. -/
def ishex (c : Byte) : Bool :=
  (decide (ch '0' ≤ c) && decide (c ≤ ch '9')) ||
  (decide (ch 'a' ≤ c) && decide (c ≤ ch 'f')) ||
  (decide (ch 'A' ≤ c) && decide (c ≤ ch 'F'))

/-- Go `unhex`. -/
def unhex (c : Byte) : Nat :=
  if ch '0' ≤ c ∧ c ≤ ch '9' then c.val - 48
  else if ch 'a' ≤ c ∧ c ≤ ch 'f' then c.val - 97 + 10
  else if ch 'A' ≤ c ∧ c ≤ ch 'F' then c.val - 65 + 10
  else 0

/-- Go `encoding`: the part of a URL a string is escaped for. -/
inductive Encoding where
  | encodePath
  | encodePathSegment
  | encodeHost
  | encodeZone
  | encodeUserPassword
  | encodeQueryComponent
  | encodeFragment
  deriving DecidableEq, Repr

open Encoding

/-- ASCII letter or digit. -/
def isAlnum (c : Byte) : Bool :=
  (decide (ch 'a' ≤ c) && decide (c ≤ ch 'z')) ||
  (decide (ch 'A' ≤ c) && decide (c ≤ ch 'Z')) ||
  (decide (ch '0' ≤ c) && decide (c ≤ ch '9'))

/-- Go `shouldEscape`: whether byte `c` must be %-escaped in part `mode`. -/
def shouldEscape (c : Byte) (mode : Encoding) : Bool :=
  if isAlnum c then false
  else if (mode = encodeHost ∨ mode = encodeZone) ∧
      c ∈ [ch '!', ch '$', ch '&', ch '\'', ch '(', ch ')', ch '*', ch '+', ch ',',
           ch ';', ch '=', ch ':', ch '[', ch ']', ch '<', ch '>', ch '"'] then false
  else if c ∈ [ch '-', ch '_', ch '.', ch '~'] then false
  else if c ∈ [ch '$', ch '&', ch '+', ch ',', ch '/', ch ':', ch ';', ch '=', ch '?',
               ch '@'] ∧
      mode ∈ [encodePath, encodePathSegment, encodeUserPassword, encodeQueryComponent,
              encodeFragment] then
    match mode with
    | encodePath => c = ch '?'
    | encodePathSegment => c = ch '/' || c = ch ';' || c = ch ',' || c = ch '?'
    | encodeUserPassword => c = ch '@' || c = ch '/' || c = ch '?' || c = ch ':'
    | encodeQueryComponent => true
    | _ => false
  else if mode = encodeFragment ∧ c ∈ [ch '!', ch '(', ch ')', ch '*'] then false
  else true

/-- Go `unescape`: decode the `%XX` sequences of `s` (and `+` in a query
component); fails on a malformed escape, and in a host on an escape or a byte
that a host may not hold. -/
def unescape (s : GoString) (mode : Encoding) : Except String GoString :=
  match s with
  | [] => .ok []
  | c :: rest =>
    if c = ch '%' then
      match rest with
      | h1 :: h2 :: rest2 =>
        if !(ishex h1 && ishex h2) then .error "invalid URL escape"
        else if mode = encodeHost ∧ unhex h1 < 8 ∧ [c, h1, h2] ≠ str "%25" then
          .error "invalid URL escape"
        else
          let v : Byte := Fin.ofNat (unhex h1 * 16 + unhex h2)
          if mode = encodeZone ∧ [c, h1, h2] ≠ str "%25" ∧ v ≠ ch ' ' ∧
              shouldEscape v encodeHost then
            .error "invalid URL escape"
          else
            match unescape rest2 mode with
            | .error e => .error e
            | .ok t => .ok (v :: t)
      | _ => .error "invalid URL escape"
    else if c = ch '+' then
      match unescape rest mode with
      | .error e => .error e
      | .ok t => .ok ((if mode = encodeQueryComponent then ch ' ' else ch '+') :: t)
    else if (mode = encodeHost ∨ mode = encodeZone) ∧ c.val < 128 ∧
        shouldEscape c encodeHost then
      .error "invalid character in host name"
    else
      match unescape rest mode with
      | .error e => .error e
      | .ok t => .ok (c :: t)

/-- The upper-case hexadecimal digit of a value below 16 (Go `upperhex`). -/
def upperhex (n : Nat) : Byte :=
  if n < 10 then Fin.ofNat (48 + n) else Fin.ofNat (55 + n)

/-- Go `escape`: %-escape every byte that `shouldEscape` names (a space becomes
`+` in a query component). -/
def escape (s : GoString) (mode : Encoding) : GoString :=
  s.flatMap (fun c =>
    if shouldEscape c mode then
      if c = ch ' ' ∧ mode = encodeQueryComponent then [ch '+']
      else [ch '%', upperhex (c.val / 16), upperhex (c.val % 16)]
    else [c])

/-- Go `QueryUnescape`. -/
def QueryUnescape (s : GoString) : Except String GoString := unescape s encodeQueryComponent

/-- Go `QueryEscape`. -/
def QueryEscape (s : GoString) : GoString := escape s encodeQueryComponent

/-- Go `validEncoding`: whether `s` is an acceptable escaped form for `mode`. -/
def validEncoding (s : GoString) (mode : Encoding) : Bool :=
  s.all (fun c =>
    if c ∈ [ch '!', ch '$', ch '&', ch '\'', ch '(', ch ')', ch '*', ch '+', ch ',',
            ch ';', ch '=', ch ':', ch '@', ch '[', ch ']', ch '%'] then true
    else !shouldEscape c mode)

/-- Go `stringContainsCTLByte`: an ASCII control character occurs in `s`. -/
def stringContainsCTLByte (s : GoString) : Bool :=
  s.any (fun b => decide (b < ch ' ') || decide (b = 127))

/-- Go `Userinfo`. -/
structure Userinfo where
  username : GoString
  password : GoString
  passwordSet : Bool
  deriving DecidableEq, Repr

/-- Go `url.URL`. -/
structure URL where
  Scheme : GoString := []
  Opaque : GoString := []
  User : Option Userinfo := none
  Host : GoString := []
  Path : GoString := []
  RawPath : GoString := []
  OmitHost : Bool := false
  ForceQuery : Bool := false
  RawQuery : GoString := []
  Fragment : GoString := []
  RawFragment : GoString := []
  deriving DecidableEq, Repr

/-- The scan of Go `getScheme` from position `i` on. -/
def getSchemeFrom (rawURL : GoString) : Nat → GoString → Except String (GoString × GoString)
  | _, [] => .ok ([], rawURL)
  | i, c :: rest =>
    if (ch 'a' ≤ c ∧ c ≤ ch 'z') ∨ (ch 'A' ≤ c ∧ c ≤ ch 'Z') then
      getSchemeFrom rawURL (i + 1) rest
    else if (ch '0' ≤ c ∧ c ≤ ch '9') ∨ c = ch '+' ∨ c = ch '-' ∨ c = ch '.' then
      if i = 0 then .ok ([], rawURL) else getSchemeFrom rawURL (i + 1) rest
    else if c = ch ':' then
      if i = 0 then .error "missing protocol scheme" else .ok (rawURL.take i, rest)
    else .ok ([], rawURL)

/-- Go `getScheme`: split off a leading `scheme:`; `(scheme, rest)`. -/
def getScheme (rawURL : GoString) : Except String (GoString × GoString) :=
  getSchemeFrom rawURL 0 rawURL

/-- Go `validOptionalPort`: empty, or `:` followed by digits only. -/
def validOptionalPort (port : GoString) : Bool :=
  match port with
  | [] => true
  | c :: digits =>
    decide (c = ch ':') && digits.all (fun b => decide (ch '0' ≤ b) && decide (b ≤ ch '9'))

/-- Go `validUserinfo`. -/
def validUserinfo (s : GoString) : Bool :=
  s.all (fun r =>
    isAlnum r ||
    decide (r ∈ [ch '-', ch '.', ch '_', ch ':', ch '~', ch '!', ch '$', ch '&', ch '\'',
                 ch '(', ch ')', ch '*', ch '+', ch ',', ch ';', ch '=', ch '%', ch '@']))

/-- Go `parseHost`: validate a host, with optional port, and unescape it. -/
def parseHost (host : GoString) : Except String GoString :=
  if strings.HasPrefix host (str "[") then
    match strings.LastIndexByte host (ch ']') with
    | none => .error "missing ']' in host"
    | some i =>
      let colonPort := host.drop (i + 1)
      if !validOptionalPort colonPort then .error "invalid port after host"
      else
        match strings.Index (host.take i) (str "%25") with
        | some zone =>
          match unescape (host.take zone) encodeHost with
          | .error e => .error e
          | .ok host1 =>
            match unescape ((host.take i).drop zone) encodeZone with
            | .error e => .error e
            | .ok host2 =>
              match unescape (host.drop i) encodeHost with
              | .error e => .error e
              | .ok host3 => .ok (host1 ++ host2 ++ host3)
        | none => unescape host encodeHost
  else
    match strings.LastIndexByte host (ch ':') with
    | some i =>
      if !validOptionalPort (host.drop i) then .error "invalid port after host"
      else unescape host encodeHost
    | none => unescape host encodeHost

/-- Go `parseAuthority`: `[userinfo@]host` into `(user, host)`. -/
def parseAuthority (authority : GoString) : Except String (Option Userinfo × GoString) :=
  match strings.LastIndexByte authority (ch '@') with
  | none =>
    match parseHost authority with
    | .error e => .error e
    | .ok host => .ok (none, host)
  | some i =>
    match parseHost (authority.drop (i + 1)) with
    | .error e => .error e
    | .ok host =>
      let userinfo := authority.take i
      if !validUserinfo userinfo then .error "net/url: invalid userinfo"
      else if !strings.ContainsByte userinfo (ch ':') then
        match unescape userinfo encodeUserPassword with
        | .error e => .error e
        | .ok username => .ok (some ⟨username, [], false⟩, host)
      else
        let c := strings.Cut userinfo (ch ':')
        match unescape c.1 encodeUserPassword with
        | .error e => .error e
        | .ok username =>
          match unescape c.2.1 encodeUserPassword with
          | .error e => .error e
          | .ok password => .ok (some ⟨username, password, true⟩, host)

/-- Go `(*URL).setPath`: set `Path` and, when the default escaping of the path
differs from the text given, `RawPath`. -/
def URL.setPath (u : URL) (p : GoString) : Except String URL :=
  match unescape p encodePath with
  | .error e => .error e
  | .ok path =>
    .ok { u with Path := path, RawPath := if p = escape path encodePath then [] else p }

/-- Go `(*URL).setFragment`. -/
def URL.setFragment (u : URL) (f : GoString) : Except String URL :=
  match unescape f encodeFragment with
  | .error e => .error e
  | .ok frag =>
    .ok { u with Fragment := frag,
                 RawFragment := if f = escape frag encodeFragment then [] else f }

/-- Go `parse`: a URL without fragment into its parts; `viaRequest` is the
stricter reading of a request target (absolute URI or absolute path only). -/
def parse (rawURL : GoString) (viaRequest : Bool) : Except String URL :=
  if stringContainsCTLByte rawURL then .error "net/url: invalid control character in URL"
  else if rawURL = [] ∧ viaRequest = true then .error "empty url"
  else if rawURL = str "*" then .ok { Path := str "*" }
  else
    match getScheme rawURL with
    | .error e => .error e
    | .ok (scheme0, rest0) =>
      let scheme := strings.ToLower scheme0
      let forceQuery : Bool :=
        strings.HasSuffix rest0 (str "?") && decide (strings.Count rest0 (ch '?') = 1)
      let rest : GoString :=
        if forceQuery then rest0.take (rest0.length - 1) else (strings.Cut rest0 (ch '?')).1
      let rawQuery : GoString :=
        if forceQuery then [] else (strings.Cut rest0 (ch '?')).2.1
      let u : URL := { Scheme := scheme, ForceQuery := forceQuery, RawQuery := rawQuery }
      if !strings.HasPrefix rest (str "/") ∧ scheme ≠ [] then
        .ok { u with Opaque := rest }
      else if !strings.HasPrefix rest (str "/") ∧ viaRequest = true then
        .error "invalid URI for request"
      else if !strings.HasPrefix rest (str "/") ∧
          strings.ContainsByte (strings.Cut rest (ch '/')).1 (ch ':') then
        .error "first path segment in URL cannot contain colon"
      else if (scheme ≠ [] ∨ (viaRequest = false ∧ !strings.HasPrefix rest (str "///"))) ∧
          strings.HasPrefix rest (str "//") then
        let afterSlashes := rest.drop 2
        let authority : GoString :=
          match strings.IndexByte afterSlashes (ch '/') with
          | some i => afterSlashes.take i
          | none => afterSlashes
        let path : GoString :=
          match strings.IndexByte afterSlashes (ch '/') with
          | some i => afterSlashes.drop i
          | none => []
        match parseAuthority authority with
        | .error e => .error e
        | .ok (user, host) => URL.setPath { u with User := user, Host := host } path
      else if scheme ≠ [] ∧ strings.HasPrefix rest (str "/") then
        URL.setPath { u with OmitHost := true } rest
      else URL.setPath u rest

/-- Go `url.Parse`: the fragment is cut off at the first `#`, the rest goes
through `parse`. -/
def Parse (rawURL : GoString) : Except String URL :=
  let c := strings.Cut rawURL (ch '#')
  match parse c.1 false with
  | .error e => .error e
  | .ok u => if c.2.1 = [] then .ok u else URL.setFragment u c.2.1

/-- Go `url.ParseRequestURI`: no fragment handling, request-target reading. -/
def ParseRequestURI (rawURL : GoString) : Except String URL := parse rawURL true

/-- Go `(*Userinfo).String`. -/
def Userinfo.String (u : Userinfo) : GoString :=
  escape u.username encodeUserPassword ++
    (if u.passwordSet then str ":" ++ escape u.password encodeUserPassword else [])

/-- Whether `raw` unescapes, without error, to `plain`. -/
def unescapesTo (raw : GoString) (mode : Encoding) (plain : GoString) : Bool :=
  match unescape raw mode with
  | .ok p => decide (p = plain)
  | .error _ => false

/-- Go `(*URL).EscapedPath`. -/
def URL.EscapedPath (u : URL) : GoString :=
  if u.RawPath ≠ [] ∧ validEncoding u.RawPath encodePath ∧
      unescapesTo u.RawPath encodePath u.Path then u.RawPath
  else if u.Path = str "*" then str "*"
  else escape u.Path encodePath

/-- Go `(*URL).EscapedFragment`. -/
def URL.EscapedFragment (u : URL) : GoString :=
  if u.RawFragment ≠ [] ∧ validEncoding u.RawFragment encodeFragment ∧
      unescapesTo u.RawFragment encodeFragment u.Fragment then u.RawFragment
  else escape u.Fragment encodeFragment

/-- Go `(*URL).String`: reassemble the URL text. -/
def URL.String (u : URL) : GoString :=
  let buf0 : GoString := if u.Scheme ≠ [] then u.Scheme ++ str ":" else []
  let buf1 : GoString :=
    if u.Opaque ≠ [] then buf0 ++ u.Opaque
    else
      let auth : GoString :=
        if u.Scheme ≠ [] ∨ u.Host ≠ [] ∨ u.User ≠ none then
          if u.OmitHost = true ∧ u.Host = [] ∧ u.User = none then []
          else
            (if u.Host ≠ [] ∨ u.Path ≠ [] ∨ u.User ≠ none then str "//" else []) ++
            (match u.User with
             | some ui => ui.String ++ str "@"
             | none => []) ++
            (if u.Host ≠ [] then escape u.Host encodeHost else [])
        else []
      let buf2 := buf0 ++ auth
      let path := u.EscapedPath
      let buf3 :=
        if path ≠ [] ∧ path.head? ≠ some (ch '/') ∧ u.Host ≠ [] then buf2 ++ str "/" else buf2
      let buf4 :=
        if buf3.length = 0 ∧ strings.ContainsByte (strings.Cut path (ch '/')).1 (ch ':') then
          buf3 ++ str "./"
        else buf3
      buf4 ++ path
  let buf5 := if u.ForceQuery = true ∨ u.RawQuery ≠ [] then buf1 ++ str "?" ++ u.RawQuery else buf1
  if u.Fragment ≠ [] then buf5 ++ str "#" ++ u.EscapedFragment else buf5

/-- Go `url.Values`: a map from key to the values given for it. The map is kept
as an association list with one entry per key; `Encode` visits the keys in
sorted order, so the order of the entries is not observable. -/
abbrev Values := List (GoString × List GoString)

/-- The map read `v[key]` (no entry reads as the empty slice). -/
def Values.get (v : Values) (key : GoString) : List GoString :=
  match v with
  | [] => []
  | (k, vs) :: rest => if k = key then vs else Values.get rest key

/-- The map write `m[key] = append(m[key], value)`. -/
def Values.add (m : Values) (key value : GoString) : Values :=
  match m with
  | [] => [(key, [value])]
  | (k, vs) :: rest =>
    if k = key then (k, vs ++ [value]) :: rest else (k, vs) :: Values.add rest key value

/-- The map write `m[key] = values`. -/
def Values.set (m : Values) (key : GoString) (values : List GoString) : Values :=
  match m with
  | [] => [(key, values)]
  | (k, vs) :: rest =>
    if k = key then (k, values) :: rest else (k, vs) :: Values.set rest key values

/-- One turn of the loop of Go `parseQuery`, on the segment `key` cut off at
`&`: the map and the first error so far, updated. -/
def parseQueryStep (acc : Values × Option String) (key : GoString) : Values × Option String :=
  if strings.ContainsByte key (ch ';') then (acc.1, some "invalid semicolon separator in query")
  else if key = [] then acc
  else
    let c := strings.Cut key (ch '=')
    match QueryUnescape c.1 with
    | .error e => (acc.1, some (acc.2.getD e))
    | .ok k =>
      match QueryUnescape c.2.1 with
      | .error e => (acc.1, some (acc.2.getD e))
      | .ok value => (Values.add acc.1 k value, acc.2)

/-- Go `parseQuery`: the loop `for query != ""` cuts one segment off at `&` per
turn, so it visits the `&`-separated segments of the query in order (an empty
segment is skipped by the loop body itself). -/
def parseQuery (query : GoString) : Values × Option String :=
  (strings.Split query (ch '&')).foldl parseQueryStep ([], none)

/-- Go `url.ParseQuery`: the map built, and the first error met if any. The map
is only used by the repository when there is no error. -/
def ParseQuery (query : GoString) : Except String Values :=
  match (parseQuery query).2 with
  | some e => .error e
  | none => .ok (parseQuery query).1

/-- Byte-wise lexicographic `a <= b`, the order of Go's string comparison. -/
def strLe : GoString → GoString → Bool
  | [], _ => true
  | _ :: _, [] => false
  | a :: as, b :: bs => decide (a < b) || (decide (a = b) && strLe as bs)

/-- Go `sort.Strings`. -/
def sortStrings (keys : List GoString) : List GoString :=
  keys.insertionSort (fun a b => strLe a b = true)

/-- The inner loop of Go `Values.Encode`: append `key=value` for every value of
one key, with `&` before it unless the buffer is still empty. -/
def encodeKey (keyEscaped : GoString) (buf : GoString) (vs : List GoString) : GoString :=
  vs.foldl (fun b v =>
    (if b.length > 0 then b ++ str "&" else b) ++ keyEscaped ++ str "=" ++ QueryEscape v) buf

/-- Go `Values.Encode`: `key=value` pairs joined by `&`, keys in sorted order,
the values of one key in their stored order. -/
def Values.Encode (v : Values) : GoString :=
  if v.length = 0 then []
  else
    (sortStrings (v.map Prod.fst)).foldl
      (fun buf k => encodeKey (QueryEscape k) buf (Values.get v k)) []

end url

/-! ## Package `hash/crc32` -/

namespace crc32

/-- One bit of the reflected CRC-32 division by the IEEE polynomial. -/
def step (crc : Nat) : Nat :=
  if crc % 2 = 1 then (crc / 2) ^^^ 0xEDB88320 else crc / 2

/-- The CRC register after one more input byte. -/
def update (crc : Nat) (b : Byte) : Nat :=
  step (step (step (step (step (step (step (step (crc ^^^ b.val))))))))

/-- Go `crc32.ChecksumIEEE`: the IEEE CRC-32 of the bytes, a `uint32`. -/
def ChecksumIEEE (data : GoString) : Nat :=
  (data.foldl update 0xFFFFFFFF ^^^ 0xFFFFFFFF) % 2 ^ 32

end crc32

/-! ## Package `regexp` -/

namespace regexp

/-- Go `regexp.MatchString("^[a-zA-Z0-9]+$", s)`: the pattern, anchored at both
ends of the text, asks for one or more bytes of the class `[a-zA-Z0-9]`. -/
def MatchAlnumPlus : GoString → Bool
  | [] => false
  | [c] => url.isAlnum c
  | c :: rest => url.isAlnum c && MatchAlnumPlus rest

end regexp

/-! ## Package `pkg/shortener` -/

namespace shortener

/-- Go `charset`: the 62 symbols of a slug. -/
def charset : GoString :=
  str "0123456789abcdefghijklmnopqrstuvwxyzABCDEFGHIJKLMNOPQRSTUVWXYZ"

/-- Go `shortener.Config` (the logger is not modelled). `SlugLength` is a Go
`int`. -/
structure Config where
  Domain : GoString
  Prefix : GoString
  SlugLength : Int
  deriving DecidableEq, Repr

/-- The loop of Go `base62Encode`, which fills `encoded[i]` for `i` from
`length - 1` down to `0`: `fill n number` is the final content of the first `n`
cells when `number` is the value the loop holds on reaching cell `n - 1`. -/
def base62Fill : Nat → Nat → GoString
  | 0, _ => []
  | n + 1, number =>
    base62Fill n (number / charset.length) ++ [charset.getD (number % charset.length) 0]

/-- Go `base62Encode(number uint32, length int)`. `make([]byte, length)` panics
for a negative length: that is `none`. -/
def base62Encode (number : Nat) (length : Int) : Option GoString :=
  if length < 0 then none else some (base62Fill length.toNat (number % 2 ^ 32))

/-- Go `(*CanonicalShortener).GenerateSlug`; `none` is the panic of
`base62Encode`. The Go function never returns a non-nil error. -/
def GenerateSlug (config : Config) (u : GoString) : Option GoString :=
  base62Encode (crc32.ChecksumIEEE u) config.SlugLength

/-- Go `(*CanonicalShortener).isValidSlug`. -/
def isValidSlug (config : Config) (slug : GoString) : Bool :=
  if (slug.length : Int) ≠ config.SlugLength then false
  else regexp.MatchAlnumPlus slug

/-- Go `canonicalizeQuery`: the query re-encoded with sorted keys, or the raw
query itself when it does not parse. -/
def canonicalizeQuery (rawQuery : GoString) : GoString :=
  match url.ParseQuery rawQuery with
  | .error _ => rawQuery
  | .ok params =>
    let canonicalQuery : url.Values :=
      params.foldl (fun m kv => url.Values.set m kv.1 kv.2) []
    canonicalQuery.Encode

/-- Go `canonicalizeURL`. -/
def canonicalizeURL (rawURL : GoString) : Except String GoString :=
  match url.Parse rawURL with
  | .error e => .error e
  | .ok parsedURL =>
    .ok ({ parsedURL with
            Host := strings.TrimPrefix parsedURL.Host (str "www."),
            RawQuery := canonicalizeQuery parsedURL.RawQuery } : url.URL).String

/-- Go `(*CanonicalShortener).GenerateShortURL`; the inner `Option` is the panic
of `base62Encode` (a negative `SlugLength`). -/
def GenerateShortURL (config : Config) (u : GoString) : Option (Except String GoString) :=
  match canonicalizeURL u with
  | .error e => some (.error e)
  | .ok canon =>
    match GenerateSlug config canon with
    | none => none
    | some slug => some (.ok (config.Domain ++ config.Prefix ++ slug))

/-- Go `(*CanonicalShortener).IsValidShortURL`. -/
def IsValidShortURL (config : Config) (u : GoString) : Bool :=
  match url.Parse (str "http://" ++ u) with
  | .error _ => false
  | .ok URL =>
    if !strings.HasPrefix URL.Path config.Prefix then false
    else isValidSlug config (strings.TrimPrefix URL.Path config.Prefix)

end shortener

/-! ## Package `pkg/model` -/

namespace model

/-- Go `model.URL`. `Expiry` is an instant (`time.Time`) counted in nanoseconds,
`ClickCount` a Go `int64`. -/
structure URL where
  OriginalURL : GoString := []
  ShortURL : GoString := []
  Expiry : Int := 0
  ClickCount : Int := 0
  deriving DecidableEq, Repr

/-- Go `(*URL).Sanitize`: the error, or the record with `OriginalURL` replaced by
its normalized text, cut to 2048 bytes. On an error the record is untouched. -/
def URL.Sanitize (u : URL) : Except String URL :=
  if u.OriginalURL = [] then .error "original URL is empty"
  else if !strings.HasPrefix u.OriginalURL (str "http") &&
      !strings.HasPrefix u.OriginalURL (str "https") then
    .error "unsupported URL scheme"
  else
    match url.ParseRequestURI u.OriginalURL with
    | .error e => .error e
    | .ok parsedURL =>
      let normalized := parsedURL.String
      .ok { u with OriginalURL :=
              if normalized.length > 2048 then normalized.take 2048 else normalized }

end model

/-! ## Package `pkg/repository` -/

namespace repository

/-- Go `repository.URLRepository`: the interface the handlers store through.
An implementation works on a store state `σ`. `Save` gets a pointer to the
record, so it also gives back the record as it leaves it. A Go `error` is
`Option String`, `none` for `nil`. -/
structure URLRepository (σ : Type) where
  Save : σ → model.URL → Option String × model.URL × σ
  Find : σ → GoString → Except String model.URL × σ
  IncrementClickCount : σ → GoString → Option String × σ

/-- A statement sent to the database. -/
inductive Statement where
  | upsert (short_url original_url : GoString) (expiry click_count : Int)
  | select (short_url : GoString)
  | increment (short_url : GoString)
  deriving DecidableEq, Repr

/-- The database behind `PostgresURLRepository`: the rows of table `urls`
(`short_url`, `original_url`, `expiry`, `click_count`) and the statements
sent so far, oldest first. Every statement reaches the database (no connection
failure); one the database refuses changes no row. An `expiry` is kept as it is
sent, to the nanosecond (PostgreSQL itself keeps microseconds). -/
structure DB where
  urls : List model.URL := []
  log : List Statement := []
  deriving DecidableEq, Repr

/-- The statement `INSERT INTO urls ... ON CONFLICT (short_url) DO UPDATE SET
original_url, expiry, click_count = EXCLUDED...` on the rows. -/
def upsert (rows : List model.URL) (u : model.URL) : List model.URL :=
  match rows with
  | [] => [u]
  | r :: rest =>
    if r.ShortURL = u.ShortURL then
      { r with OriginalURL := u.OriginalURL, Expiry := u.Expiry, ClickCount := u.ClickCount }
        :: rest
    else r :: upsert rest u

/-- Go `(*PostgresURLRepository).Save`. -/
def Save (db : DB) (u : model.URL) : Option String × model.URL × DB :=
  match u.Sanitize with
  | .error _ => (some "failed to sanitize URL", u, db)
  | .ok u1 =>
    (none, u1,
      { urls := upsert db.urls u1,
        log := db.log ++ [.upsert u1.ShortURL u1.OriginalURL u1.Expiry u1.ClickCount] })

/-- Go `(*PostgresURLRepository).Find`: `SELECT original_url, expiry,
click_count FROM urls WHERE short_url = $1`, first row. -/
def Find (db : DB) (shortURL : GoString) : Except String model.URL × DB :=
  let db1 : DB := { db with log := db.log ++ [.select shortURL] }
  match db.urls.find? (fun r => r.ShortURL = shortURL) with
  | none => (.error "error retrieving URL from database", db1)
  | some r =>
    (.ok { OriginalURL := r.OriginalURL, ShortURL := shortURL, Expiry := r.Expiry,
           ClickCount := r.ClickCount }, db1)

/-- Modelled from the spec: the declaration of table `urls` is not among the
repository's files. The spec gives `click_count` as an integer column; it is
taken to be a 64-bit one (`bigint`), the SQL type of the Go `int64` that `Find`
reads the column into and `Save` writes it from. This is its largest value,
which is also the largest `int64`. -/
def maxClickCount : Int := 9223372036854775807

/-- Go `(*PostgresURLRepository).IncrementClickCount`: `UPDATE urls SET
click_count = click_count + 1 WHERE short_url = $1`. Where `click_count + 1`
would pass `maxClickCount` for a row of that short URL the database refuses the
statement (integer out of range): no row changes and the error is returned. -/
def IncrementClickCount (db : DB) (shortURL : GoString) : Option String × DB :=
  if db.urls.any (fun r =>
      decide (r.ShortURL = shortURL) && decide (maxClickCount ≤ r.ClickCount)) then
    (some "error incrementing click count",
      { urls := db.urls, log := db.log ++ [.increment shortURL] })
  else
    (none,
      { urls := db.urls.map (fun r =>
          if r.ShortURL = shortURL then { r with ClickCount := r.ClickCount + 1 } else r),
        log := db.log ++ [.increment shortURL] })

/-- Go `NewPostgresURLRepository`. -/
def NewPostgresURLRepository : URLRepository DB :=
  { Save := Save, Find := Find, IncrementClickCount := IncrementClickCount }

end repository

/-! ## Package `pkg/shortener`: the interface -/

namespace shortener

/-- Go `shortener.Shortener`: the interface the handlers shorten through. The
`Option` of `GenerateShortURL` is `none` when the call panics. -/
structure Shortener where
  GenerateShortURL : GoString → Option (Except String GoString)
  IsValidShortURL : GoString → Bool

/-- Go `NewShortener`: the `CanonicalShortener` of a configuration. -/
def NewShortener (config : Config) : Shortener :=
  { GenerateShortURL := GenerateShortURL config, IsValidShortURL := IsValidShortURL config }

end shortener

/-! ## Package `pkg/handler` -/

namespace handler

/-- Go `handler.Handler` (the logger is not modelled). `expiryDuration` is a
`time.Duration` in nanoseconds. -/
structure Handler (σ : Type) where
  repo : repository.URLRepository σ
  shortener : shortener.Shortener
  domain : GoString
  expiryDuration : Int

/-- What a handler does to its `http.ResponseWriter`: the one `net/http` call
that ends the request, with its arguments. -/
inductive Response where
  /-- `http.Error(w, msg, code)`. -/
  | error (msg : String) (code : Nat)
  /-- `http.Redirect(w, r, url, code)`: status `code`, the `Location` header
  made from `url`. -/
  | redirect (location : GoString) (code : Nat)
  /-- `w.WriteHeader(code)` then `w.Write` of the JSON text of `body`. -/
  | json (code : Nat) (body : model.URL)
  /-- The handler panicked; `net/http` drops the request. -/
  | panicked
  deriving DecidableEq, Repr

/-- The status code of a response, if one is sent. -/
def Response.status : Response → Option Nat
  | .error _ code => some code
  | .redirect _ code => some code
  | .json code _ => some code
  | .panicked => none

/-- The body of a request to `ShortenURL`, as the handler gets to see it:
reading it may fail, `json.Unmarshal` into an empty `model.URL` may fail, or
it yields the record whose fields the JSON object sets. -/
inductive Body where
  | unreadable
  | malformed
  | decoded (u : model.URL)
  deriving DecidableEq, Repr

/-- The request fields `ShortenURL` reads. -/
structure ShortenRequest where
  Method : String
  Body : Body
  deriving DecidableEq, Repr

/-- The request fields `Redirect` reads: `r.Host` and `r.URL.Path`. -/
structure RedirectRequest where
  Host : GoString
  Path : GoString
  deriving DecidableEq, Repr

/-- Go `(*Handler).ShortenURL`; `now` is the value of `time.Now()`. -/
def ShortenURL {σ : Type} (h : Handler σ) (now : Int) (s : σ) (r : ShortenRequest) :
    Response × σ :=
  if r.Method ≠ "POST" then (.error "Method not allowed" 405, s)
  else
    match r.Body with
    | .unreadable => (.error "Invalid request" 400, s)
    | .malformed => (.error "Invalid JSON format" 400, s)
    | .decoded u0 =>
      match u0.Sanitize with
      | .error _ => (.error "Invalid input data" 400, s)
      | .ok u1 =>
        match h.shortener.GenerateShortURL u1.OriginalURL with
        | none => (.panicked, s)
        | some (.error _) => (.error "Failed to shorten URL" 500, s)
        | some (.ok shortURL) =>
          let u2 : model.URL := { u1 with ShortURL := shortURL, Expiry := now + h.expiryDuration }
          match h.repo.Save s u2 with
          | (some _, _, s1) => (.error "Failed to save URL" 500, s1)
          | (none, u3, s1) => (.json 201 u3, s1)

/-- Go `urlConstruct`: the lookup key of a request, host then path. -/
def urlConstruct (r : RedirectRequest) : GoString := r.Host ++ r.Path

/-- Go `(*Handler).redirect`: count the click, then redirect; a failure to
count is logged and does not stop the redirect. -/
def redirect {σ : Type} (h : Handler σ) (s : σ) (originalURL shortURL : GoString) :
    Response × σ :=
  match h.repo.IncrementClickCount s shortURL with
  | (_, s1) => (.redirect originalURL 302, s1)

/-- Go `(*Handler).Redirect`; `now` is the value of `time.Now()`. -/
def Redirect {σ : Type} (h : Handler σ) (now : Int) (s : σ) (r : RedirectRequest) :
    Response × σ :=
  let key := urlConstruct r
  if !h.shortener.IsValidShortURL key then (.error "Invalid slug" 400, s)
  else
    match h.repo.Find s key with
    | (.error _, s1) => (.error "URL not found" 404, s1)
    | (.ok u, s1) =>
      if now > u.Expiry then (.error "URL has expired" 410, s1)
      else redirect h s1 u.OriginalURL key

end handler

/-! ## Definitions used to state the properties -/

namespace url

/-- The decoded key of a query segment `key=value` (`none` when the key does
not unescape). -/
def segmentKey (seg : GoString) : Option GoString :=
  match QueryUnescape (strings.Cut seg (ch '=')).1 with
  | .ok k => some k
  | .error _ => none

/-- The decoded `(key, value)` a query segment adds to the map, if it adds
one: an empty segment, one with a semicolon and one that does not unescape add
none. -/
def segmentPair (seg : GoString) : Option (GoString × GoString) :=
  if strings.ContainsByte seg (ch ';') then none
  else if seg = [] then none
  else
    match QueryUnescape (strings.Cut seg (ch '=')).1 with
    | .error _ => none
    | .ok k =>
      match QueryUnescape (strings.Cut seg (ch '=')).2.1 with
      | .error _ => none
      | .ok v => some (k, v)

/-- A query segment that makes `ParseQuery` report an error. -/
def segmentFails (seg : GoString) : Bool :=
  strings.ContainsByte seg (ch ';') || (decide (seg ≠ []) && (segmentPair seg).isNone)

/-- The map after adding the pairs `ps`, in order, to `m`. -/
def Values.addAll (m : Values) (ps : List (GoString × GoString)) : Values :=
  ps.foldl (fun acc p => Values.add acc p.1 p.2) m

/-- The keys of a map. -/
def Values.keys (m : Values) : List GoString := m.map Prod.fst

/-- The bytes after the last `:` of a host, if it has one. -/
def lastSeg : GoString → Option GoString
  | [] => none
  | x :: xs =>
    match lastSeg xs with
    | some t => some t
    | none => if x = ch ':' then some xs else none

/-- A decimal digit. -/
def isDigit (b : Byte) : Bool := decide (ch '0' ≤ b) && decide (b ≤ ch '9')

/-- What follows the last `:` of a host, if anything, is a port number. -/
def portOK (s : GoString) : Bool :=
  match lastSeg s with
  | some t => t.all isDigit
  | none => true

/-- A byte an unescaped host can hold: a non-ASCII byte, a percent sign, or an
ASCII byte a host need not escape. -/
def hostLegal (b : Byte) : Bool :=
  decide (128 ≤ b.val) || decide (b = ch '%') || !shouldEscape b Encoding.encodeHost

/-- User information as `parseAuthority` builds it: without a password the
password field is empty. -/
def userOK (u : Option Userinfo) : Bool :=
  match u with
  | none => true
  | some ui => ui.passwordSet || decide (ui.password = [])

/-- The text `String` writes for the user information, with its `@`. -/
def userText (u : Option Userinfo) : GoString :=
  match u with
  | some ui => ui.String ++ str "@"
  | none => []

/-- A byte a scheme can hold after its first. -/
def isSchemeByte (c : Byte) : Bool :=
  (decide (ch 'a' ≤ c) && decide (c ≤ ch 'z')) || (decide (ch 'A' ≤ c) && decide (c ≤ ch 'Z')) ||
  (decide (ch '0' ≤ c) && decide (c ≤ ch '9')) || decide (c = ch '+') || decide (c = ch '-') ||
  decide (c = ch '.')

/-- An ASCII letter. -/
def isLetter (c : Byte) : Bool :=
  (decide (ch 'a' ≤ c) && decide (c ≤ ch 'z')) || (decide (ch 'A' ≤ c) && decide (c ≤ ch 'Z'))

/-- A scheme as `getScheme` accepts one: a letter, then letters, digits, `+`,
`-` and `.`. -/
def validScheme (s : GoString) : Bool :=
  match s with
  | [] => false
  | c :: rest => isLetter c && rest.all isSchemeByte

/-- The authority and the path `parse` cuts what follows `//` into. -/
def cutAuthority (afterSlashes : GoString) : GoString × GoString :=
  match strings.IndexByte afterSlashes (ch '/') with
  | some i => (afterSlashes.take i, afterSlashes.drop i)
  | none => (afterSlashes, [])

/-- The part of `parse` after the scheme and the query are split off, as a
function of what those steps computed. -/
def parseRest (scheme : GoString) (forceQuery : Bool) (rawQuery rest : GoString)
    (viaRequest : Bool) : Except String URL :=
  if !strings.HasPrefix rest (str "/") ∧ scheme ≠ [] then
    .ok { Scheme := scheme, ForceQuery := forceQuery, RawQuery := rawQuery, Opaque := rest }
  else if !strings.HasPrefix rest (str "/") ∧ viaRequest = true then
    .error "invalid URI for request"
  else if !strings.HasPrefix rest (str "/") ∧
      strings.ContainsByte (strings.Cut rest (ch '/')).1 (ch ':') then
    .error "first path segment in URL cannot contain colon"
  else if (scheme ≠ [] ∨ (viaRequest = false ∧ !strings.HasPrefix rest (str "///"))) ∧
      strings.HasPrefix rest (str "//") then
    match parseAuthority (cutAuthority (rest.drop 2)).1 with
    | .error e => .error e
    | .ok (user, host) =>
      URL.setPath { Scheme := scheme, ForceQuery := forceQuery, RawQuery := rawQuery,
                    User := user, Host := host } (cutAuthority (rest.drop 2)).2
  else if scheme ≠ [] ∧ strings.HasPrefix rest (str "/") then
    URL.setPath { Scheme := scheme, ForceQuery := forceQuery, RawQuery := rawQuery,
                  OmitHost := true } rest
  else URL.setPath { Scheme := scheme, ForceQuery := forceQuery, RawQuery := rawQuery } rest

/-- Whether `parse` reads a lone trailing `?` (an empty query that is kept). -/
def forceQueryOf (rest0 : GoString) : Bool :=
  strings.HasSuffix rest0 (str "?") && decide (strings.Count rest0 (ch '?') = 1)

/-- The text before the query, as `parse` cuts it. -/
def restOf (rest0 : GoString) : GoString :=
  if forceQueryOf rest0 then rest0.take (rest0.length - 1) else (strings.Cut rest0 (ch '?')).1

/-- The raw query, as `parse` cuts it. -/
def rawQueryOf (rest0 : GoString) : GoString :=
  if forceQueryOf rest0 then [] else (strings.Cut rest0 (ch '?')).2.1

/-- A byte that is neither `#` nor an ASCII control character. -/
def plainByte (c : Byte) : Bool :=
  !decide (c = ch '#') && !decide (c < ch ' ') && !decide (c = 127)

/-- The text `String` writes before the fragment for a URL with a host: scheme,
`//`, user information, host, path and query. -/
def mainText (scheme : GoString) (user : Option Userinfo) (host E : GoString) (fq : Bool)
    (q : GoString) : GoString :=
  (if scheme ≠ [] then scheme ++ [ch ':'] else []) ++
    (str "//" ++ (userText user ++ escape host Encoding.encodeHost ++ E) ++
      (if fq = true ∨ q ≠ [] then ch '?' :: q else []))

/-- The escaped form `EscapedPath` and `EscapedFragment` choose: the raw text
when it is a valid encoding of the plain one, the default escaping otherwise. -/
def escapedForm (raw plain : GoString) (mode : Encoding) : GoString :=
  if raw ≠ [] ∧ validEncoding raw mode ∧ unescapesTo raw mode plain then raw
  else escape plain mode

end url

namespace shortener

/-- The number a slug denotes: its symbols read as base-62 digits, most
significant first, a symbol's digit being its position in `charset`. -/
def base62Value (s : GoString) : Nat :=
  s.foldl (fun acc c => acc * 62 + charset.indexOf c) 0

/-- The configuration of the repository's shortener tests (`setupShortener`). -/
def testConfig : Config :=
  { Domain := str "http://sho.rt", Prefix := str "/s/", SlugLength := 6 }

end shortener

namespace handler

/-- The handler as `main` builds it from the defaults of `LoadConfig`: domain
`http://tiny.io`, prefix `/r/`, slugs of 6 symbols, records kept 168 hours;
`main` leaves `HandlerConfiguration.Domain` empty. -/
def defaultHandler : Handler repository.DB :=
  { repo := repository.NewPostgresURLRepository,
    shortener := shortener.NewShortener
      { Domain := str "http://tiny.io", Prefix := str "/r/", SlugLength := 6 },
    domain := [],
    expiryDuration := 604800000000000 }

/-- The handler over the Postgres repository with shortener `sh`. -/
def postgresHandler (sh : shortener.Shortener) (domain : GoString) (expiryDuration : Int) :
    Handler repository.DB :=
  { repo := repository.NewPostgresURLRepository, shortener := sh, domain := domain,
    expiryDuration := expiryDuration }

/-- The click counter the table holds for a short URL (of its first row, the
one `Find` reads), if there is a row. -/
def storedClickCount (db : repository.DB) (shortURL : GoString) : Option Int :=
  (db.urls.find? (fun r => r.ShortURL = shortURL)).map (fun r => r.ClickCount)

/-- The request `POST /create` with body `{"original_url": u}`. -/
def createRequest (u : String) : ShortenRequest :=
  { Method := "POST", Body := .decoded { OriginalURL := str u } }

/-- The request `POST /create` with body `{"original_url": u}`, for the bytes
of `u`. -/
def createRequestOf (u : GoString) : ShortenRequest :=
  { Method := "POST", Body := .decoded { OriginalURL := u } }

/-- The handler of `main` with `DOMAIN` set to `tiny.io`: the domain without a
scheme, as the lookup key of `Redirect` has it. -/
def bareDomainHandler : Handler repository.DB :=
  postgresHandler
    (shortener.NewShortener { Domain := str "tiny.io", Prefix := str "/r/", SlugLength := 6 })
    [] 604800000000000

/-- The text `Sanitize` normalizes `u` to, before it is cut to 2048 bytes. -/
def normalizedForm (u : GoString) : Except String GoString :=
  match url.ParseRequestURI u with
  | .error e => .error e
  | .ok parsedURL => .ok parsedURL.String

/-- A URL of 2059 bytes whose scheme has 2045 letters:
`httpa...a://example.com`. -/
def longSchemeURL : GoString :=
  str "http" ++ List.replicate 2041 (ch 'a') ++ str "://example.com"

/-- A URL of 2050 bytes whose scheme has 2048 letters: `httpa...a:x`. -/
def longerSchemeURL : GoString :=
  str "http" ++ List.replicate 2044 (ch 'a') ++ str ":x"

/-- A URL of 1019 bytes with 1000 spaces in its path. -/
def spacesURL : GoString :=
  str "http://example.com/" ++ List.replicate 1000 (ch ' ')

end handler

/-! # Properties -/

namespace shortener

theorem charset_length : charset.length = 62 := by decide

theorem base62Fill_length (n number : Nat) : (base62Fill n number).length = n := by
  induction n generalizing number with
  | zero => rfl
  | succ n ih => simp [base62Fill, ih]

theorem charset_getD_mem (i : Nat) (h : i < 62) : charset.getD i 0 ∈ charset := by
  have hlen : i < charset.length := by rw [charset_length]; exact h
  rw [List.getD_eq_getElem _ _ hlen]
  exact List.getElem_mem hlen

theorem base62Fill_mem (n number : Nat) : ∀ c ∈ base62Fill n number, c ∈ charset := by
  induction n generalizing number with
  | zero => intro c hc; simp [base62Fill] at hc
  | succ n ih =>
    intro c hc
    simp only [base62Fill, List.mem_append, List.mem_singleton] at hc
    rcases hc with hc | hc
    · exact ih _ c hc
    · subst hc
      exact charset_getD_mem _ (by rw [charset_length]; exact Nat.mod_lt _ (by decide))

theorem charset_indexOf_getD : ∀ i : Fin 62, charset.indexOf (charset.getD i.val 0) = i.val := by
  decide!

theorem base62Value_append (xs : GoString) (c : Byte) :
    base62Value (xs ++ [c]) = base62Value xs * 62 + charset.indexOf c := by
  simp [base62Value, List.foldl_append]

theorem base62Value_fill (n number : Nat) :
    base62Value (base62Fill n number) = number % 62 ^ n := by
  induction n generalizing number with
  | zero => simp [base62Fill, base62Value, Nat.mod_one]
  | succ n ih =>
    have hlt : number % 62 < 62 := Nat.mod_lt _ (by decide)
    have hidx := charset_indexOf_getD ⟨number % 62, hlt⟩
    simp only at hidx
    rw [base62Fill, base62Value_append, ih, charset_length, hidx, pow_succ', Nat.mod_mul]
    ring

/-- C2. For every 32-bit unsigned `n` and every length `L >= 0`,
`base62Encode(n, L)` returns a string of exactly `L` symbols, each from the
62-symbol alphabet, which read most-significant digit first is `n mod 62^L`
(and `n` itself when `L >= 6`). Hence for every input `u` and every
non-negative `SlugLength`, `GenerateSlug` returns a slug of exactly
`SlugLength` alphabet symbols, the same for equal inputs. -/
theorem C2_base62Encode_fixed_width (n L : Nat) (hn : n < 2 ^ 32) (config : Config)
    (u : GoString) (hL : 0 ≤ config.SlugLength) :
    (∃ s, base62Encode n (L : Int) = some s ∧ s.length = L ∧ (∀ c ∈ s, c ∈ charset) ∧
        base62Value s = n % 62 ^ L ∧ (6 ≤ L → base62Value s = n)) ∧
    (∃ slug, GenerateSlug config u = some slug ∧ (slug.length : Int) = config.SlugLength ∧
        (∀ c ∈ slug, c ∈ charset) ∧
        ∀ u2, u2 = u → GenerateSlug config u2 = some slug) := by
  constructor
  · refine ⟨base62Fill L (n % 2 ^ 32), ?_, base62Fill_length _ _, base62Fill_mem _ _, ?_, ?_⟩
    · simp [base62Encode]
    · rw [base62Value_fill, Nat.mod_eq_of_lt hn]
    · intro h6
      rw [base62Value_fill, Nat.mod_eq_of_lt hn]
      apply Nat.mod_eq_of_lt
      calc n < 2 ^ 32 := hn
        _ < 62 ^ 6 := by norm_num
        _ ≤ 62 ^ L := Nat.pow_le_pow_right (by decide) h6
  · refine ⟨base62Fill config.SlugLength.toNat (crc32.ChecksumIEEE u % 2 ^ 32), ?_, ?_,
      base62Fill_mem _ _, ?_⟩
    · simp [GenerateSlug, base62Encode, not_lt.mpr hL]
    · rw [base62Fill_length]; exact Int.toNat_of_nonneg hL
    · intro u2 h2
      subst h2
      simp [GenerateSlug, base62Encode, not_lt.mpr hL]

/-- C2, at a concrete input: `base62Encode(3844, 3)` and the slug of the test's
`http://example.com` with `SlugLength` 6. -/
theorem C2_base62Encode_fixed_width_witness :
    (3844 : Nat) < 2 ^ 32 ∧
    base62Encode 3844 3 = some (str "100") ∧
    GenerateSlug testConfig (str "http://example.com") = some (str "3W7xJW") ∧
    ((∃ s, base62Encode 3844 ((3 : Nat) : Int) = some s ∧ s.length = 3 ∧
        (∀ c ∈ s, c ∈ charset) ∧ base62Value s = 3844 % 62 ^ 3 ∧
        (6 ≤ 3 → base62Value s = 3844)) ∧
     (∃ slug, GenerateSlug testConfig (str "http://example.com") = some slug ∧
        (slug.length : Int) = testConfig.SlugLength ∧ (∀ c ∈ slug, c ∈ charset) ∧
        ∀ u2, u2 = str "http://example.com" → GenerateSlug testConfig u2 = some slug)) :=
  ⟨by norm_num, by decide!, by decide!,
   C2_base62Encode_fixed_width 3844 3 (by norm_num) testConfig
     (str "http://example.com") (by decide)⟩

end shortener

namespace handler

/-- C1, at the default configuration. Shortening `http://test.com` answers 201
with `short_url = http://tiny.io/r/28UZbv` and stores the record under that
key; one nanosecond later a GET request to that short URL reaches `Redirect`
with host `tiny.io` and path `/r/28UZbv`: the key `tiny.io/r/28UZbv` passes the
shape check but names no record, and the answer is 404 instead of 302. With the
host the repository's test puts in the request (the domain with its scheme),
the shape check itself fails and the answer is 400. -/
theorem C1_round_trip_default_config :
    ShortenURL defaultHandler 0 {} (createRequest "http://test.com") =
      (.json 201 { OriginalURL := str "http://test.com",
                   ShortURL := str "http://tiny.io/r/28UZbv",
                   Expiry := 604800000000000, ClickCount := 0 },
       { urls := [{ OriginalURL := str "http://test.com",
                    ShortURL := str "http://tiny.io/r/28UZbv",
                    Expiry := 604800000000000, ClickCount := 0 }],
         log := [.upsert (str "http://tiny.io/r/28UZbv") (str "http://test.com")
                   604800000000000 0] }) ∧
    defaultHandler.shortener.IsValidShortURL (str "tiny.io/r/28UZbv") = true ∧
    (Redirect defaultHandler 1
        (ShortenURL defaultHandler 0 {} (createRequest "http://test.com")).2
        { Host := str "tiny.io", Path := str "/r/28UZbv" }).1 =
      .error "URL not found" 404 ∧
    (Redirect defaultHandler 1
        (ShortenURL defaultHandler 0 {} (createRequest "http://test.com")).2
        { Host := str "http://tiny.io", Path := str "/r/28UZbv" }).1 =
      .error "Invalid slug" 400 := by
  decide!

end handler

namespace strings

theorem HasPrefix_iff (s pre : GoString) : HasPrefix s pre = true ↔ ∃ t, s = pre ++ t := by
  unfold HasPrefix
  rw [List.isPrefixOf_iff_prefix]
  constructor
  · rintro ⟨t, ht⟩; exact ⟨t, ht.symm⟩
  · rintro ⟨t, ht⟩; exact ⟨t, ht.symm⟩

theorem HasPrefix_append (pre t : GoString) : HasPrefix (pre ++ t) pre = true :=
  (HasPrefix_iff _ _).mpr ⟨t, rfl⟩

theorem TrimPrefix_append (pre t : GoString) : TrimPrefix (pre ++ t) pre = t := by
  simp [TrimPrefix, HasPrefix_append]

theorem TrimPrefix_of_not (s pre : GoString) (h : HasPrefix s pre = false) :
    TrimPrefix s pre = s := by
  simp [TrimPrefix, h]

end strings

namespace regexp

theorem MatchAlnumPlus_iff (s : GoString) :
    MatchAlnumPlus s = true ↔ s ≠ [] ∧ ∀ c ∈ s, url.isAlnum c = true := by
  induction s with
  | nil => simp [MatchAlnumPlus]
  | cons c rest ih =>
    cases rest with
    | nil => simp [MatchAlnumPlus]
    | cons d rest2 =>
      have hstep : MatchAlnumPlus (c :: d :: rest2) =
          (url.isAlnum c && MatchAlnumPlus (d :: rest2)) := rfl
      rw [hstep, Bool.and_eq_true, ih]
      simp

end regexp

namespace shortener

/-- C5, as stated, fails: `http://www.www.example.com` and
`http://www.example.com` parse to the same URL but for the leading `www.` of
the host, and their canonical forms differ (`http://www.example.com` and
`http://example.com`). -/
theorem C5_counterexample :
    ∃ U : url.URL,
      url.Parse (str "http://www.example.com") = .ok U ∧
      url.Parse (str "http://www.www.example.com") =
        .ok { U with Host := str "www." ++ U.Host } ∧
      canonicalizeURL (str "http://www.www.example.com") = .ok (str "http://www.example.com") ∧
      canonicalizeURL (str "http://www.example.com") = .ok (str "http://example.com") ∧
      canonicalizeURL (str "http://www.www.example.com") ≠
        canonicalizeURL (str "http://www.example.com") :=
  ⟨{ Scheme := str "http", Host := str "www.example.com" }, by decide!, by decide!, by decide!,
    by decide!, by decide!⟩

/-- C5, amended. Two URLs whose parsed forms differ only in a leading `www.` of
the host have the same canonical text, namely the text of the URL without that
prefix (and with the canonical query), provided the host without the prefix
does not itself start with `www.`. -/
theorem C5_www_prefix_removed (u1 u2 : GoString) (U : url.URL)
    (h2 : url.Parse u2 = .ok U)
    (h1 : url.Parse u1 = .ok { U with Host := str "www." ++ U.Host })
    (hH : strings.HasPrefix U.Host (str "www.") = false) :
    canonicalizeURL u1 = canonicalizeURL u2 ∧
    canonicalizeURL u1 =
      .ok ({ U with RawQuery := canonicalizeQuery U.RawQuery } : url.URL).String := by
  simp only [canonicalizeURL, h1, h2, strings.TrimPrefix_append,
    strings.TrimPrefix_of_not _ _ hH, and_self]

/-- C5, amended, at the test's pair `http://www.example.com` and
`http://example.com`: both canonicalize to `http://example.com`. -/
theorem C5_www_prefix_removed_witness :
    canonicalizeURL (str "http://www.example.com") = .ok (str "http://example.com") ∧
    (canonicalizeURL (str "http://www.example.com") =
        canonicalizeURL (str "http://example.com") ∧
     canonicalizeURL (str "http://www.example.com") =
      .ok ({ ({ Scheme := str "http", Host := str "example.com" } : url.URL) with
              RawQuery := canonicalizeQuery [] } : url.URL).String) :=
  ⟨by decide!,
   C5_www_prefix_removed (str "http://www.example.com") (str "http://example.com")
     { Scheme := str "http", Host := str "example.com" } (by decide!) (by decide!) (by decide!)⟩

theorem isValidSlug_iff (config : Config) (slug : GoString) :
    isValidSlug config slug = true ↔
      (slug.length : Int) = config.SlugLength ∧ slug ≠ [] ∧
        ∀ c ∈ slug, url.isAlnum c = true := by
  unfold isValidSlug
  by_cases h : (slug.length : Int) = config.SlugLength
  · simp [h, regexp.MatchAlnumPlus_iff]
  · simp [h]

/-- C6, as stated, fails for `SlugLength = 0`: the path `/s/` starts with the
prefix `/s/` and the remainder has exactly 0 characters, all of them (there is
none) letters or digits, yet `IsValidShortURL` returns false, because the
pattern `^[a-zA-Z0-9]+$` wants at least one character. -/
theorem C6_counterexample :
    IsValidShortURL { Domain := str "http://sho.rt", Prefix := str "/s/", SlugLength := 0 }
      (str "/s/") = false ∧
    ∃ U : url.URL, url.Parse (str "http://" ++ str "/s/") = .ok U ∧
      ∃ slug : GoString, U.Path = str "/s/" ++ slug ∧ (slug.length : Int) = 0 ∧
        ∀ c ∈ slug, url.isAlnum c = true :=
  ⟨by decide!, { Scheme := str "http", Path := str "/s/" }, by decide!, [], by decide!,
    by decide, by simp⟩

/-- C6, amended. `IsValidShortURL(u)` is true if and only if `http://` + `u`
parses, its path is the configured prefix followed by a remainder that is not
empty, has exactly `SlugLength` characters and consists of ASCII letters and
digits only. With prefix `/s/` and length 6 it accepts `/s/abc123` and rejects
`/s/xyz6789`, `xyz789` and `/s/`. -/
theorem C6_IsValidShortURL_iff :
    (∀ (config : Config) (u : GoString),
      IsValidShortURL config u = true ↔
        ∃ U : url.URL, url.Parse (str "http://" ++ u) = .ok U ∧
          ∃ slug : GoString, U.Path = config.Prefix ++ slug ∧
            (slug.length : Int) = config.SlugLength ∧ slug ≠ [] ∧
            ∀ c ∈ slug, url.isAlnum c = true) ∧
    IsValidShortURL testConfig (str "/s/abc123") = true ∧
    IsValidShortURL testConfig (str "/s/xyz6789") = false ∧
    IsValidShortURL testConfig (str "xyz789") = false ∧
    IsValidShortURL testConfig (str "/s/") = false := by
  refine ⟨?_, by decide!, by decide!, by decide!, by decide!⟩
  intro config u
  unfold IsValidShortURL
  cases hp : url.Parse (str "http://" ++ u) with
  | error e => simp
  | ok U =>
    simp only [Except.ok.injEq, exists_eq_left']
    by_cases hpre : strings.HasPrefix U.Path config.Prefix = true
    · obtain ⟨slug, hslug⟩ := (strings.HasPrefix_iff _ _).mp hpre
      simp only [hslug, strings.HasPrefix_append, Bool.not_true, Bool.false_eq_true, if_false,
        strings.TrimPrefix_append, isValidSlug_iff, List.append_cancel_left_eq]
      constructor
      · intro h; exact ⟨slug, rfl, h⟩
      · rintro ⟨slug2, h2, h⟩; subst h2; exact h
    · simp only [hpre, Bool.not_false, if_true, Bool.false_eq_true, false_iff]
      rintro ⟨slug, hslug, -⟩
      exact hpre ((strings.HasPrefix_iff _ _).mpr ⟨slug, hslug⟩)

end shortener

namespace handler

open repository

theorem find_map_bump (key : GoString) (rows : List model.URL) :
    (rows.map (fun r =>
        if r.ShortURL = key then { r with ClickCount := r.ClickCount + 1 } else r)).find?
      (fun r => r.ShortURL = key) =
    (rows.find? (fun r => r.ShortURL = key)).map
      (fun r => { r with ClickCount := r.ClickCount + 1 }) := by
  induction rows with
  | nil => rfl
  | cons r rest ih =>
    by_cases h : r.ShortURL = key
    · simp [List.find?, h]
    · simp [List.find?, h, ih]

theorem find_map_bump_other (key k : GoString) (hk : k ≠ key) (rows : List model.URL) :
    (rows.map (fun r =>
        if r.ShortURL = key then { r with ClickCount := r.ClickCount + 1 } else r)).find?
      (fun r => r.ShortURL = k) =
    rows.find? (fun r => r.ShortURL = k) := by
  induction rows with
  | nil => rfl
  | cons r rest ih =>
    rw [List.map_cons, List.find?_cons, List.find?_cons, ih]
    by_cases h2 : r.ShortURL = k
    · have hne : ¬ r.ShortURL = key := fun e => hk (h2.symm.trans e)
      simp only [if_neg hne]
    · have hs : (if r.ShortURL = key then
          ({ r with ClickCount := r.ClickCount + 1 } : model.URL) else r).ShortURL =
          r.ShortURL := by
        split <;> rfl
      simp only [hs, h2, decide_False]

/-- No row of short URL `key` is at the largest counter value, as the test the
increment statement makes. -/
theorem no_overflow_of_room (rows : List model.URL) (key : GoString)
    (hroom : ∀ row ∈ rows, row.ShortURL = key → row.ClickCount < maxClickCount) :
    rows.any (fun r => decide (r.ShortURL = key) && decide (maxClickCount ≤ r.ClickCount)) =
      false := by
  rw [List.any_eq_false]
  intro row hrow
  by_cases hk : row.ShortURL = key
  · have := hroom row hrow hk
    simp [hk, not_le.mpr this]
  · simp [hk]

/-- After the increment every row of short URL `key` is one higher. -/
theorem room_after_bump (rows : List model.URL) (key : GoString)
    (hroom : ∀ row ∈ rows, row.ShortURL = key → row.ClickCount + 1 < maxClickCount) :
    ∀ row ∈ rows.map (fun r =>
        if r.ShortURL = key then { r with ClickCount := r.ClickCount + 1 } else r),
      row.ShortURL = key → row.ClickCount < maxClickCount := by
  intro row hrow hk
  obtain ⟨r0, hr0, rfl⟩ := List.mem_map.mp hrow
  by_cases h0 : r0.ShortURL = key
  · simp only [h0, if_true]
    exact hroom r0 hr0 h0
  · simp only [h0, if_false] at hk

/-- What `Redirect` does on a request of valid shape whose record is found and
has not expired, when the counter has room for one more: the whole response
and the whole database afterwards. -/
theorem Redirect_live (sh : shortener.Shortener) (domain : GoString) (ttl now : Int)
    (db : DB) (req : RedirectRequest) (r : model.URL)
    (hshape : sh.IsValidShortURL (urlConstruct req) = true)
    (hfound : db.urls.find? (fun row => row.ShortURL = urlConstruct req) = some r)
    (hexp : now ≤ r.Expiry)
    (hroom : ∀ row ∈ db.urls, row.ShortURL = urlConstruct req →
      row.ClickCount < maxClickCount) :
    Redirect (postgresHandler sh domain ttl) now db req =
      (.redirect r.OriginalURL 302,
       { urls := db.urls.map (fun row =>
           if row.ShortURL = urlConstruct req then
             { row with ClickCount := row.ClickCount + 1 } else row),
         log := db.log ++ [.select (urlConstruct req), .increment (urlConstruct req)] }) := by
  have hany := no_overflow_of_room db.urls (urlConstruct req) hroom
  simp [Redirect, postgresHandler, NewPostgresURLRepository, hshape, Find, hfound,
    not_lt.mpr hexp, redirect, IncrementClickCount, hany]

/-- What `Redirect` does on such a request when the database refuses the
increment: the redirect is issued all the same and no row changes. -/
theorem Redirect_refused (sh : shortener.Shortener) (domain : GoString) (ttl now : Int)
    (db : DB) (req : RedirectRequest) (r : model.URL)
    (hshape : sh.IsValidShortURL (urlConstruct req) = true)
    (hfound : db.urls.find? (fun row => row.ShortURL = urlConstruct req) = some r)
    (hexp : now ≤ r.Expiry)
    (hfull : db.urls.any (fun row => decide (row.ShortURL = urlConstruct req) &&
      decide (maxClickCount ≤ row.ClickCount)) = true) :
    Redirect (postgresHandler sh domain ttl) now db req =
      (.redirect r.OriginalURL 302,
       { urls := db.urls,
         log := db.log ++ [.select (urlConstruct req), .increment (urlConstruct req)] }) := by
  simp [Redirect, postgresHandler, NewPostgresURLRepository, hshape, Find, hfound,
    not_lt.mpr hexp, redirect, IncrementClickCount, hfull]

/-- C7, as stated, fails where the counter is at the largest value of its
column, 9223372036854775807: the database refuses `click_count + 1`, `redirect`
logs the failure and goes on, so the answer is the 302 redirect and the counter
is what it was. The first part is that at a table holding such a row. The
second reaches one: with `DOMAIN=tiny.io`, a body that carries this
`click_count` is stored with it, and the redirect that follows leaves it. -/
theorem C7_counterexample :
    Redirect (postgresHandler (shortener.NewShortener shortener.testConfig) [] 0) 5
        { urls := [{ OriginalURL := str "http://test.com", ShortURL := str "sho.rt/s/abc123",
                     Expiry := 100, ClickCount := 9223372036854775807 }] }
        { Host := str "sho.rt", Path := str "/s/abc123" } =
      (.redirect (str "http://test.com") 302,
       { urls := [{ OriginalURL := str "http://test.com", ShortURL := str "sho.rt/s/abc123",
                    Expiry := 100, ClickCount := 9223372036854775807 }],
         log := [.select (str "sho.rt/s/abc123"), .increment (str "sho.rt/s/abc123")] }) ∧
    (storedClickCount
        (ShortenURL bareDomainHandler 0 {}
          { Method := "POST",
            Body := .decoded { OriginalURL := str "http://test.com",
                               ClickCount := 9223372036854775807 } }).2
        (str "tiny.io/r/28UZbv") = some 9223372036854775807 ∧
      (Redirect bareDomainHandler 1
        (ShortenURL bareDomainHandler 0 {}
          { Method := "POST",
            Body := .decoded { OriginalURL := str "http://test.com",
                               ClickCount := 9223372036854775807 } }).2
        { Host := str "tiny.io", Path := str "/r/28UZbv" }).1 =
        .redirect (str "http://test.com") 302 ∧
      storedClickCount
        (Redirect bareDomainHandler 1
          (ShortenURL bareDomainHandler 0 {}
            { Method := "POST",
              Body := .decoded { OriginalURL := str "http://test.com",
                                 ClickCount := 9223372036854775807 } }).2
          { Host := str "tiny.io", Path := str "/r/28UZbv" }).2
        (str "tiny.io/r/28UZbv") = some 9223372036854775807) := by
  decide!

/-- C7, amended. For every `Redirect` request whose short URL has a valid shape
and whose record exists with its expiry in the future and its counter below the
largest value of the column (`short_url` is the key of the table, so the rows
of that short URL are that one record), the response is a 302 redirect to the
record's `original_url`; the stored `click_count` of that record is its former
value plus 1, every row of another short URL is unchanged, and the database saw
one lookup and one increment. When the counter is below that largest value by
more than one, a second such redirect leaves it at the initial value plus 2. -/
theorem C7_redirect_counts_one_click (sh : shortener.Shortener) (domain : GoString)
    (ttl now now2 : Int) (db : DB) (req : RedirectRequest) (r : model.URL)
    (hshape : sh.IsValidShortURL (urlConstruct req) = true)
    (hfound : db.urls.find? (fun row => row.ShortURL = urlConstruct req) = some r)
    (hexp : now < r.Expiry) (hexp2 : now2 < r.Expiry)
    (hroom : ∀ row ∈ db.urls, row.ShortURL = urlConstruct req →
      row.ClickCount < maxClickCount) :
    (Redirect (postgresHandler sh domain ttl) now db req).1 = .redirect r.OriginalURL 302 ∧
    storedClickCount db (urlConstruct req) = some r.ClickCount ∧
    storedClickCount (Redirect (postgresHandler sh domain ttl) now db req).2 (urlConstruct req) =
      some (r.ClickCount + 1) ∧
    (Redirect (postgresHandler sh domain ttl) now db req).2.urls =
      db.urls.map (fun row =>
        if row.ShortURL = urlConstruct req then
          { row with ClickCount := row.ClickCount + 1 } else row) ∧
    (∀ k, k ≠ urlConstruct req →
      (Redirect (postgresHandler sh domain ttl) now db req).2.urls.find?
          (fun row => row.ShortURL = k) =
        db.urls.find? (fun row => row.ShortURL = k)) ∧
    (Redirect (postgresHandler sh domain ttl) now db req).2.log =
      db.log ++ [.select (urlConstruct req), .increment (urlConstruct req)] ∧
    ((∀ row ∈ db.urls, row.ShortURL = urlConstruct req →
        row.ClickCount + 1 < maxClickCount) →
      (Redirect (postgresHandler sh domain ttl) now2
          (Redirect (postgresHandler sh domain ttl) now db req).2 req).1 =
        .redirect r.OriginalURL 302 ∧
      storedClickCount
          (Redirect (postgresHandler sh domain ttl) now2
            (Redirect (postgresHandler sh domain ttl) now db req).2 req).2 (urlConstruct req) =
        some (r.ClickCount + 2)) := by
  have h1 := Redirect_live sh domain ttl now db req r hshape hfound (le_of_lt hexp) hroom
  have hfound2 :
      (Redirect (postgresHandler sh domain ttl) now db req).2.urls.find?
        (fun row => row.ShortURL = urlConstruct req) =
      some { r with ClickCount := r.ClickCount + 1 } := by
    rw [h1]; simp only [find_map_bump, hfound, Option.map_some']
  refine ⟨by rw [h1], by simp [storedClickCount, hfound], ?_, by rw [h1], ?_, by rw [h1], ?_⟩
  · simp [storedClickCount, hfound2]
  · intro k hk
    rw [h1]
    exact find_map_bump_other _ k hk db.urls
  · intro hroom2
    have hroom3 : ∀ row ∈ (Redirect (postgresHandler sh domain ttl) now db req).2.urls,
        row.ShortURL = urlConstruct req → row.ClickCount < maxClickCount := by
      rw [h1]
      exact room_after_bump db.urls _ hroom2
    have h2 := Redirect_live sh domain ttl now2 _ req _ hshape hfound2 (le_of_lt hexp2) hroom3
    refine ⟨by rw [h2], ?_⟩
    rw [h2]
    simp only [storedClickCount, find_map_bump, hfound2, Option.map_some']
    congr 1
    ring

/-- C7, amended, at the scenario of `TestIncrementClickCount`: a live record,
two redirects, the counter goes from 0 to 1 to 2. -/
theorem C7_redirect_counts_one_click_witness :
    (Redirect (postgresHandler (shortener.NewShortener shortener.testConfig) [] 0) 5
      { urls := [{ OriginalURL := str "http://test.com", ShortURL := str "sho.rt/s/abc123",
                   Expiry := 100, ClickCount := 0 }] }
      { Host := str "sho.rt", Path := str "/s/abc123" }).1 =
        .redirect (str "http://test.com") 302 ∧
    storedClickCount
      (Redirect (postgresHandler (shortener.NewShortener shortener.testConfig) [] 0) 6
        (Redirect (postgresHandler (shortener.NewShortener shortener.testConfig) [] 0) 5
          { urls := [{ OriginalURL := str "http://test.com", ShortURL := str "sho.rt/s/abc123",
                       Expiry := 100, ClickCount := 0 }] }
          { Host := str "sho.rt", Path := str "/s/abc123" }).2
        { Host := str "sho.rt", Path := str "/s/abc123" }).2
      (str "sho.rt/s/abc123") = some (0 + 2) :=
  have h := C7_redirect_counts_one_click (shortener.NewShortener shortener.testConfig) [] 0 5 6
    { urls := [{ OriginalURL := str "http://test.com", ShortURL := str "sho.rt/s/abc123",
                 Expiry := 100, ClickCount := 0 }] }
    { Host := str "sho.rt", Path := str "/s/abc123" }
    { OriginalURL := str "http://test.com", ShortURL := str "sho.rt/s/abc123",
      Expiry := 100, ClickCount := 0 }
    (by decide!) (by decide!) (by decide) (by decide) (by decide!)
  ⟨h.1, (h.2.2.2.2.2.2 (by decide!)).2⟩

/-- C8, as stated, fails at the instant `now = expiry`: `time.Now().After(expiry)`
is false there, so the request is redirected (302) and the click is counted. -/
theorem C8_counterexample :
    Redirect (postgresHandler (shortener.NewShortener shortener.testConfig) [] 0) 100
      { urls := [{ OriginalURL := str "http://test.com", ShortURL := str "sho.rt/s/abc123",
                   Expiry := 100, ClickCount := 0 }] }
      { Host := str "sho.rt", Path := str "/s/abc123" } =
    (.redirect (str "http://test.com") 302,
     { urls := [{ OriginalURL := str "http://test.com", ShortURL := str "sho.rt/s/abc123",
                  Expiry := 100, ClickCount := 1 }],
       log := [.select (str "sho.rt/s/abc123"), .increment (str "sho.rt/s/abc123")] }) := by
  decide!

/-- C8, amended. For every `Redirect` request whose short URL has a valid shape
and whose record exists, if the current time is strictly after the record's
expiry the response is 410 Gone, no redirect is issued, the rows of the table
(so every `click_count`) are unchanged and the only statement sent to the
database is the lookup. -/
theorem C8_expired_is_gone (sh : shortener.Shortener) (domain : GoString) (ttl now : Int)
    (db : DB) (req : RedirectRequest) (r : model.URL)
    (hshape : sh.IsValidShortURL (urlConstruct req) = true)
    (hfound : db.urls.find? (fun row => row.ShortURL = urlConstruct req) = some r)
    (hexp : r.Expiry < now) :
    (Redirect (postgresHandler sh domain ttl) now db req).1 = .error "URL has expired" 410 ∧
    (Redirect (postgresHandler sh domain ttl) now db req).2.urls = db.urls ∧
    storedClickCount (Redirect (postgresHandler sh domain ttl) now db req).2 (urlConstruct req) =
      some r.ClickCount ∧
    (Redirect (postgresHandler sh domain ttl) now db req).2.log =
      db.log ++ [.select (urlConstruct req)] := by
  simp [Redirect, postgresHandler, NewPostgresURLRepository, hshape, Find, hfound, hexp,
    storedClickCount]

/-- C8, amended, at the scenario of `TestRedirect_ExpiredURL`: the record
expired at time 100, the request comes at time 101. -/
theorem C8_expired_is_gone_witness :
    (Redirect (postgresHandler (shortener.NewShortener shortener.testConfig) [] 0) 101
      { urls := [{ OriginalURL := str "http://test.com", ShortURL := str "sho.rt/s/abc123",
                   Expiry := 100, ClickCount := 0 }] }
      { Host := str "sho.rt", Path := str "/s/abc123" }).1 = .error "URL has expired" 410 :=
  (C8_expired_is_gone (shortener.NewShortener shortener.testConfig) [] 0 101
    { urls := [{ OriginalURL := str "http://test.com", ShortURL := str "sho.rt/s/abc123",
                 Expiry := 100, ClickCount := 0 }] }
    { Host := str "sho.rt", Path := str "/s/abc123" }
    { OriginalURL := str "http://test.com", ShortURL := str "sho.rt/s/abc123",
      Expiry := 100, ClickCount := 0 }
    (by decide!) (by decide!) (by decide)).1

/-- C9. For every `Redirect` request whose short URL fails the shape check, the
response is 400 Bad Request and the store is handed back untouched, whatever
repository the handler holds: no `Find` and no `IncrementClickCount` is
performed. Over the Postgres repository no statement is logged and the rows
are unchanged. -/
theorem C9_invalid_shape_is_bad_request {σ : Type} (h : Handler σ) (now : Int) (s : σ)
    (req : RedirectRequest) (hshape : h.shortener.IsValidShortURL (urlConstruct req) = false) :
    Redirect h now s req = (.error "Invalid slug" 400, s) ∧
    ∀ (domain : GoString) (ttl : Int) (db : DB),
      (Redirect (postgresHandler h.shortener domain ttl) now db req).1 =
        .error "Invalid slug" 400 ∧
      (Redirect (postgresHandler h.shortener domain ttl) now db req).2.log = db.log ∧
      (Redirect (postgresHandler h.shortener domain ttl) now db req).2.urls = db.urls := by
  constructor
  · simp [Redirect, hshape]
  · intro domain ttl db
    simp [Redirect, postgresHandler, hshape]

/-- C9 at the three ways to fail the shape check (no prefix, slug of the wrong
length, a slug character that is no letter or digit), on the default handler. -/
theorem C9_invalid_shape_is_bad_request_witness :
    defaultHandler.shortener.IsValidShortURL (str "tiny.io/redirect") = false ∧
    defaultHandler.shortener.IsValidShortURL (str "tiny.io/r/abc1234") = false ∧
    defaultHandler.shortener.IsValidShortURL (str "tiny.io/r/abc-12") = false ∧
    Redirect defaultHandler 0 {} { Host := str "tiny.io", Path := str "/r/abc-12" } =
      (.error "Invalid slug" 400, {}) :=
  ⟨by decide!, by decide!, by decide!,
   (C9_invalid_shape_is_bad_request defaultHandler 0 {}
      { Host := str "tiny.io", Path := str "/r/abc-12" } (by decide!)).1⟩

/-- C10, at a body that carries more than `original_url`. The request body
`{"original_url":"http://test.com","short_url":"x","expiry":<time 7>,
"click_count":5}` is accepted (201); the handler overwrites `short_url` and
`expiry`, but the record passed to `Save`, and the row written, keep
`click_count = 5` instead of 0. -/
theorem C10_click_count_from_body :
    ShortenURL defaultHandler 0 {}
      { Method := "POST",
        Body := .decoded { OriginalURL := str "http://test.com", ShortURL := str "x",
                           Expiry := 7, ClickCount := 5 } } =
      (.json 201 { OriginalURL := str "http://test.com",
                   ShortURL := str "http://tiny.io/r/28UZbv",
                   Expiry := 604800000000000, ClickCount := 5 },
       { urls := [{ OriginalURL := str "http://test.com",
                    ShortURL := str "http://tiny.io/r/28UZbv",
                    Expiry := 604800000000000, ClickCount := 5 }],
         log := [.upsert (str "http://tiny.io/r/28UZbv") (str "http://test.com")
                   604800000000000 5] }) := by
  decide!

end handler

namespace url

theorem strLe_refl (a : GoString) : strLe a a = true := by
  induction a with
  | nil => rfl
  | cons x xs ih => simp [strLe, ih]

theorem strLe_total (a b : GoString) : strLe a b = true ∨ strLe b a = true := by
  induction a generalizing b with
  | nil => left; rfl
  | cons x xs ih =>
    cases b with
    | nil => right; rfl
    | cons y ys =>
      simp only [strLe, Bool.or_eq_true, Bool.and_eq_true, decide_eq_true_eq]
      rcases lt_trichotomy x y with h | h | h
      · left; left; exact h
      · subst h
        rcases ih ys with h2 | h2
        · left; right; exact ⟨rfl, h2⟩
        · right; right; exact ⟨rfl, h2⟩
      · right; left; exact h

theorem strLe_trans (a b c : GoString) (hab : strLe a b = true) (hbc : strLe b c = true) :
    strLe a c = true := by
  induction a generalizing b c with
  | nil => rfl
  | cons x xs ih =>
    cases b with
    | nil => simp [strLe] at hab
    | cons y ys =>
      cases c with
      | nil => simp [strLe] at hbc
      | cons z zs =>
        simp only [strLe, Bool.or_eq_true, Bool.and_eq_true, decide_eq_true_eq] at hab hbc ⊢
        rcases hab with h1 | ⟨h1, h1'⟩
        · rcases hbc with h2 | ⟨h2, -⟩
          · left; exact lt_trans h1 h2
          · left; rw [← h2]; exact h1
        · rcases hbc with h2 | ⟨h2, h2'⟩
          · left; rw [h1]; exact h2
          · right; exact ⟨h1.trans h2, ih ys zs h1' h2'⟩

theorem strLe_antisymm (a b : GoString) (hab : strLe a b = true) (hba : strLe b a = true) :
    a = b := by
  induction a generalizing b with
  | nil =>
    cases b with
    | nil => rfl
    | cons y ys => simp [strLe] at hba
  | cons x xs ih =>
    cases b with
    | nil => simp [strLe] at hab
    | cons y ys =>
      simp only [strLe, Bool.or_eq_true, Bool.and_eq_true, decide_eq_true_eq] at hab hba
      rcases hab with h1 | ⟨h1, h1'⟩
      · rcases hba with h2 | ⟨h2, -⟩
        · exact absurd h1 (not_lt_of_gt h2)
        · exact absurd h1 (by rw [h2]; exact lt_irrefl _)
      · rcases hba with h2 | ⟨-, h2'⟩
        · exact absurd h2 (by rw [h1]; exact lt_irrefl _)
        · rw [h1, ih ys h1' h2']

instance strLe_isTotal : IsTotal GoString (fun a b => strLe a b = true) := ⟨strLe_total⟩

instance strLe_isTrans : IsTrans GoString (fun a b => strLe a b = true) := ⟨strLe_trans⟩

instance strLe_isAntisymm : IsAntisymm GoString (fun a b => strLe a b = true) :=
  ⟨strLe_antisymm⟩

theorem sortStrings_sorted (keys : List GoString) :
    (sortStrings keys).Sorted (fun a b => strLe a b = true) :=
  List.sorted_insertionSort _ keys

theorem sortStrings_perm (keys : List GoString) : (sortStrings keys).Perm keys :=
  List.perm_insertionSort _ keys

theorem sortStrings_eq_of_perm (k1 k2 : List GoString) (h : k1.Perm k2) :
    sortStrings k1 = sortStrings k2 :=
  List.eq_of_perm_of_sorted
    (((sortStrings_perm k1).trans h).trans (sortStrings_perm k2).symm)
    (sortStrings_sorted k1) (sortStrings_sorted k2)

end url

namespace url

theorem parseQueryStep_eq (acc : Values × Option String) (seg : GoString) :
    (segmentFails seg = true →
      (parseQueryStep acc seg).1 = acc.1 ∧ (parseQueryStep acc seg).2 ≠ none) ∧
    (segmentFails seg = false →
      (parseQueryStep acc seg).2 = acc.2 ∧
      (parseQueryStep acc seg).1 = Values.addAll acc.1 (segmentPair seg).toList) := by
  unfold parseQueryStep segmentFails segmentPair
  by_cases h1 : strings.ContainsByte seg (ch ';') = true
  · simp [h1]
  · by_cases h2 : seg = []
    · subst h2
      simp [strings.ContainsByte, Values.addAll]
    · simp only [h1, h2, if_false, Bool.false_eq_true, Bool.false_or, ne_eq, not_false_eq_true,
        decide_True, Bool.true_and]
      cases hk : QueryUnescape (strings.Cut seg (ch '=')).1 with
      | error e => simp
      | ok k =>
        cases hv : QueryUnescape (strings.Cut seg (ch '=')).2.1 with
        | error e => simp
        | ok v => simp [Values.addAll]

theorem parseQuery_fold_error (segs : List GoString) (acc : Values × Option String) :
    (segs.foldl parseQueryStep acc).2 = none ↔
      acc.2 = none ∧ ∀ seg ∈ segs, segmentFails seg = false := by
  induction segs generalizing acc with
  | nil => simp
  | cons seg rest ih =>
    rw [List.foldl_cons, ih]
    have h := parseQueryStep_eq acc seg
    cases hf : segmentFails seg with
    | true =>
      have h1 := (h.1 hf).2
      simp [hf, h1]
    | false =>
      have h1 := (h.2 hf).1
      simp [hf, h1]

theorem parseQuery_fold_values (segs : List GoString) (acc : Values × Option String)
    (hok : ∀ seg ∈ segs, segmentFails seg = false) :
    (segs.foldl parseQueryStep acc).1 = Values.addAll acc.1 (segs.filterMap segmentPair) := by
  induction segs generalizing acc with
  | nil => simp [Values.addAll]
  | cons seg rest ih =>
    have hseg := hok seg (List.mem_cons_self _ _)
    have h := (parseQueryStep_eq acc seg).2 hseg
    rw [List.foldl_cons, ih _ (fun s hs => hok s (List.mem_cons_of_mem _ hs)), h.2]
    cases hp : segmentPair seg with
    | none => simp [List.filterMap_cons, hp, Values.addAll]
    | some p => simp [List.filterMap_cons, hp, Values.addAll]

/-- `ParseQuery` succeeds exactly when no segment fails, and then the map holds
the decoded pairs of the segments in order. -/
theorem ParseQuery_eq (query : GoString) :
    (∀ params, ParseQuery query = .ok params ↔
      (∀ seg ∈ strings.Split query (ch '&'), segmentFails seg = false) ∧
      params = Values.addAll [] ((strings.Split query (ch '&')).filterMap segmentPair)) := by
  intro params
  unfold ParseQuery parseQuery
  have herr := parseQuery_fold_error (strings.Split query (ch '&')) ([], none)
  cases h : ((strings.Split query (ch '&')).foldl parseQueryStep ([], none)).2 with
  | some e =>
    rw [h] at herr
    simp only [false_iff, true_and, reduceCtorEq] at herr
    simp only [false_iff, not_and, reduceCtorEq]
    intro hall
    exact absurd hall herr
  | none =>
    rw [h] at herr
    have hall := (herr.mp rfl).2
    have hv := parseQuery_fold_values (strings.Split query (ch '&')) ([], none) hall
    simp only [Except.ok.injEq]
    rw [hv]
    constructor
    · intro e; exact ⟨hall, e.symm⟩
    · rintro ⟨-, e⟩; exact e.symm

end url
namespace url

theorem Values.get_add (m : Values) (k v k2 : GoString) :
    Values.get (Values.add m k v) k2 =
      if k2 = k then Values.get m k ++ [v] else Values.get m k2 := by
  induction m with
  | nil =>
    by_cases h : k2 = k
    · subst h; simp [Values.add, Values.get]
    · have h' : ¬ k = k2 := fun e => h e.symm
      simp [Values.add, Values.get, h, h']
  | cons e rest ih =>
    obtain ⟨k1, vs⟩ := e
    by_cases h1 : k1 = k
    · subst h1
      by_cases h : k2 = k1
      · subst h; simp [Values.add, Values.get]
      · have h' : ¬ k1 = k2 := fun e => h e.symm
        simp [Values.add, Values.get, h, h']
    · by_cases h : k2 = k
      · subst h
        simp [Values.add, Values.get, h1, ih]
      · by_cases h3 : k1 = k2
        · simp [Values.add, Values.get, h1, h, h3]
        · simp [Values.add, Values.get, h1, h, h3, ih]

theorem Values.keys_add (m : Values) (k v : GoString) :
    (Values.add m k v).keys = if k ∈ m.keys then m.keys else m.keys ++ [k] := by
  induction m with
  | nil => simp [Values.add, Values.keys]
  | cons e rest ih =>
    obtain ⟨k1, vs⟩ := e
    by_cases h1 : k1 = k
    · subst h1; simp [Values.add, Values.keys]
    · have h1' : ¬ k = k1 := fun e => h1 e.symm
      simp only [Values.keys] at ih
      by_cases hm : k ∈ rest.map Prod.fst
      · simp [Values.add, Values.keys, h1, h1', ih, hm]
      · simp [Values.add, Values.keys, h1, h1', ih, hm]

theorem Values.get_addAll (ps : List (GoString × GoString)) (m : Values) (k : GoString) :
    Values.get (Values.addAll m ps) k =
      Values.get m k ++ (ps.filter (fun p => p.1 = k)).map Prod.snd := by
  induction ps generalizing m with
  | nil => simp [Values.addAll]
  | cons p rest ih =>
    have hstep : Values.addAll m (p :: rest) = Values.addAll (Values.add m p.1 p.2) rest := rfl
    rw [hstep, ih, Values.get_add]
    by_cases h : k = p.1
    · subst h; simp [List.filter_cons]
    · have h' : ¬ p.1 = k := fun e => h e.symm
      simp [List.filter_cons, h, h']

theorem Values.mem_keys_addAll (ps : List (GoString × GoString)) (m : Values) (k : GoString) :
    k ∈ (Values.addAll m ps).keys ↔ k ∈ m.keys ∨ k ∈ ps.map Prod.fst := by
  induction ps generalizing m with
  | nil => simp [Values.addAll]
  | cons p rest ih =>
    have hstep : Values.addAll m (p :: rest) = Values.addAll (Values.add m p.1 p.2) rest := rfl
    rw [hstep, ih, Values.keys_add]
    by_cases hm : p.1 ∈ m.keys
    · simp only [hm, if_true, List.map_cons, List.mem_cons]
      constructor
      · rintro (h | h)
        · exact Or.inl h
        · exact Or.inr (Or.inr h)
      · rintro (h | h | h)
        · exact Or.inl h
        · exact Or.inl (h ▸ hm)
        · exact Or.inr h
    · simp only [hm, if_false, List.map_cons, List.mem_cons, List.mem_append, List.mem_singleton]
      tauto

theorem Values.nodup_keys_addAll (ps : List (GoString × GoString)) (m : Values)
    (hm : m.keys.Nodup) : (Values.addAll m ps).keys.Nodup := by
  induction ps generalizing m with
  | nil => simpa [Values.addAll] using hm
  | cons p rest ih =>
    have hstep : Values.addAll m (p :: rest) = Values.addAll (Values.add m p.1 p.2) rest := rfl
    rw [hstep]
    apply ih
    rw [Values.keys_add]
    by_cases h : p.1 ∈ m.keys
    · simpa [h] using hm
    · simp only [h, if_false]
      exact List.Nodup.append hm (List.nodup_singleton _) (by simpa using h)

end url
namespace url

theorem Values.set_new (m : Values) (k : GoString) (vs : List GoString) (hk : k ∉ m.keys) :
    Values.set m k vs = m ++ [(k, vs)] := by
  induction m with
  | nil => rfl
  | cons e rest ih =>
    obtain ⟨k1, vs1⟩ := e
    simp only [Values.keys, List.map_cons, List.mem_cons, not_or] at hk
    have h1 : ¬ k1 = k := fun e => hk.1 e.symm
    simp only [Values.set, h1, if_false, List.cons_append]
    rw [ih hk.2]

theorem Values.copy_eq (m acc : Values) (hm : m.keys.Nodup)
    (hdis : ∀ k ∈ m.keys, k ∉ acc.keys) :
    m.foldl (fun a kv => Values.set a kv.1 kv.2) acc = acc ++ m := by
  induction m generalizing acc with
  | nil => simp
  | cons e rest ih =>
    simp only [Values.keys, List.map_cons, List.nodup_cons] at hm
    rw [List.foldl_cons, Values.set_new _ _ _ (hdis e.1 (by simp [Values.keys])), ih]
    · simp
    · exact hm.2
    · intro k hk
      simp only [Values.keys, List.map_append, List.map_cons, List.map_nil, List.mem_append,
        List.mem_singleton, not_or]
      refine ⟨hdis k (by simp only [Values.keys, List.map_cons]; exact List.mem_cons_of_mem _ hk), ?_⟩
      intro e2
      exact hm.1 (e2 ▸ hk)

theorem Values.Encode_congr (m1 m2 : Values) (hkeys : m1.keys.Perm m2.keys)
    (hget : ∀ k, Values.get m1 k = Values.get m2 k) : m1.Encode = m2.Encode := by
  unfold Values.Encode
  have hlen : m1.length = m2.length := by
    have := hkeys.length_eq
    simpa [Values.keys] using this
  have hsort : sortStrings (m1.map Prod.fst) = sortStrings (m2.map Prod.fst) :=
    sortStrings_eq_of_perm _ _ hkeys
  rw [hlen, hsort]
  have hf : (fun buf k => encodeKey (QueryEscape k) buf (Values.get m1 k)) =
      (fun buf k => encodeKey (QueryEscape k) buf (Values.get m2 k)) := by
    funext buf k; rw [hget]
  rw [hf]

theorem segmentPair_key (seg : GoString) (p : GoString × GoString)
    (h : segmentPair seg = some p) : segmentKey seg = some p.1 := by
  unfold segmentPair at h
  unfold segmentKey
  split at h
  · cases h
  · split at h
    · cases h
    · cases hk : QueryUnescape (strings.Cut seg (ch '=')).1 with
      | error e => simp [hk] at h
      | ok k =>
        cases hv : QueryUnescape (strings.Cut seg (ch '=')).2.1 with
        | error e => simp [hk, hv] at h
        | ok v =>
          simp only [hk, hv, Option.some.injEq] at h
          subst h
          rfl

theorem filter_filterMap_segmentPair (segs : List GoString) (k : GoString) :
    (segs.filterMap segmentPair).filter (fun p => p.1 = k) =
      (segs.filter (fun seg => segmentKey seg = some k)).filterMap segmentPair := by
  induction segs with
  | nil => rfl
  | cons seg rest ih =>
    cases hp : segmentPair seg with
    | none =>
      by_cases hk : segmentKey seg = some k
      · simp [List.filterMap_cons, List.filter_cons, hp, hk, ih]
      · simp [List.filterMap_cons, List.filter_cons, hp, hk, ih]
    | some p =>
      have hkey := segmentPair_key seg p hp
      by_cases hk : p.1 = k
      · simp [List.filterMap_cons, List.filter_cons, hp, hk, hkey, ih]
      · simp [List.filterMap_cons, List.filter_cons, hp, hk, hkey, ih]

end url

namespace shortener

theorem canonicalizeQuery_of_ok (q : GoString) (params : url.Values)
    (h : url.ParseQuery q = .ok params) : canonicalizeQuery q = params.Encode := by
  unfold canonicalizeQuery
  rw [h]
  simp only
  have hp := ((url.ParseQuery_eq q params).mp h).2
  have hnodup : params.keys.Nodup := by
    rw [hp]; exact url.Values.nodup_keys_addAll _ [] (by simp [url.Values.keys])
  rw [url.Values.copy_eq params [] hnodup (by simp [url.Values.keys])]
  simp

theorem canonicalizeQuery_of_error (q : GoString) (e : String)
    (h : url.ParseQuery q = .error e) : canonicalizeQuery q = q := by
  unfold canonicalizeQuery
  rw [h]

/-- The canonical query is the same for two queries whose segments are a
permutation of each other, when the query parses and segments of equal key
keep their order. -/
theorem canonicalizeQuery_perm (q1 q2 : GoString) (params : url.Values)
    (hperm : (strings.Split q1 (ch '&')).Perm (strings.Split q2 (ch '&')))
    (hok : url.ParseQuery q1 = .ok params)
    (hkey : ∀ k, (strings.Split q1 (ch '&')).filter (fun seg => url.segmentKey seg = some k) =
      (strings.Split q2 (ch '&')).filter (fun seg => url.segmentKey seg = some k)) :
    canonicalizeQuery q1 = canonicalizeQuery q2 := by
  obtain ⟨hall1, hp1⟩ := (url.ParseQuery_eq q1 params).mp hok
  have hall2 : ∀ seg ∈ strings.Split q2 (ch '&'), url.segmentFails seg = false :=
    fun seg hs => hall1 seg (hperm.mem_iff.mpr hs)
  have hok2 := (url.ParseQuery_eq q2 _).mpr ⟨hall2, rfl⟩
  rw [canonicalizeQuery_of_ok q1 params hok, canonicalizeQuery_of_ok q2 _ hok2, hp1]
  apply url.Values.Encode_congr
  · apply (List.perm_ext_iff_of_nodup
      (url.Values.nodup_keys_addAll _ [] (by simp [url.Values.keys]))
      (url.Values.nodup_keys_addAll _ [] (by simp [url.Values.keys]))).mpr
    intro k
    rw [url.Values.mem_keys_addAll, url.Values.mem_keys_addAll]
    have hpm : ((strings.Split q1 (ch '&')).filterMap url.segmentPair).Perm
        ((strings.Split q2 (ch '&')).filterMap url.segmentPair) := hperm.filterMap _
    rw [(hpm.map Prod.fst).mem_iff]
  · intro k
    rw [url.Values.get_addAll, url.Values.get_addAll, url.filter_filterMap_segmentPair,
      url.filter_filterMap_segmentPair, hkey k]

end shortener
namespace shortener

/-- C4, as stated, fails in two ways. Two pairs with the same key keep the
order they were given in: `?a=1&a=2` and `?a=2&a=1` differ only in the order of
their pairs and are canonicalized to themselves. A query that does not parse is
passed through as it is: `?a=%zz&b=1` and `?b=1&a=%zz` keep their order too. In
both cases the short URLs differ as well. -/
theorem C4_counterexample :
    (∃ U : url.URL, ∃ q2 : GoString,
      url.Parse (str "https://example.com?a=1&a=2") = .ok U ∧
      url.Parse (str "https://example.com?a=2&a=1") = .ok { U with RawQuery := q2 } ∧
      (strings.Split U.RawQuery (ch '&')).Perm (strings.Split q2 (ch '&')) ∧
      canonicalizeURL (str "https://example.com?a=1&a=2") =
        .ok (str "https://example.com?a=1&a=2") ∧
      canonicalizeURL (str "https://example.com?a=2&a=1") =
        .ok (str "https://example.com?a=2&a=1") ∧
      GenerateShortURL testConfig (str "https://example.com?a=1&a=2") ≠
        GenerateShortURL testConfig (str "https://example.com?a=2&a=1")) ∧
    (∃ U : url.URL, ∃ q2 : GoString,
      url.Parse (str "https://example.com?a=%zz&b=1") = .ok U ∧
      url.Parse (str "https://example.com?b=1&a=%zz") = .ok { U with RawQuery := q2 } ∧
      (strings.Split U.RawQuery (ch '&')).Perm (strings.Split q2 (ch '&')) ∧
      canonicalizeURL (str "https://example.com?a=%zz&b=1") =
        .ok (str "https://example.com?a=%zz&b=1") ∧
      canonicalizeURL (str "https://example.com?b=1&a=%zz") =
        .ok (str "https://example.com?b=1&a=%zz") ∧
      GenerateShortURL testConfig (str "https://example.com?a=%zz&b=1") ≠
        GenerateShortURL testConfig (str "https://example.com?b=1&a=%zz")) :=
  ⟨⟨{ Scheme := str "https", Host := str "example.com", RawQuery := str "a=1&a=2" },
      str "a=2&a=1", by decide!, by decide!, by decide!, by decide!, by decide!, by decide!⟩,
   ⟨{ Scheme := str "https", Host := str "example.com", RawQuery := str "a=%zz&b=1" },
      str "b=1&a=%zz", by decide!, by decide!, by decide!, by decide!, by decide!, by decide!⟩⟩

/-- C4, amended. Two URLs whose parsed forms differ only in the order of the
`&`-separated pairs of the query have the same canonical text, with the query
re-encoded by `Values.Encode` in sorted key order, and therefore the same short
URL, provided the query parses (`url.ParseQuery` reports no error) and pairs of
equal decoded key stand in the same relative order in both. -/
theorem C4_query_order_invariant (config : Config) (u1 u2 q2 : GoString) (U : url.URL)
    (params : url.Values)
    (h1 : url.Parse u1 = .ok U)
    (h2 : url.Parse u2 = .ok { U with RawQuery := q2 })
    (hperm : (strings.Split U.RawQuery (ch '&')).Perm (strings.Split q2 (ch '&')))
    (hok : url.ParseQuery U.RawQuery = .ok params)
    (hkey : ∀ k,
      (strings.Split U.RawQuery (ch '&')).filter (fun seg => url.segmentKey seg = some k) =
      (strings.Split q2 (ch '&')).filter (fun seg => url.segmentKey seg = some k)) :
    canonicalizeURL u1 = canonicalizeURL u2 ∧
    canonicalizeURL u1 =
      .ok ({ U with Host := strings.TrimPrefix U.Host (str "www."),
                    RawQuery := params.Encode } : url.URL).String ∧
    (url.sortStrings params.keys).Sorted (fun a b => url.strLe a b = true) ∧
    GenerateShortURL config u1 = GenerateShortURL config u2 := by
  have hq := canonicalizeQuery_perm U.RawQuery q2 params hperm hok hkey
  have hc : canonicalizeURL u1 = canonicalizeURL u2 := by
    simp only [canonicalizeURL, h1, h2, hq]
  refine ⟨hc, ?_, url.sortStrings_sorted _, ?_⟩
  · simp only [canonicalizeURL, h1, canonicalizeQuery_of_ok _ _ hok]
  · simp only [GenerateShortURL, hc]

/-- C4, amended, at the test's pair: `https://example.com?b=2&a=1` and
`https://example.com?a=1&b=2` both canonicalize to `https://example.com?a=1&b=2`
and get the same short URL. -/
theorem C4_query_order_invariant_witness :
    canonicalizeURL (str "https://example.com?b=2&a=1") =
      .ok (str "https://example.com?a=1&b=2") ∧
    canonicalizeURL (str "https://example.com?b=2&a=1") =
      canonicalizeURL (str "https://example.com?a=1&b=2") ∧
    GenerateShortURL testConfig (str "https://example.com?b=2&a=1") =
      GenerateShortURL testConfig (str "https://example.com?a=1&b=2") :=
  have h := C4_query_order_invariant testConfig (str "https://example.com?b=2&a=1")
    (str "https://example.com?a=1&b=2") (str "a=1&b=2")
    { Scheme := str "https", Host := str "example.com", RawQuery := str "b=2&a=1" }
    [(str "b", [str "2"]), (str "a", [str "1"])]
    (by decide!) (by decide!) (by decide!) (by decide!)
    (by
      intro k
      by_cases hb : k = str "b"
      · subst hb; decide!
      · by_cases ha : k = str "a"
        · subst ha; decide!
        · have e1 : url.segmentKey (str "b=2") = some (str "b") := by decide!
          have e2 : url.segmentKey (str "a=1") = some (str "a") := by decide!
          have s1 : strings.Split (str "b=2&a=1") (ch '&') = [str "b=2", str "a=1"] := by
            decide!
          have s2 : strings.Split (str "a=1&b=2") (ch '&') = [str "a=1", str "b=2"] := by
            decide!
          have hb' : ¬ str "b" = k := fun e => hb e.symm
          have ha' : ¬ str "a" = k := fun e => ha e.symm
          simp [s1, s2, List.filter_cons, e1, e2, ha', hb'])
  ⟨by decide!, h.1, h.2.2.2⟩

end shortener
namespace url
open Encoding

theorem hex_roundtrip : ∀ c : Byte,
    ishex (upperhex (c.val / 16)) = true ∧ ishex (upperhex (c.val % 16)) = true ∧
    unhex (upperhex (c.val / 16)) = c.val / 16 ∧
    unhex (upperhex (c.val % 16)) = c.val % 16 := by
  decide!

theorem upperhex_isAlnum : ∀ c : Byte,
    isAlnum (upperhex (c.val / 16)) = true ∧ isAlnum (upperhex (c.val % 16)) = true := by
  decide!

theorem ofNat_hex (c : Byte) :
    (Fin.ofNat (unhex (upperhex (c.val / 16)) * 16 + unhex (upperhex (c.val % 16))) : Byte) = c := by
  obtain ⟨-, -, h1, h2⟩ := hex_roundtrip c
  rw [h1, h2]
  apply Fin.ext
  simp only [Fin.ofNat, Fin.val_mk]
  have := c.isLt
  omega

theorem shouldEscape_facts (mode : Encoding) : ∀ (c : Byte), shouldEscape c mode = false →
    c ≠ ch '%' ∧ c ≠ ch '#' ∧ (mode ≠ encodeFragment → c ≠ ch '?') ∧ ¬ c < ch ' ' ∧ c ≠ 127 ∧
    (mode = encodeQueryComponent → c ≠ ch '+' ∧ c ≠ ch '&' ∧ c ≠ ch '=' ∧ c ≠ ch ';') ∧
    (mode = encodeUserPassword → c ≠ ch '@' ∧ c ≠ ch ':' ∧ c ≠ ch '/') ∧
    (mode = encodeHost → c ≠ ch '@' ∧ c ≠ ch '/' ∧ c.val < 128) := by
  cases mode <;> decide!

/-- A triple `%XY` written by `escape` is read back as its byte. -/
theorem unescape_triple (c : Byte) (rest : GoString) (mode : Encoding)
    (hm : mode ≠ encodeHost ∨ 128 ≤ c.val ∨ c = ch '%') (hz : mode ≠ encodeZone) :
    unescape (ch '%' :: upperhex (c.val / 16) :: upperhex (c.val % 16) :: rest) mode =
      match unescape rest mode with
      | .error e => .error e
      | .ok t => .ok (c :: t) := by
  obtain ⟨h1, h2, h3, h4⟩ := hex_roundtrip c
  have hv := ofNat_hex c
  have hhost : ¬ (mode = encodeHost ∧ unhex (upperhex (c.val / 16)) < 8 ∧
      [ch '%', upperhex (c.val / 16), upperhex (c.val % 16)] ≠ str "%25") := by
    rintro ⟨hmode, hlt, hne⟩
    rcases hm with hm | hm | hm
    · exact hm hmode
    · rw [h3] at hlt; omega
    · subst hm; exact hne (by decide!)
  rw [unescape.eq_def]
  simp only [if_true, h1, h2, Bool.and_self, Bool.not_true, Bool.false_eq_true, if_false, hz,
    false_and, hv, hhost]

theorem unescape_plus (rest : GoString) (mode : Encoding) :
    unescape (ch '+' :: rest) mode =
      match unescape rest mode with
      | .error e => .error e
      | .ok t => .ok ((if mode = encodeQueryComponent then ch ' ' else ch '+') :: t) := by
  have h : ¬ (ch '+' = ch '%') := by decide
  rw [unescape.eq_def]
  simp only [h, if_false, if_true]

theorem unescape_plain (c : Byte) (rest : GoString) (mode : Encoding)
    (h1 : c ≠ ch '%') (h2 : c ≠ ch '+')
    (h3 : ¬ ((mode = encodeHost ∨ mode = encodeZone) ∧ c.val < 128 ∧
      shouldEscape c encodeHost = true)) :
    unescape (c :: rest) mode =
      match unescape rest mode with
      | .error e => .error e
      | .ok t => .ok (c :: t) := by
  rw [unescape.eq_def]
  simp only [h1, h2, h3, if_false]

theorem escape_nil (mode : Encoding) : escape [] mode = [] := rfl

theorem escape_cons (c : Byte) (s : GoString) (mode : Encoding) :
    escape (c :: s) mode =
      (if shouldEscape c mode then
        if c = ch ' ' ∧ mode = encodeQueryComponent then [ch '+']
        else [ch '%', upperhex (c.val / 16), upperhex (c.val % 16)]
      else [c]) ++ escape s mode := by
  simp [escape, List.flatMap_cons]

theorem escape_append (a b : GoString) (mode : Encoding) :
    escape (a ++ b) mode = escape a mode ++ escape b mode := by
  simp [escape, List.flatMap_append]

/-- Escaping then unescaping gives the string back, outside a host. -/
theorem unescape_escape (s : GoString) (mode : Encoding)
    (hm : mode ≠ encodeHost) (hz : mode ≠ encodeZone) :
    unescape (escape s mode) mode = .ok s := by
  induction s with
  | nil => rfl
  | cons c s ih =>
    rw [escape_cons]
    by_cases hesc : shouldEscape c mode = true
    · by_cases hsp : c = ch ' ' ∧ mode = encodeQueryComponent
      · obtain ⟨rfl, rfl⟩ := hsp
        simp only [hesc, and_self, if_true, List.singleton_append]
        rw [unescape_plus, ih]
        simp
      · simp only [hesc, hsp, if_true, if_false, List.cons_append, List.nil_append]
        rw [unescape_triple c _ mode (Or.inl hm) hz, ih]
    · have hesc' : shouldEscape c mode = false := by simpa using hesc
      obtain ⟨f1, -, -, -, -, fq, -, -⟩ := shouldEscape_facts mode c hesc'
      simp only [hesc', Bool.false_eq_true, if_false, List.singleton_append]
      by_cases hplus : c = ch '+'
      · subst hplus
        have hq : mode ≠ encodeQueryComponent := fun e => (fq e).1 rfl
        rw [unescape_plus, ih]
        simp [hq]
      · rw [unescape_plain c _ mode f1 hplus (by
          rintro ⟨hh | hh, -, -⟩
          · exact hm hh
          · exact hz hh), ih]

/-- What `escape` can write: a byte of the input it need not escape, or a part
of an escape (`%`, a hex digit) or `+`. -/
theorem mem_escape (x : Byte) (s : GoString) (mode : Encoding) (h : x ∈ escape s mode) :
    (x ∈ s ∧ shouldEscape x mode = false) ∨ x = ch '%' ∨ x = ch '+' ∨ isAlnum x = true := by
  induction s with
  | nil => simp [escape] at h
  | cons c s ih =>
    rw [escape_cons, List.mem_append] at h
    rcases h with h | h
    · by_cases hesc : shouldEscape c mode = true
      · by_cases hsp : c = ch ' ' ∧ mode = encodeQueryComponent
        · obtain ⟨rfl, rfl⟩ := hsp
          simp only [hesc, and_self, if_true, List.mem_singleton] at h
          exact Or.inr (Or.inr (Or.inl h))
        · simp only [hesc, hsp, if_true, if_false, List.mem_cons, List.mem_singleton,
            List.mem_nil_iff, or_false] at h
          rcases h with h | h | h
          · exact Or.inr (Or.inl h)
          · exact Or.inr (Or.inr (Or.inr (h ▸ (upperhex_isAlnum c).1)))
          · exact Or.inr (Or.inr (Or.inr (h ▸ (upperhex_isAlnum c).2)))
      · have hesc' : shouldEscape c mode = false := by simpa using hesc
        simp only [hesc', Bool.false_eq_true, if_false, List.mem_singleton] at h
        subst h
        exact Or.inl ⟨List.mem_cons_self _ _, hesc'⟩
    · rcases ih h with ⟨h1, h2⟩ | h1
      · exact Or.inl ⟨List.mem_cons_of_mem _ h1, h2⟩
      · exact Or.inr h1

/-- A byte that must be escaped, and is no part of an escape, is not in the
output of `escape`. -/
theorem not_mem_escape (x : Byte) (s : GoString) (mode : Encoding)
    (hx : shouldEscape x mode = true) (h1 : x ≠ ch '%') (h2 : x ≠ ch '+')
    (h3 : isAlnum x = false) : x ∉ escape s mode := by
  intro h
  rcases mem_escape x s mode h with ⟨-, h⟩ | h | h | h
  · rw [hx] at h; cases h
  · exact h1 h
  · exact h2 h
  · rw [h3] at h; cases h

end url
namespace strings

theorem Cut_append (a b : GoString) (sep : Byte) (h : sep ∉ a) :
    Cut (a ++ sep :: b) sep = (a, b, true) := by
  induction a with
  | nil => simp [Cut]
  | cons x xs ih =>
    simp only [List.mem_cons, not_or] at h
    have hx : ¬ x = sep := fun e => h.1 e.symm
    simp [Cut, hx, ih h.2]

theorem Cut_not_mem (a : GoString) (sep : Byte) (h : sep ∉ a) : Cut a sep = (a, [], false) := by
  induction a with
  | nil => rfl
  | cons x xs ih =>
    simp only [List.mem_cons, not_or] at h
    have hx : ¬ x = sep := fun e => h.1 e.symm
    simp [Cut, hx, ih h.2]

theorem IndexByte_append (a b : GoString) (c : Byte) (h : c ∉ a) :
    IndexByte (a ++ c :: b) c = some a.length := by
  induction a with
  | nil => simp [IndexByte]
  | cons x xs ih =>
    simp only [List.mem_cons, not_or] at h
    have hx : ¬ x = c := fun e => h.1 e.symm
    simp [IndexByte, hx, ih h.2]

theorem IndexByte_not_mem (a : GoString) (c : Byte) (h : c ∉ a) : IndexByte a c = none := by
  induction a with
  | nil => rfl
  | cons x xs ih =>
    simp only [List.mem_cons, not_or] at h
    have hx : ¬ x = c := fun e => h.1 e.symm
    simp [IndexByte, hx, ih h.2]

theorem LastIndexByte_not_mem (a : GoString) (c : Byte) (h : c ∉ a) :
    LastIndexByte a c = none := by
  induction a with
  | nil => rfl
  | cons x xs ih =>
    simp only [List.mem_cons, not_or] at h
    have hx : ¬ x = c := fun e => h.1 e.symm
    simp [LastIndexByte, hx, ih h.2]

theorem LastIndexByte_append (a b : GoString) (c : Byte) (h : c ∉ b) :
    LastIndexByte (a ++ c :: b) c = some a.length := by
  induction a with
  | nil => simp [LastIndexByte, LastIndexByte_not_mem b c h]
  | cons x xs ih => simp [LastIndexByte, ih]

theorem Split_not_mem (a : GoString) (sep : Byte) (h : sep ∉ a) : Split a sep = [a] := by
  induction a with
  | nil => rfl
  | cons x xs ih =>
    simp only [List.mem_cons, not_or] at h
    have hx : ¬ x = sep := fun e => h.1 e.symm
    simp [Split, hx, ih h.2]

theorem Split_append (a b : GoString) (sep : Byte) (h : sep ∉ a) :
    Split (a ++ sep :: b) sep = a :: Split b sep := by
  induction a with
  | nil => simp [Split]
  | cons x xs ih =>
    simp only [List.mem_cons, not_or] at h
    have hx : ¬ x = sep := fun e => h.1 e.symm
    simp [Split, hx, ih h.2]

theorem ContainsByte_iff (s : GoString) (c : Byte) : ContainsByte s c = true ↔ c ∈ s := by
  unfold ContainsByte
  induction s with
  | nil => simp
  | cons x xs ih => simp [List.contains_cons]

theorem ContainsByte_false (s : GoString) (c : Byte) (h : c ∉ s) : ContainsByte s c = false := by
  cases hc : ContainsByte s c with
  | false => rfl
  | true => exact absurd ((ContainsByte_iff s c).mp hc) h

/-- Segments joined by the separator split back into the segments. -/
theorem Split_join (s : GoString) (rest : List GoString) (sep : Byte)
    (hs : sep ∉ s) (hrest : ∀ t ∈ rest, sep ∉ t) :
    Split (s ++ rest.flatMap (fun t => sep :: t)) sep = s :: rest := by
  induction rest generalizing s with
  | nil => simpa using Split_not_mem s sep hs
  | cons t rest ih =>
    simp only [List.flatMap_cons, List.cons_append]
    rw [Split_append _ _ _ hs, ih t (hrest t (List.mem_cons_self _ _))
      (fun t2 h2 => hrest t2 (List.mem_cons_of_mem _ h2))]

end strings

namespace url
open Encoding

/-- The `key=value` text `Encode` writes for one pair. -/
theorem encodeKey_eq (k : GoString) (buf : GoString) (vs : List GoString) :
    encodeKey (QueryEscape k) buf vs =
      (vs.map (fun v => QueryEscape k ++ str "=" ++ QueryEscape v)).foldl
        (fun b s => (if b.length > 0 then b ++ str "&" else b) ++ s) buf := by
  unfold encodeKey
  rw [List.foldl_map]
  congr 1
  funext b v
  simp [List.append_assoc]

theorem fold_segments (segs : List GoString) (buf : GoString) (hbuf : buf ≠ []) :
    segs.foldl (fun b s => (if b.length > 0 then b ++ str "&" else b) ++ s) buf =
      buf ++ segs.flatMap (fun t => ch '&' :: t) := by
  induction segs generalizing buf with
  | nil => simp
  | cons s rest ih =>
    have hlen : buf.length > 0 := List.length_pos.mpr hbuf
    rw [List.foldl_cons]
    simp only [hlen, if_true]
    rw [ih _ (by simp [hbuf])]
    have : str "&" = [ch '&'] := by decide
    simp [this, List.append_assoc]

theorem Encode_fold (m : Values) (keys : List GoString) (buf : GoString) :
    keys.foldl (fun buf k => encodeKey (QueryEscape k) buf (Values.get m k)) buf =
      (keys.flatMap (fun k => (Values.get m k).map
          (fun v => QueryEscape k ++ str "=" ++ QueryEscape v))).foldl
        (fun b s => (if b.length > 0 then b ++ str "&" else b) ++ s) buf := by
  induction keys generalizing buf with
  | nil => rfl
  | cons k rest ih =>
    rw [List.foldl_cons, List.flatMap_cons, List.foldl_append, ih, encodeKey_eq]

/-- The decoded pairs `Encode` writes, in the order it writes them. -/
theorem segment_of_pair (k v : GoString) :
    segmentFails (QueryEscape k ++ str "=" ++ QueryEscape v) = false ∧
    segmentPair (QueryEscape k ++ str "=" ++ QueryEscape v) = some (k, v) ∧
    ch '&' ∉ QueryEscape k ++ str "=" ++ QueryEscape v ∧
    QueryEscape k ++ str "=" ++ QueryEscape v ≠ [] := by
  have hsemi : ∀ s, ch ';' ∉ QueryEscape s := fun s =>
    not_mem_escape _ s _ (by decide) (by decide) (by decide) (by decide)
  have hamp : ∀ s, ch '&' ∉ QueryEscape s := fun s =>
    not_mem_escape _ s _ (by decide) (by decide) (by decide) (by decide)
  have heq : ∀ s, ch '=' ∉ QueryEscape s := fun s =>
    not_mem_escape _ s _ (by decide) (by decide) (by decide) (by decide)
  have hstr : str "=" = [ch '='] := by decide
  have hcut : strings.Cut (QueryEscape k ++ str "=" ++ QueryEscape v) (ch '=') =
      (QueryEscape k, QueryEscape v, true) := by
    rw [hstr, List.append_assoc]
    exact strings.Cut_append _ _ _ (heq k)
  have hne : QueryEscape k ++ str "=" ++ QueryEscape v ≠ [] := by simp [hstr]
  have hc : strings.ContainsByte (QueryEscape k ++ str "=" ++ QueryEscape v) (ch ';') = false := by
    apply strings.ContainsByte_false
    simp only [List.mem_append, not_or, hstr, List.mem_singleton]
    exact ⟨⟨hsemi k, by decide⟩, hsemi v⟩
  have hpair : segmentPair (QueryEscape k ++ str "=" ++ QueryEscape v) = some (k, v) := by
    unfold segmentPair
    simp only [hc, Bool.false_eq_true, if_false, hne, hcut, QueryUnescape]
    rw [show QueryEscape k = escape k encodeQueryComponent from rfl,
      show QueryEscape v = escape v encodeQueryComponent from rfl,
      unescape_escape k _ (by decide) (by decide), unescape_escape v _ (by decide) (by decide)]
  refine ⟨?_, hpair, ?_, hne⟩
  · unfold segmentFails
    rw [hc, hpair]
    simp only [Option.isNone_some, Bool.and_false, Bool.or_self]
  · simp only [List.mem_append, not_or, hstr, List.mem_singleton]
    exact ⟨⟨hamp k, by decide⟩, hamp v⟩

end url
namespace url
open Encoding

theorem Values.get_of_not_mem (m : Values) (k : GoString) (h : k ∉ m.keys) :
    Values.get m k = [] := by
  induction m with
  | nil => rfl
  | cons e rest ih =>
    obtain ⟨k1, vs⟩ := e
    simp only [Values.keys, List.map_cons, List.mem_cons, not_or] at h
    have h1 : ¬ k1 = k := fun e => h.1 e.symm
    simp only [Values.get, h1, if_false]
    exact ih h.2

theorem flatMap_single {β : Type} (keys : List GoString) (k : GoString) (L : List β)
    (hn : keys.Nodup) :
    keys.flatMap (fun k2 => if k2 = k then L else []) = if k ∈ keys then L else [] := by
  induction keys with
  | nil => rfl
  | cons k1 rest ih =>
    rw [List.nodup_cons] at hn
    rw [List.flatMap_cons, ih hn.2]
    by_cases h : k1 = k
    · subst h
      simp [hn.1]
    · have h' : ¬ k = k1 := fun e => h e.symm
      simp [h, h']

/-- The pairs `Encode` writes for a map: for every key in sorted order, its
values in stored order. -/
theorem Encode_eq_segments (m : Values) (hm : m ≠ []) :
    m.Encode =
      (((sortStrings m.keys).flatMap (fun k => (Values.get m k).map (fun v => (k, v)))).map
        (fun p => QueryEscape p.1 ++ str "=" ++ QueryEscape p.2)).foldl
        (fun b s => (if b.length > 0 then b ++ str "&" else b) ++ s) [] := by
  unfold Values.Encode
  have hlen : ¬ m.length = 0 := by
    intro h; exact hm (List.length_eq_zero.mp h)
  simp only [hlen, if_false]
  rw [Encode_fold]
  congr 1
  simp only [Values.keys, List.map_flatMap, List.map_map]
  rfl

theorem filter_pairs (m : Values) (keys : List GoString) (k : GoString) (hn : keys.Nodup) :
    ((keys.flatMap (fun k2 => (Values.get m k2).map (fun v => (k2, v)))).filter
        (fun p => p.1 = k)).map Prod.snd =
      if k ∈ keys then Values.get m k else [] := by
  have h1 : (keys.flatMap (fun k2 => (Values.get m k2).map (fun v => (k2, v)))).filter
      (fun p => p.1 = k) =
      keys.flatMap (fun k2 => if k2 = k then (Values.get m k).map (fun v => (k, v)) else []) := by
    rw [List.filter_flatMap]
    congr 1
    funext k2
    by_cases h : k2 = k
    · subst h
      simp [List.filter_map, Function.comp_def]
    · simp [List.filter_map, Function.comp_def, h]
  rw [h1, flatMap_single _ _ _ hn]
  by_cases hk : k ∈ keys
  · simp [hk]
  · simp [hk]

end url

namespace shortener

/-- Re-parsing what `Encode` wrote and encoding again gives the same text. -/
theorem canonicalizeQuery_Encode (m : url.Values) (hnodup : m.keys.Nodup)
    (hne : ∀ k ∈ m.keys, url.Values.get m k ≠ []) :
    canonicalizeQuery m.Encode = m.Encode := by
  by_cases hm : m = []
  · subst hm; decide
  · have hsn : (url.sortStrings m.keys).Nodup :=
      (url.sortStrings_perm m.keys).nodup_iff.mpr hnodup
    have hsm : ∀ k, k ∈ url.sortStrings m.keys ↔ k ∈ m.keys :=
      fun k => (url.sortStrings_perm m.keys).mem_iff
    generalize hpairs : (url.sortStrings m.keys).flatMap
      (fun k => (url.Values.get m k).map (fun v => (k, v))) = pairs
    have henc := url.Encode_eq_segments m hm
    rw [hpairs] at henc
    have hpne : pairs ≠ [] := by
      obtain ⟨e, rest, rfl⟩ := List.exists_cons_of_ne_nil hm
      have hk : e.1 ∈ url.sortStrings (url.Values.keys (e :: rest)) :=
        (hsm _).mpr (by simp [url.Values.keys])
      have hv := hne e.1 (by simp [url.Values.keys])
      obtain ⟨v, vs, hvs⟩ := List.exists_cons_of_ne_nil hv
      intro hnil
      rw [← hpairs, List.flatMap_eq_nil_iff] at hnil
      have := hnil e.1 hk
      rw [hvs] at this
      simp at this
    obtain ⟨p, prest, rfl⟩ := List.exists_cons_of_ne_nil hpne
    have hfacts := fun (q : GoString × GoString) => url.segment_of_pair q.1 q.2
    have htext : m.Encode =
        (url.QueryEscape p.1 ++ str "=" ++ url.QueryEscape p.2) ++
          (prest.map (fun q => url.QueryEscape q.1 ++ str "=" ++ url.QueryEscape q.2)).flatMap
            (fun t => ch '&' :: t) := by
      rw [henc, List.map_cons, List.foldl_cons]
      simp only [List.length_nil, gt_iff_lt, lt_self_iff_false, if_false, List.nil_append]
      exact url.fold_segments _ _ (hfacts p).2.2.2
    have hsplit : strings.Split m.Encode (ch '&') =
        (p :: prest).map (fun q => url.QueryEscape q.1 ++ str "=" ++ url.QueryEscape q.2) := by
      rw [htext, List.map_cons]
      apply strings.Split_join
      · exact (hfacts p).2.2.1
      · intro t ht
        obtain ⟨q, -, rfl⟩ := List.mem_map.mp ht
        exact (hfacts q).2.2.1
    have hok : url.ParseQuery m.Encode = .ok (url.Values.addAll [] (p :: prest)) := by
      apply (url.ParseQuery_eq _ _).mpr
      rw [hsplit]
      constructor
      · intro seg hseg
        obtain ⟨q, -, rfl⟩ := List.mem_map.mp hseg
        exact (hfacts q).1
      · congr 1
        rw [List.filterMap_map]
        have : (url.segmentPair ∘ fun q : GoString × GoString =>
            url.QueryEscape q.1 ++ str "=" ++ url.QueryEscape q.2) = some := by
          funext q
          exact (hfacts q).2.1
        rw [this, List.filterMap_some]
    rw [canonicalizeQuery_of_ok _ _ hok]
    apply url.Values.Encode_congr
    · apply (List.perm_ext_iff_of_nodup
        (url.Values.nodup_keys_addAll _ [] (by simp [url.Values.keys])) hnodup).mpr
      intro k
      rw [url.Values.mem_keys_addAll, ← hpairs]
      have hnil : url.Values.keys ([] : url.Values) = [] := rfl
      rw [hnil]
      constructor
      · rintro (h | h)
        · exact absurd h (List.not_mem_nil _)
        · obtain ⟨pr, hpr, rfl⟩ := List.mem_map.mp h
          obtain ⟨k2, hk2, hin⟩ := List.mem_flatMap.mp hpr
          obtain ⟨v, -, rfl⟩ := List.mem_map.mp hin
          exact (hsm _).mp hk2
      · intro hk
        have hv := hne k hk
        obtain ⟨v, vs, hvs⟩ := List.exists_cons_of_ne_nil hv
        right
        exact List.mem_map.mpr ⟨(k, v), List.mem_flatMap.mpr ⟨k, (hsm k).mpr hk,
          List.mem_map.mpr ⟨v, by rw [hvs]; exact List.mem_cons_self _ _, rfl⟩⟩, rfl⟩
    · intro k
      rw [url.Values.get_addAll, ← hpairs, url.filter_pairs m _ k hsn]
      by_cases hk : k ∈ m.keys
      · simp [(hsm k).mpr hk, url.Values.get]
      · have hk' : k ∉ url.sortStrings m.keys := fun h => hk ((hsm k).mp h)
        simp [hk', url.Values.get, url.Values.get_of_not_mem m k hk]

/-- `canonicalizeQuery` is idempotent. -/
theorem canonicalizeQuery_idem (q : GoString) :
    canonicalizeQuery (canonicalizeQuery q) = canonicalizeQuery q := by
  cases h : url.ParseQuery q with
  | error e => rw [canonicalizeQuery_of_error q e h, canonicalizeQuery_of_error q e h]
  | ok m =>
    rw [canonicalizeQuery_of_ok q m h]
    have hp := ((url.ParseQuery_eq q m).mp h).2
    apply canonicalizeQuery_Encode
    · rw [hp]; exact url.Values.nodup_keys_addAll _ [] (by simp [url.Values.keys])
    · intro k hk
      rw [hp] at hk ⊢
      rw [url.Values.mem_keys_addAll] at hk
      rw [url.Values.get_addAll]
      simp only [url.Values.keys, List.map_nil, List.not_mem_nil, false_or, List.mem_map] at hk
      obtain ⟨pr, hpr, rfl⟩ := hk
      intro hnil
      have hmem : pr ∈ List.filter (fun p => decide (p.1 = pr.1))
          (List.filterMap url.segmentPair (strings.Split q (ch '&'))) :=
        List.mem_filter.mpr ⟨hpr, by simp⟩
      simp only [url.Values.get, List.nil_append, List.map_eq_nil_iff] at hnil
      rw [hnil] at hmem
      exact absurd hmem (List.not_mem_nil _)

end shortener
namespace url
open Encoding

theorem lastSeg_of_not_mem (s : GoString) (h : ch ':' ∉ s) : lastSeg s = none := by
  induction s with
  | nil => rfl
  | cons x xs ih =>
    simp only [List.mem_cons, not_or] at h
    have hx : ¬ x = ch ':' := fun e => h.1 e.symm
    simp [lastSeg, ih h.2, hx]

theorem lastSeg_cons_ne (x : Byte) (xs : GoString) (hx : x ≠ ch ':') :
    lastSeg (x :: xs) = lastSeg xs := by
  simp only [lastSeg, hx, if_false]
  cases lastSeg xs <;> rfl

theorem lastSeg_append (p r : GoString) (h : ch ':' ∉ p) : lastSeg (p ++ r) = lastSeg r := by
  induction p with
  | nil => rfl
  | cons x xs ih =>
    simp only [List.mem_cons, not_or] at h
    have hx : x ≠ ch ':' := fun e => h.1 e.symm
    rw [List.cons_append, lastSeg_cons_ne _ _ hx, ih h.2]

/-- `LastIndexByte` at `:` and `lastSeg` cut at the same place. -/
theorem LastIndexByte_colon (s : GoString) :
    (strings.LastIndexByte s (ch ':') = none ↔ lastSeg s = none) ∧
    ∀ i, strings.LastIndexByte s (ch ':') = some i →
      ∃ t, lastSeg s = some t ∧ s.drop i = ch ':' :: t := by
  induction s with
  | nil => simp [strings.LastIndexByte, lastSeg]
  | cons x xs ih =>
    obtain ⟨ih1, ih2⟩ := ih
    cases hl : strings.LastIndexByte xs (ch ':') with
    | some j =>
      obtain ⟨t, ht, hd⟩ := ih2 j hl
      simp only [strings.LastIndexByte, hl, lastSeg, ht, reduceCtorEq, false_iff,
        Option.some.injEq, not_false_eq_true, true_and]
      intro i hi
      subst hi
      exact ⟨t, rfl, by simpa using hd⟩
    | none =>
      have hn := ih1.mp hl
      by_cases hx : x = ch ':'
      · subst hx
        simp [strings.LastIndexByte, hl, lastSeg, hn]
      · simp [strings.LastIndexByte, hl, lastSeg, hn, hx]

theorem validOptionalPort_colon (t : GoString) :
    validOptionalPort (ch ':' :: t) = t.all isDigit := by
  simp only [validOptionalPort, decide_True, Bool.true_and]
  rfl

/-- The port check of `parseHost` for a host without brackets is `portOK`. -/
theorem port_check (host : GoString) :
    (match strings.LastIndexByte host (ch ':') with
      | some i => validOptionalPort (host.drop i)
      | none => true) = portOK host := by
  obtain ⟨h1, h2⟩ := LastIndexByte_colon host
  cases hl : strings.LastIndexByte host (ch ':') with
  | none => simp [portOK, h1.mp hl]
  | some i =>
    obtain ⟨t, ht, hd⟩ := h2 i hl
    simp [portOK, ht, hd, validOptionalPort_colon]

theorem host_byte_facts : ∀ c : Byte,
    (shouldEscape c encodeHost = false → c ≠ ch '%' ∧ c.val < 128) ∧
    (isDigit c = true → shouldEscape c encodeHost = false) ∧
    (shouldEscape c encodeHost = true → c ≠ ch ':' ∧ c ≠ ch '[') ∧
    (128 ≤ c.val → shouldEscape c encodeHost = true) ∧
    upperhex (c.val / 16) ≠ ch ':' ∧ upperhex (c.val % 16) ≠ ch ':' ∧
    (ishex c = true → c ≠ ch ':') := by
  decide!

theorem escape_digits (t : GoString) (h : t.all isDigit = true) :
    escape t encodeHost = t := by
  induction t with
  | nil => rfl
  | cons x xs ih =>
    simp only [List.all_cons, Bool.and_eq_true] at h
    rw [escape_cons, ih h.2, (host_byte_facts x).2.1 h.1]
    rfl

theorem lastSeg_escape (s : GoString) :
    lastSeg (escape s encodeHost) = (lastSeg s).map (fun t => escape t encodeHost) := by
  induction s with
  | nil => rfl
  | cons x xs ih =>
    rw [escape_cons]
    by_cases hesc : shouldEscape x encodeHost = true
    · have hx := ((host_byte_facts x).2.2.1 hesc).1
      have hno : ch ':' ∉ [ch '%', upperhex (x.val / 16), upperhex (x.val % 16)] := by
        simp only [List.mem_cons, List.mem_singleton, List.mem_nil_iff, or_false, not_or]
        exact ⟨by decide, fun e => (host_byte_facts x).2.2.2.2.1 e.symm,
          fun e => (host_byte_facts x).2.2.2.2.2.1 e.symm⟩
      have hsp : ¬ (x = ch ' ' ∧ encodeHost = encodeQueryComponent) := by
        rintro ⟨-, h⟩; cases h
      simp only [hesc, hsp, if_true, if_false]
      rw [lastSeg_append _ _ hno, ih, lastSeg_cons_ne x xs hx]
    · have hesc' : shouldEscape x encodeHost = false := by simpa using hesc
      simp only [hesc', Bool.false_eq_true, if_false, List.singleton_append]
      simp only [lastSeg, ih]
      cases lastSeg xs with
      | some t => rfl
      | none =>
        by_cases hx : x = ch ':'
        · simp [hx]
        · simp [hx]

theorem portOK_escape (s : GoString) (h : portOK s = true) :
    portOK (escape s encodeHost) = true := by
  unfold portOK at h ⊢
  rw [lastSeg_escape]
  cases hl : lastSeg s with
  | none => rfl
  | some t =>
    rw [hl] at h
    simp only [Option.map_some']
    rw [escape_digits t h]
    exact h

theorem portOK_www (s : GoString) (h : portOK (str "www." ++ s) = true) : portOK s = true := by
  unfold portOK at h ⊢
  rw [lastSeg_append _ _ (by decide)] at h
  exact h

/-- In a host, escaping then unescaping gives the bytes back when each is a
byte an unescaped host can hold. -/
theorem unescape_escape_host (s : GoString) (h : ∀ b ∈ s, hostLegal b = true) :
    unescape (escape s encodeHost) encodeHost = .ok s := by
  induction s with
  | nil => rfl
  | cons c s ih =>
    have hc := h c (List.mem_cons_self _ _)
    have ih' := ih (fun b hb => h b (List.mem_cons_of_mem _ hb))
    rw [escape_cons]
    have hsp : ¬ (c = ch ' ' ∧ encodeHost = encodeQueryComponent) := by
      rintro ⟨-, h⟩; cases h
    by_cases hesc : shouldEscape c encodeHost = true
    · simp only [hesc, hsp, if_true, if_false, List.cons_append, List.nil_append]
      have hm : encodeHost ≠ encodeHost ∨ 128 ≤ c.val ∨ c = ch '%' := by
        simp only [hostLegal, Bool.or_eq_true, decide_eq_true_eq, Bool.not_eq_true', hesc,
          reduceCtorEq, or_false] at hc
        exact Or.inr hc
      rw [unescape_triple c _ encodeHost hm (by decide), ih']
    · have hesc' : shouldEscape c encodeHost = false := by simpa using hesc
      obtain ⟨f1, f2⟩ := (host_byte_facts c).1 hesc'
      simp only [hesc', Bool.false_eq_true, if_false, List.singleton_append]
      by_cases hplus : c = ch '+'
      · subst hplus
        rw [unescape_plus, ih']
        rfl
      · rw [unescape_plain c _ encodeHost f1 hplus (by
          rintro ⟨-, -, h3⟩
          rw [hesc'] at h3; cases h3), ih']

end url
namespace url
open Encoding

/-- The three ways `unescape` gets past the first byte of its input. -/
theorem unescape_cons_inv (c : Byte) (rest : GoString) (mode : Encoding) (H : GoString)
    (h : unescape (c :: rest) mode = .ok H) :
    (c = ch '%' ∧ ∃ h1 h2 rest2 t, rest = h1 :: h2 :: rest2 ∧ ishex h1 = true ∧
        ishex h2 = true ∧
        (mode = encodeHost → 8 ≤ unhex h1 ∨ [c, h1, h2] = str "%25") ∧
        unescape rest2 mode = .ok t ∧
        H = (Fin.ofNat (unhex h1 * 16 + unhex h2) : Byte) :: t) ∨
    (c = ch '+' ∧ ∃ t, unescape rest mode = .ok t ∧
        H = (if mode = encodeQueryComponent then ch ' ' else ch '+') :: t) ∨
    (c ≠ ch '%' ∧ c ≠ ch '+' ∧
        ¬ ((mode = encodeHost ∨ mode = encodeZone) ∧ c.val < 128 ∧
          shouldEscape c encodeHost = true) ∧
        ∃ t, unescape rest mode = .ok t ∧ H = c :: t) := by
  rw [unescape.eq_def] at h
  simp only at h
  by_cases hp : c = ch '%'
  · left
    simp only [hp, if_true] at h
    refine ⟨hp, ?_⟩
    cases rest with
    | nil => cases h
    | cons h1 r1 =>
      cases r1 with
      | nil => cases h
      | cons h2 rest2 =>
        simp only at h
        split at h
        · cases h
        · rename_i hhex
          split at h
          · cases h
          · rename_i hhost
            split at h
            · cases h
            · cases ht : unescape rest2 mode with
              | error e => rw [ht] at h; cases h
              | ok t =>
                rw [ht] at h
                simp only [Except.ok.injEq] at h
                simp only [Bool.not_eq_true, Bool.not_eq_false', Bool.and_eq_true] at hhex
                refine ⟨h1, h2, rest2, t, rfl, hhex.1, hhex.2, ?_, ht, h.symm⟩
                intro hm
                by_contra hcon
                simp only [not_or, not_le] at hcon
                rw [hp] at hcon
                exact hhost ⟨hm, hcon.1, hcon.2⟩
  · simp only [hp, if_false] at h
    by_cases hplus : c = ch '+'
    · right; left
      simp only [hplus, if_true] at h
      cases ht : unescape rest mode with
      | error e => rw [ht] at h; cases h
      | ok t =>
        rw [ht] at h
        simp only [Except.ok.injEq] at h
        exact ⟨hplus, t, rfl, h.symm⟩
    · right; right
      simp only [hplus, if_false] at h
      split at h
      · cases h
      · rename_i hcheck
        cases ht : unescape rest mode with
        | error e => rw [ht] at h; cases h
        | ok t =>
          rw [ht] at h
          simp only [Except.ok.injEq] at h
          exact ⟨hp, hplus, hcheck, t, rfl, h.symm⟩

theorem unhex_lt : ∀ c : Byte, unhex c < 16 := by decide!

theorem unescape_digits (t : GoString) (h : t.all isDigit = true) :
    unescape t encodeHost = .ok t := by
  induction t with
  | nil => rfl
  | cons x xs ih =>
    simp only [List.all_cons, Bool.and_eq_true] at h
    have hs := (host_byte_facts x).2.1 h.1
    have hne := (host_byte_facts x).1 hs
    have hplus : x ≠ ch '+' := by
      intro e; rw [e] at h; exact absurd h.1 (by decide)
    rw [unescape_plain x xs encodeHost hne.1 hplus (by
      rintro ⟨-, -, h3⟩; rw [hs] at h3; cases h3), ih h.2]

theorem hostLegal_plain : ∀ c : Byte,
    (¬ (c.val < 128 ∧ shouldEscape c encodeHost = true) → hostLegal c = true) ∧
    (hostLegal c = true → c ≠ ch '[' → shouldEscape c encodeHost = false → True) := by
  decide!

/-- What unescaping a host keeps: every byte of the result is one a host can
hold, the bytes after the last colon are the same when they are a port number,
and a leading bracket stays. -/
theorem unescape_host_props : ∀ (n : Nat) (s H : GoString), s.length ≤ n →
    unescape s encodeHost = .ok H →
    (∀ b ∈ H, hostLegal b = true) ∧
    (lastSeg s = none → lastSeg H = none) ∧
    (∀ t, lastSeg s = some t → t.all isDigit = true → lastSeg H = some t) ∧
    (s.head? = some (ch '[') → H.head? = some (ch '[')) := by
  intro n
  induction n with
  | zero =>
    intro s H hlen h
    have hs : s = [] := List.length_eq_zero.mp (Nat.le_zero.mp hlen)
    subst hs
    have hH : H = [] := by
      have : unescape [] encodeHost = .ok [] := rfl
      rw [this] at h
      exact (Except.ok.inj h).symm
    subst hH
    simp [lastSeg]
  | succ n ih =>
    intro s H hlen h
    cases s with
    | nil =>
      have hH : H = [] := by
        have : unescape [] encodeHost = .ok [] := rfl
        rw [this] at h
        exact (Except.ok.inj h).symm
      subst hH
      simp [lastSeg]
    | cons c rest =>
      rcases unescape_cons_inv c rest encodeHost H h with
        ⟨hc, h1, h2, rest2, t, hrest, hx1, hx2, hmode, ht, hH⟩ | ⟨hc, t, ht, hH⟩ |
        ⟨hc1, hc2, hcheck, t, ht, hH⟩
      · subst hrest
        have hlen2 : rest2.length ≤ n := by
          simp only [List.length_cons] at hlen; omega
        obtain ⟨p1, p2, p3, -⟩ := ih rest2 t hlen2 ht
        have hv : hostLegal (Fin.ofNat (unhex h1 * 16 + unhex h2) : Byte) = true ∧
            (Fin.ofNat (unhex h1 * 16 + unhex h2) : Byte) ≠ ch ':' := by
          rcases hmode rfl with h8 | h25
          · have hl1 := unhex_lt h1
            have hl2 := unhex_lt h2
            have hval : (Fin.ofNat (unhex h1 * 16 + unhex h2) : Byte).val =
                unhex h1 * 16 + unhex h2 := by
              simp only [Fin.ofNat, Fin.val_mk]
              omega
            constructor
            · simp only [hostLegal, Bool.or_eq_true, decide_eq_true_eq, hval]
              left; left; omega
            · intro e
              have := congrArg Fin.val e
              rw [hval] at this
              have h58 : (ch ':').val = 58 := by decide
              omega
          · have e1 : h1 = ch '2' := by
              have := congrArg (fun l => l.getD 1 0) h25
              simpa using this
            have e2 : h2 = ch '5' := by
              have := congrArg (fun l => l.getD 2 0) h25
              simpa using this
            subst e1; subst e2
            decide
        have hs1 : lastSeg (c :: h1 :: h2 :: rest2) = lastSeg rest2 := by
          rw [lastSeg_cons_ne _ _ (by rw [hc]; decide),
            lastSeg_cons_ne _ _ ((host_byte_facts h1).2.2.2.2.2.2 hx1),
            lastSeg_cons_ne _ _ ((host_byte_facts h2).2.2.2.2.2.2 hx2)]
        subst hH
        refine ⟨?_, ?_, ?_, ?_⟩
        · intro b hb
          rcases List.mem_cons.mp hb with e | e
          · rw [e]; exact hv.1
          · exact p1 b e
        · intro hn
          rw [lastSeg_cons_ne _ _ hv.2]
          exact p2 (hs1 ▸ hn)
        · intro t2 hs ht2
          rw [lastSeg_cons_ne _ _ hv.2]
          exact p3 t2 (hs1 ▸ hs) ht2
        · intro hhead
          simp only [List.head?_cons, Option.some.injEq] at hhead
          rw [hc] at hhead
          exact absurd hhead (by decide)
      · have hlen2 : rest.length ≤ n := by
          simp only [List.length_cons] at hlen; omega
        obtain ⟨p1, p2, p3, -⟩ := ih rest t hlen2 ht
        have hq : ¬ (encodeHost = encodeQueryComponent) := by decide
        simp only [hq, if_false] at hH
        subst hH
        subst hc
        refine ⟨?_, ?_, ?_, ?_⟩
        · intro b hb
          rcases List.mem_cons.mp hb with e | e
          · rw [e]; decide
          · exact p1 b e
        · intro hn
          rw [lastSeg_cons_ne _ _ (by decide)] at hn ⊢
          exact p2 hn
        · intro t2 hs ht2
          rw [lastSeg_cons_ne _ _ (by decide)] at hs ⊢
          exact p3 t2 hs ht2
        · intro hhead
          simp only [List.head?_cons, Option.some.injEq] at hhead
          exact absurd hhead (by decide)
      · have hlen2 : rest.length ≤ n := by
          simp only [List.length_cons] at hlen; omega
        obtain ⟨p1, p2, p3, -⟩ := ih rest t hlen2 ht
        subst hH
        have hleg : hostLegal c = true :=
          (hostLegal_plain c).1 (fun hh => hcheck ⟨Or.inl rfl, hh.1, hh.2⟩)
        refine ⟨?_, ?_, ?_, ?_⟩
        · intro b hb
          rcases List.mem_cons.mp hb with e | e
          · rw [e]; exact hleg
          · exact p1 b e
        · intro hn
          by_cases hcol : c = ch ':'
          · subst hcol
            simp only [lastSeg] at hn
            cases hl : lastSeg rest with
            | none => rw [hl] at hn; simp at hn
            | some x => rw [hl] at hn; simp at hn
          · rw [lastSeg_cons_ne _ _ hcol] at hn ⊢
            exact p2 hn
        · intro t2 hs ht2
          cases hl : lastSeg rest with
          | some x =>
            have hs' : lastSeg (c :: rest) = some x := by simp [lastSeg, hl]
            rw [hs'] at hs
            have hx : x = t2 := Option.some.inj hs
            subst hx
            have := p3 x hl ht2
            simp [lastSeg, this]
          | none =>
            by_cases hcol : c = ch ':'
            · have hs' : lastSeg (c :: rest) = some rest := by simp [lastSeg, hl, hcol]
              rw [hs'] at hs
              have hx : rest = t2 := Option.some.inj hs
              subst hx
              have hd := unescape_digits rest ht2
              rw [hd] at ht
              have ht' : rest = t := Except.ok.inj ht
              subst ht'
              simp [lastSeg, hl, hcol]
            · rw [lastSeg_cons_ne _ _ hcol, hl] at hs
              cases hs
        · intro hh
          simpa using hh

end url
namespace url
open Encoding

theorem HasPrefix_bracket (s : GoString) :
    strings.HasPrefix s (str "[") = true ↔ s.head? = some (ch '[') := by
  cases s with
  | nil => decide
  | cons x xs =>
    have hs : str "[" = [ch '['] := by decide
    unfold strings.HasPrefix
    rw [hs]
    simp only [List.isPrefixOf, List.head?_cons, Option.some.injEq, Bool.and_true, beq_iff_eq]
    exact eq_comm

theorem portOK_of_unescape (s H : GoString) (h : unescape s encodeHost = .ok H)
    (hp : portOK s = true) : portOK H = true := by
  obtain ⟨-, p2, p3, -⟩ := unescape_host_props s.length s H (le_refl _) h
  unfold portOK at hp ⊢
  cases hl : lastSeg s with
  | none => rw [p2 hl]
  | some t =>
    rw [hl] at hp
    rw [p3 t hl hp]
    exact hp

/-- A host `parseHost` accepts and that does not start with a bracket went
through the branch for plain hosts: its bytes are bytes a host can hold and
what follows its last colon is a port number. -/
theorem parseHost_inv (host H : GoString) (h : parseHost host = .ok H)
    (hb : strings.HasPrefix H (str "[") = false) :
    (∀ b ∈ H, hostLegal b = true) ∧ portOK H = true := by
  unfold parseHost at h
  by_cases hpre : strings.HasPrefix host (str "[") = true
  · exfalso
    have hhead := (HasPrefix_bracket host).mp hpre
    have hHhead : H.head? = some (ch '[') → False := by
      intro hh
      rw [(HasPrefix_bracket H).mpr hh] at hb
      cases hb
    simp only [hpre, if_true] at h
    cases hl : strings.LastIndexByte host (ch ']') with
    | none => rw [hl] at h; cases h
    | some i =>
      rw [hl] at h
      simp only at h
      split at h
      · cases h
      · cases hz : strings.Index (host.take i) (str "%25") with
        | none =>
          rw [hz] at h
          simp only at h
          exact hHhead ((unescape_host_props _ _ _ (le_refl _) h).2.2.2 hhead)
        | some zone =>
          rw [hz] at h
          simp only at h
          cases h1 : unescape (host.take zone) encodeHost with
          | error e => rw [h1] at h; cases h
          | ok host1 =>
            rw [h1] at h
            simp only at h
            cases h2 : unescape ((host.take i).drop zone) encodeZone with
            | error e => rw [h2] at h; cases h
            | ok host2 =>
              rw [h2] at h
              simp only at h
              cases h3 : unescape (host.drop i) encodeHost with
              | error e => rw [h3] at h; cases h
              | ok host3 =>
                rw [h3] at h
                simp only [Except.ok.injEq] at h
                obtain ⟨x, xs, rfl⟩ : ∃ x xs, host = x :: xs := by
                  cases host with
                  | nil => simp at hhead
                  | cons x xs => exact ⟨x, xs, rfl⟩
                simp only [List.head?_cons, Option.some.injEq] at hhead
                subst hhead
                have hzone : zone ≠ 0 := by
                  intro hz0
                  subst hz0
                  cases i with
                  | zero =>
                    simp only [List.take_zero, strings.Index] at hz
                    split at hz
                    · rename_i hnil
                      exact absurd hnil (by decide)
                    · cases hz
                  | succ j =>
                    simp only [List.take_succ_cons, strings.Index] at hz
                    split at hz
                    · rename_i hpre2
                      revert hpre2
                      have hs : str "%25" = [ch '%', ch '2', ch '5'] := by decide
                      simp only [strings.HasPrefix, hs, List.isPrefixOf, Bool.and_eq_true,
                        beq_iff_eq]
                      intro hh
                      exact absurd hh.1 (by decide)
                    · cases hx : strings.Index (List.take j xs) (str "%25") with
                      | none => rw [hx] at hz; cases hz
                      | some k => rw [hx] at hz; simp at hz
                obtain ⟨z, rfl⟩ := Nat.exists_eq_succ_of_ne_zero hzone
                have hh1 := (unescape_host_props _ _ _ (le_refl _) h1).2.2.2
                  (by simp only [List.take_succ_cons, List.head?_cons])
                apply hHhead
                rw [← h]
                cases host1 with
                | nil => simp at hh1
                | cons y ys => simpa using hh1
  · have hpre' : strings.HasPrefix host (str "[") = false := by simpa using hpre
    simp only [hpre', Bool.false_eq_true, if_false] at h
    have hport : portOK host = true ∧ unescape host encodeHost = .ok H := by
      rw [← port_check]
      cases hl : strings.LastIndexByte host (ch ':') with
      | none =>
        rw [hl] at h
        exact ⟨rfl, h⟩
      | some i =>
        rw [hl] at h
        simp only at h
        split at h
        · cases h
        · rename_i hv
          simp only [Bool.not_eq_true, Bool.not_eq_false'] at hv
          exact ⟨hv, h⟩
    exact ⟨(unescape_host_props _ _ _ (le_refl _) hport.2).1,
      portOK_of_unescape _ _ hport.2 hport.1⟩

/-- The escaped text of a plain host is parsed back to the host. -/
theorem parseHost_escape (H : GoString) (hleg : ∀ b ∈ H, hostLegal b = true)
    (hport : portOK H = true) (hb : strings.HasPrefix H (str "[") = false) :
    parseHost (escape H encodeHost) = .ok H := by
  have hpre : strings.HasPrefix (escape H encodeHost) (str "[") = false := by
    cases hx : strings.HasPrefix (escape H encodeHost) (str "[") with
    | false => rfl
    | true =>
      exfalso
      have hhead := (HasPrefix_bracket _).mp hx
      cases H with
      | nil => simp [escape] at hhead
      | cons b t =>
        have hbne : b ≠ ch '[' := by
          intro e
          rw [e] at hb
          rw [(HasPrefix_bracket _).mpr (by simp)] at hb
          cases hb
        rw [escape_cons] at hhead
        by_cases hesc : shouldEscape b encodeHost = true
        · have hsp : ¬ (b = ch ' ' ∧ encodeHost = encodeQueryComponent) := by
            rintro ⟨-, h⟩; cases h
          simp only [hesc, hsp, if_true, if_false, List.cons_append, List.head?_cons,
            Option.some.injEq] at hhead
          exact absurd hhead (by decide)
        · have hesc' : shouldEscape b encodeHost = false := by simpa using hesc
          simp only [hesc', Bool.false_eq_true, if_false, List.singleton_append,
            List.head?_cons, Option.some.injEq] at hhead
          exact hbne hhead
  have hp := portOK_escape H hport
  rw [← port_check] at hp
  unfold parseHost
  simp only [hpre, Bool.false_eq_true, if_false]
  cases hl : strings.LastIndexByte (escape H encodeHost) (ch ':') with
  | none => exact unescape_escape_host H hleg
  | some i =>
    rw [hl] at hp
    simp only at hp
    simp only [hp, Bool.not_true, Bool.false_eq_true, if_false]
    exact unescape_escape_host H hleg

end url
namespace url
open Encoding

theorem drop_append_succ (a : GoString) (x : Byte) (b : GoString) :
    (a ++ x :: b).drop (a.length + 1) = b := by
  induction a with
  | nil => rfl
  | cons y ys ih => simp

theorem take_append_length (a : GoString) (x : Byte) (b : GoString) :
    (a ++ x :: b).take a.length = a := by
  induction a with
  | nil => rfl
  | cons y ys ih => simp

theorem drop_append_length (a b : GoString) : (a ++ b).drop a.length = b := by
  induction a with
  | nil => rfl
  | cons y ys ih => simp

theorem userinfo_byte_facts : ∀ c : Byte,
    (shouldEscape c encodeUserPassword = false ∨ c = ch '%' ∨ c = ch '+' ∨ isAlnum c = true ∨
        c = ch ':') →
      (isAlnum c ||
        decide (c ∈ [ch '-', ch '.', ch '_', ch ':', ch '~', ch '!', ch '$', ch '&', ch '\'',
          ch '(', ch ')', ch '*', ch '+', ch ',', ch ';', ch '=', ch '%', ch '@'])) = true := by
  decide!

theorem validUserinfo_String (ui : Userinfo) : validUserinfo ui.String = true := by
  unfold validUserinfo
  rw [List.all_eq_true]
  intro c hc
  apply userinfo_byte_facts
  unfold Userinfo.String at hc
  rcases List.mem_append.mp hc with h | h
  · rcases mem_escape c _ _ h with ⟨-, h⟩ | h | h | h
    · exact Or.inl h
    · exact Or.inr (Or.inl h)
    · exact Or.inr (Or.inr (Or.inl h))
    · exact Or.inr (Or.inr (Or.inr (Or.inl h)))
  · split at h
    · rcases List.mem_append.mp h with h | h
      · have hs : str ":" = [ch ':'] := by decide
        rw [hs, List.mem_singleton] at h
        exact Or.inr (Or.inr (Or.inr (Or.inr h)))
      · rcases mem_escape c _ _ h with ⟨-, h⟩ | h | h | h
        · exact Or.inl h
        · exact Or.inr (Or.inl h)
        · exact Or.inr (Or.inr (Or.inl h))
        · exact Or.inr (Or.inr (Or.inr (Or.inl h)))
    · exact absurd h (List.not_mem_nil _)

theorem colon_not_mem_escape_user (s : GoString) : ch ':' ∉ escape s encodeUserPassword :=
  not_mem_escape _ s _ (by decide) (by decide) (by decide) (by decide)

theorem at_not_mem_escape_user (s : GoString) : ch '@' ∉ escape s encodeUserPassword :=
  not_mem_escape _ s _ (by decide) (by decide) (by decide) (by decide)

theorem at_not_mem_escape_host (s : GoString) : ch '@' ∉ escape s encodeHost :=
  not_mem_escape _ s _ (by decide) (by decide) (by decide) (by decide)

/-- What `parseAuthority` accepts: a host `parseHost` accepts, and user
information without a password has an empty password field. -/
theorem parseAuthority_inv (A : GoString) (user : Option Userinfo) (H : GoString)
    (h : parseAuthority A = .ok (user, H)) :
    (∃ host0, parseHost host0 = .ok H) ∧ userOK user = true := by
  unfold parseAuthority at h
  cases hl : strings.LastIndexByte A (ch '@') with
  | none =>
    rw [hl] at h
    simp only at h
    cases hp : parseHost A with
    | error e => rw [hp] at h; cases h
    | ok host =>
      rw [hp] at h
      simp only [Except.ok.injEq, Prod.mk.injEq] at h
      obtain ⟨rfl, rfl⟩ := h
      exact ⟨⟨A, hp⟩, rfl⟩
  | some i =>
    rw [hl] at h
    simp only at h
    cases hp : parseHost (A.drop (i + 1)) with
    | error e => rw [hp] at h; cases h
    | ok host =>
      rw [hp] at h
      simp only at h
      split at h
      · cases h
      · split at h
        · cases hu : unescape (List.take i A) encodeUserPassword with
          | error e => rw [hu] at h; cases h
          | ok username =>
            rw [hu] at h
            simp only [Except.ok.injEq, Prod.mk.injEq] at h
            obtain ⟨rfl, rfl⟩ := h
            exact ⟨⟨_, hp⟩, by simp [userOK]⟩
        · cases hu : unescape (strings.Cut (List.take i A) (ch ':')).1 encodeUserPassword with
          | error e => rw [hu] at h; cases h
          | ok username =>
            rw [hu] at h
            simp only at h
            cases hw : unescape (strings.Cut (List.take i A) (ch ':')).2.1
                encodeUserPassword with
            | error e => rw [hw] at h; cases h
            | ok password =>
              rw [hw] at h
              simp only [Except.ok.injEq, Prod.mk.injEq] at h
              obtain ⟨rfl, rfl⟩ := h
              exact ⟨⟨_, hp⟩, by simp [userOK]⟩

/-- The authority text `String` writes is parsed back to the same user
information and host. -/
theorem parseAuthority_text (user : Option Userinfo) (H : GoString)
    (huser : userOK user = true) (hleg : ∀ b ∈ H, hostLegal b = true)
    (hport : portOK H = true) (hb : strings.HasPrefix H (str "[") = false) :
    parseAuthority (userText user ++ escape H encodeHost) = .ok (user, H) := by
  have hhost := parseHost_escape H hleg hport hb
  unfold parseAuthority
  cases user with
  | none =>
    simp only [userText, List.nil_append]
    rw [strings.LastIndexByte_not_mem _ _ (at_not_mem_escape_host H)]
    simp only [hhost]
  | some ui =>
    have hat : str "@" = [ch '@'] := by decide
    have htext : userText (some ui) ++ escape H encodeHost =
        ui.String ++ ch '@' :: escape H encodeHost := by
      simp [userText, hat]
    rw [htext, strings.LastIndexByte_append _ _ _ (at_not_mem_escape_host H)]
    simp only [drop_append_succ, take_append_length, hhost, validUserinfo_String,
      Bool.not_true, Bool.false_eq_true, if_false]
    obtain ⟨username, password, pset⟩ := ui
    cases pset with
    | false =>
      have hpw : password = [] := by simpa [userOK] using huser
      subst hpw
      have hs : Userinfo.String ⟨username, [], false⟩ = escape username encodeUserPassword := by
        simp [Userinfo.String]
      rw [hs, strings.ContainsByte_false _ _ (colon_not_mem_escape_user username)]
      simp only [Bool.not_false, if_true]
      rw [unescape_escape _ _ (by decide) (by decide)]
    | true =>
      have hcol : str ":" = [ch ':'] := by decide
      have hs : Userinfo.String ⟨username, password, true⟩ =
          escape username encodeUserPassword ++ ch ':' :: escape password encodeUserPassword := by
        simp [Userinfo.String, hcol]
      have hc : strings.ContainsByte (escape username encodeUserPassword ++
          ch ':' :: escape password encodeUserPassword) (ch ':') = true :=
        (strings.ContainsByte_iff _ _).mpr (by simp)
      rw [hs, hc, strings.Cut_append _ _ _ (colon_not_mem_escape_user username)]
      simp only [Bool.not_true, Bool.false_eq_true, if_false]
      rw [unescape_escape _ _ (by decide) (by decide),
        unescape_escape _ _ (by decide) (by decide)]

end url
namespace url
open Encoding

theorem scheme_byte_facts : ∀ c : Byte,
    (isLetter c = true ↔ ((ch 'a' ≤ c ∧ c ≤ ch 'z') ∨ (ch 'A' ≤ c ∧ c ≤ ch 'Z'))) ∧
    (isSchemeByte c = true ↔ (isLetter c = true ∨
      ((ch '0' ≤ c ∧ c ≤ ch '9') ∨ c = ch '+' ∨ c = ch '-' ∨ c = ch '.'))) ∧
    (isLetter c = true → isLetter (strings.lowerByte c) = true) ∧
    (isSchemeByte c = true → isSchemeByte (strings.lowerByte c) = true) ∧
    strings.lowerByte (strings.lowerByte c) = strings.lowerByte c ∧
    (isSchemeByte c = true → c ≠ ch ':' ∧ c ≠ ch '#' ∧ c ≠ ch '?' ∧ c ≠ ch '/' ∧
      ¬ c < ch ' ' ∧ c ≠ 127) ∧
    (isLetter c = true → isSchemeByte c = true) := by
  decide!

/-- The scan of `getScheme`, started inside a scheme: it stops at the colon. -/
theorem getSchemeFrom_valid (raw : GoString) (r : GoString) :
    ∀ (s pre : GoString), raw = pre ++ s ++ ch ':' :: r → s.all isSchemeByte = true →
      (pre = [] → s ≠ [] ∧ ∀ c, s.head? = some c → isLetter c = true) →
      getSchemeFrom raw pre.length (s ++ ch ':' :: r) = .ok (pre ++ s, r) := by
  intro s
  induction s with
  | nil =>
    intro pre hraw _ hpre
    have hne : pre ≠ [] := fun e => (hpre e).1 rfl
    have hlen : pre.length ≠ 0 := fun e => hne (List.length_eq_zero.mp e)
    simp only [List.nil_append, getSchemeFrom]
    have h1 : ¬ ((ch 'a' ≤ ch ':' ∧ ch ':' ≤ ch 'z') ∨ (ch 'A' ≤ ch ':' ∧ ch ':' ≤ ch 'Z')) := by
      decide
    have h2 : ¬ ((ch '0' ≤ ch ':' ∧ ch ':' ≤ ch '9') ∨ ch ':' = ch '+' ∨ ch ':' = ch '-' ∨
        ch ':' = ch '.') := by decide
    simp only [h1, h2, if_false, if_true, hlen]
    rw [hraw]
    simp
  | cons c s ih =>
    intro pre hraw hall hpre
    simp only [List.all_cons, Bool.and_eq_true] at hall
    have hraw' : raw = (pre ++ [c]) ++ s ++ ch ':' :: r := by simp [hraw]
    have hrec := ih (pre ++ [c]) hraw' hall.2 (by simp)
    simp only [List.length_append, List.length_singleton] at hrec
    simp only [List.cons_append, getSchemeFrom]
    obtain ⟨f1, f2, -⟩ := scheme_byte_facts c
    by_cases hl : isLetter c = true
    · simp only [f1.mp hl, if_true]
      simpa using hrec
    · have hl' : ¬ ((ch 'a' ≤ c ∧ c ≤ ch 'z') ∨ (ch 'A' ≤ c ∧ c ≤ ch 'Z')) :=
        fun h => hl (f1.mpr h)
      have hd := (f2.mp hall.1).resolve_left hl
      have hlen : pre.length ≠ 0 := by
        intro e
        have hp := hpre (List.length_eq_zero.mp e)
        exact hl (hp.2 c rfl)
      simp only [hl', hd, if_false, if_true, hlen]
      simpa using hrec

theorem getScheme_valid (s r : GoString) (hs : validScheme s = true) :
    getScheme (s ++ ch ':' :: r) = .ok (s, r) := by
  cases s with
  | nil => simp [validScheme] at hs
  | cons c rest =>
    simp only [validScheme, Bool.and_eq_true] at hs
    have hall : (c :: rest).all isSchemeByte = true := by
      simp only [List.all_cons, Bool.and_eq_true]
      exact ⟨(scheme_byte_facts c).2.2.2.2.2.2 hs.1, hs.2⟩
    have := getSchemeFrom_valid ((c :: rest) ++ ch ':' :: r) r (c :: rest) [] (by simp) hall
      (fun _ => ⟨by simp, fun d hd => by
        simp only [List.head?_cons, Option.some.injEq] at hd
        rw [← hd]; exact hs.1⟩)
    simpa [getScheme] using this

theorem getScheme_slash (r : GoString) :
    getScheme (ch '/' :: r) = .ok ([], ch '/' :: r) := by
  simp only [getScheme, getSchemeFrom]
  have h1 : ¬ ((ch 'a' ≤ ch '/' ∧ ch '/' ≤ ch 'z') ∨ (ch 'A' ≤ ch '/' ∧ ch '/' ≤ ch 'Z')) := by
    decide
  have h2 : ¬ ((ch '0' ≤ ch '/' ∧ ch '/' ≤ ch '9') ∨ ch '/' = ch '+' ∨ ch '/' = ch '-' ∨
      ch '/' = ch '.') := by decide
  have h3 : ¬ (ch '/' = ch ':') := by decide
  simp only [h1, h2, h3, if_false]

/-- What the scan of `getScheme` returns: no scheme and the whole text, or a
valid scheme and a part of the text. -/
theorem getSchemeFrom_inv (raw : GoString) :
    ∀ (s pre : GoString) (sch r : GoString), raw = pre ++ s →
      pre.all isSchemeByte = true → (∀ c, pre.head? = some c → isLetter c = true) →
      getSchemeFrom raw pre.length s = .ok (sch, r) →
      (sch = [] ∧ r = raw) ∨ (validScheme sch = true ∧ ∀ c ∈ r, c ∈ raw) := by
  intro s
  induction s with
  | nil =>
    intro pre sch r _ _ _ h
    simp only [getSchemeFrom, Except.ok.injEq, Prod.mk.injEq] at h
    exact Or.inl ⟨h.1.symm, h.2.symm⟩
  | cons c s ih =>
    intro pre sch r hraw hall hhead h
    obtain ⟨f1, f2, -⟩ := scheme_byte_facts c
    have hraw' : raw = (pre ++ [c]) ++ s := by simp [hraw]
    have hlen' : (pre ++ [c]).length = pre.length + 1 := by simp
    simp only [getSchemeFrom] at h
    by_cases hl : (ch 'a' ≤ c ∧ c ≤ ch 'z') ∨ (ch 'A' ≤ c ∧ c ≤ ch 'Z')
    · simp only [hl, if_true] at h
      rw [← hlen'] at h
      apply ih (pre ++ [c]) sch r hraw' _ _ h
      · simp only [List.all_append, List.all_cons, List.all_nil, Bool.and_true,
          Bool.and_eq_true]
        exact ⟨hall, f2.mpr (Or.inl (f1.mpr hl))⟩
      · intro d hd
        cases pre with
        | nil =>
          simp only [List.nil_append, List.head?_cons, Option.some.injEq] at hd
          rw [← hd]; exact f1.mpr hl
        | cons p ps =>
          simp only [List.cons_append, List.head?_cons, Option.some.injEq] at hd
          exact hhead d (by simp [hd])
    · simp only [hl, if_false] at h
      by_cases hd : (ch '0' ≤ c ∧ c ≤ ch '9') ∨ c = ch '+' ∨ c = ch '-' ∨ c = ch '.'
      · simp only [hd, if_true] at h
        by_cases hz : pre.length = 0
        · simp only [hz, if_true, Except.ok.injEq, Prod.mk.injEq] at h
          exact Or.inl ⟨h.1.symm, h.2.symm⟩
        · simp only [hz, if_false] at h
          rw [← hlen'] at h
          apply ih (pre ++ [c]) sch r hraw' _ _ h
          · simp only [List.all_append, List.all_cons, List.all_nil, Bool.and_true,
              Bool.and_eq_true]
            exact ⟨hall, f2.mpr (Or.inr hd)⟩
          · intro d hd2
            cases pre with
            | nil => simp at hz
            | cons p ps =>
              simp only [List.cons_append, List.head?_cons, Option.some.injEq] at hd2
              exact hhead d (by simp [hd2])
      · simp only [hd, if_false] at h
        by_cases hc : c = ch ':'
        · simp only [hc, if_true] at h
          by_cases hz : pre.length = 0
          · simp only [hz, if_true] at h
            cases h
          · simp only [hz, if_false, Except.ok.injEq, Prod.mk.injEq] at h
            right
            obtain ⟨h1, h2⟩ := h
            have htake : List.take pre.length raw = pre := by
              rw [hraw]; simp
            rw [htake] at h1
            subst h1; subst h2
            constructor
            · cases pre with
              | nil => simp at hz
              | cons p ps =>
                simp only [validScheme, Bool.and_eq_true]
                simp only [List.all_cons, Bool.and_eq_true] at hall
                exact ⟨hhead p rfl, hall.2⟩
            · intro x hx
              rw [hraw]
              simp [hx]
        · simp only [hc, if_false, Except.ok.injEq, Prod.mk.injEq] at h
          exact Or.inl ⟨h.1.symm, h.2.symm⟩

theorem getScheme_inv (raw sch r : GoString) (h : getScheme raw = .ok (sch, r)) :
    (sch = [] ∧ r = raw) ∨ (validScheme sch = true ∧ ∀ c ∈ r, c ∈ raw) :=
  getSchemeFrom_inv raw raw [] sch r rfl rfl (by simp) h

theorem validScheme_ToLower (s : GoString) (h : validScheme s = true) :
    validScheme (strings.ToLower s) = true ∧
    strings.ToLower (strings.ToLower s) = strings.ToLower s := by
  constructor
  · cases s with
    | nil => simp [validScheme] at h
    | cons c rest =>
      simp only [validScheme, Bool.and_eq_true, List.all_eq_true] at h
      simp only [strings.ToLower, List.map_cons, validScheme, Bool.and_eq_true,
        List.all_eq_true, List.mem_map]
      refine ⟨(scheme_byte_facts c).2.2.1 h.1, ?_⟩
      rintro x ⟨y, hy, rfl⟩
      exact (scheme_byte_facts y).2.2.2.1 (h.2 y hy)
  · simp only [strings.ToLower, List.map_map]
    apply List.map_congr_left
    intro c _
    exact (scheme_byte_facts c).2.2.2.2.1

end url
namespace url
open Encoding

theorem EscapedFragment_eq (u : URL) :
    u.EscapedFragment = escapedForm u.RawFragment u.Fragment encodeFragment := rfl

theorem EscapedPath_eq (u : URL) (h : u.Path ≠ str "*") :
    u.EscapedPath = escapedForm u.RawPath u.Path encodePath := by
  unfold URL.EscapedPath escapedForm
  simp only [h, if_false]

theorem escapedForm_unescape (raw plain : GoString) (mode : Encoding)
    (hm : mode ≠ encodeHost) (hz : mode ≠ encodeZone) :
    unescape (escapedForm raw plain mode) mode = .ok plain := by
  unfold escapedForm
  split
  · rename_i h
    have h3 := h.2.2
    unfold unescapesTo at h3
    cases hu : unescape raw mode with
    | error e => rw [hu] at h3; cases h3
    | ok p =>
      rw [hu] at h3
      simp only [decide_eq_true_eq] at h3
      rw [h3]
  · exact unescape_escape plain mode hm hz

theorem escapedForm_stable (raw plain : GoString) (mode : Encoding) :
    escapedForm
      (if escapedForm raw plain mode = escape plain mode then []
        else escapedForm raw plain mode) plain mode =
      escapedForm raw plain mode := by
  by_cases he : escapedForm raw plain mode = escape plain mode
  · simp only [he, if_true]
    unfold escapedForm
    simp
  · simp only [he, if_false]
    have hraw : escapedForm raw plain mode = raw ∧
        (raw ≠ [] ∧ validEncoding raw mode = true ∧ unescapesTo raw mode plain = true) := by
      unfold escapedForm at he ⊢
      split
      · rename_i h; exact ⟨rfl, h⟩
      · rename_i h; simp only [h, if_false] at he; exact absurd trivial he
    rw [hraw.1]
    unfold escapedForm
    simp only [hraw.2, ne_eq, not_false_eq_true, and_self, if_true]

theorem escaped_byte_facts (mode : Encoding) (hmode : mode = encodePath ∨ mode = encodeFragment) :
    ∀ c : Byte,
      (c ∈ [ch '!', ch '$', ch '&', ch '\'', ch '(', ch ')', ch '*', ch '+', ch ',', ch ';',
          ch '=', ch ':', ch '@', ch '[', ch ']', ch '%'] ∨
        shouldEscape c mode = false ∨ c = ch '%' ∨ c = ch '+' ∨ isAlnum c = true) →
      c ≠ ch '#' ∧ ¬ c < ch ' ' ∧ c ≠ 127 ∧ (mode = encodePath → c ≠ ch '?') := by
  rcases hmode with h | h <;> subst h <;> decide!

theorem escapedForm_bytes (raw plain : GoString) (mode : Encoding)
    (hmode : mode = encodePath ∨ mode = encodeFragment) :
    ∀ c ∈ escapedForm raw plain mode,
      c ≠ ch '#' ∧ ¬ c < ch ' ' ∧ c ≠ 127 ∧ (mode = encodePath → c ≠ ch '?') := by
  intro c hc
  apply escaped_byte_facts mode hmode
  unfold escapedForm at hc
  split at hc
  · rename_i h
    have hv := h.2.1
    unfold validEncoding at hv
    rw [List.all_eq_true] at hv
    have := hv c hc
    split at this
    · rename_i hin; exact Or.inl hin
    · right; left
      simpa using this
  · rcases mem_escape c _ _ hc with ⟨-, h⟩ | h | h | h
    · exact Or.inr (Or.inl h)
    · exact Or.inr (Or.inr (Or.inl h))
    · exact Or.inr (Or.inr (Or.inr (Or.inl h)))
    · exact Or.inr (Or.inr (Or.inr (Or.inr h)))

theorem escapedForm_head (raw plain : GoString)
    (hplain : plain = [] ∨ plain.head? = some (ch '/'))
    (hraw : raw = [] ∨ raw.head? = some (ch '/')) :
    escapedForm raw plain encodePath = [] ∨
      (escapedForm raw plain encodePath).head? = some (ch '/') := by
  unfold escapedForm
  split
  · rename_i h
    exact Or.inr (hraw.resolve_left h.1)
  · rcases hplain with h | h
    · left; rw [h]; rfl
    · right
      cases plain with
      | nil => simp at h
      | cons c t =>
        simp only [List.head?_cons, Option.some.injEq] at h
        subst h
        rw [escape_cons]
        have : shouldEscape (ch '/') encodePath = false := by decide
        simp [this]

theorem escape_ne_nil (plain : GoString) (mode : Encoding) (h : plain ≠ []) :
    escape plain mode ≠ [] := by
  cases plain with
  | nil => exact absurd rfl h
  | cons c t =>
    rw [escape_cons]
    split
    · split <;> simp
    · simp

theorem escapedForm_ne_nil (raw plain : GoString) (mode : Encoding) (h : plain ≠ []) :
    escapedForm raw plain mode ≠ [] := by
  unfold escapedForm
  split
  · rename_i hc; exact hc.1
  · exact escape_ne_nil plain mode h

theorem setPath_inv (u U : URL) (p : GoString) (h : URL.setPath u p = .ok U) :
    ∃ path, unescape p encodePath = .ok path ∧
      U = { u with Path := path, RawPath := if p = escape path encodePath then [] else p } := by
  unfold URL.setPath at h
  cases hu : unescape p encodePath with
  | error e => rw [hu] at h; cases h
  | ok path =>
    rw [hu] at h
    simp only [Except.ok.injEq] at h
    exact ⟨path, rfl, h.symm⟩

theorem setFragment_inv (u U : URL) (f : GoString) (h : URL.setFragment u f = .ok U) :
    ∃ frag, unescape f encodeFragment = .ok frag ∧
      U = { u with Fragment := frag,
                   RawFragment := if f = escape frag encodeFragment then [] else f } := by
  unfold URL.setFragment at h
  cases hu : unescape f encodeFragment with
  | error e => rw [hu] at h; cases h
  | ok frag =>
    rw [hu] at h
    simp only [Except.ok.injEq] at h
    exact ⟨frag, rfl, h.symm⟩

end url

namespace strings

theorem mem_of_mem_Cut_after (s : GoString) (sep c : Byte) (h : c ∈ (Cut s sep).2.1) : c ∈ s := by
  induction s with
  | nil => simp [Cut] at h
  | cons x xs ih =>
    by_cases hx : x = sep
    · simp only [Cut, hx, if_true] at h
      exact List.mem_cons_of_mem _ h
    · simp only [Cut, hx, if_false] at h
      exact List.mem_cons_of_mem _ (ih h)

theorem mem_of_mem_Cut_before (s : GoString) (sep c : Byte) (h : c ∈ (Cut s sep).1) : c ∈ s := by
  induction s with
  | nil => simp [Cut] at h
  | cons x xs ih =>
    by_cases hx : x = sep
    · simp only [Cut, hx, if_true] at h
      exact absurd h (List.not_mem_nil _)
    · simp only [Cut, hx, if_false, List.mem_cons] at h
      rcases h with h | h
      · rw [h]; exact List.mem_cons_self _ _
      · exact List.mem_cons_of_mem _ (ih h)

theorem sep_not_mem_Cut_before (s : GoString) (sep : Byte) : sep ∉ (Cut s sep).1 := by
  induction s with
  | nil => simp [Cut]
  | cons x xs ih =>
    by_cases hx : x = sep
    · simp [Cut, hx]
    · simp only [Cut, hx, if_false, List.mem_cons, not_or]
      exact ⟨fun e => hx e.symm, ih⟩

theorem IndexByte_drop_head (s : GoString) (c : Byte) (i : Nat) (h : IndexByte s c = some i) :
    (s.drop i).head? = some c := by
  induction s generalizing i with
  | nil => simp [IndexByte] at h
  | cons x xs ih =>
    by_cases hx : x = c
    · simp only [IndexByte, hx, if_true, Option.some.injEq] at h
      subst h; simp [hx]
    · simp only [IndexByte, hx, if_false] at h
      cases hi : IndexByte xs c with
      | none => rw [hi] at h; cases h
      | some j =>
        rw [hi] at h
        simp only [Option.map_some', Option.some.injEq] at h
        subst h
        simpa using ih j hi

end strings
namespace url
open Encoding

/-- `parse`, with its steps named. -/
theorem parse_eq (raw : GoString) (viaRequest : Bool) :
    parse raw viaRequest =
      if stringContainsCTLByte raw then .error "net/url: invalid control character in URL"
      else if raw = [] ∧ viaRequest = true then .error "empty url"
      else if raw = str "*" then .ok { Path := str "*" }
      else
        match getScheme raw with
        | .error e => .error e
        | .ok (scheme0, rest0) =>
          parseRest (strings.ToLower scheme0) (forceQueryOf rest0) (rawQueryOf rest0)
            (restOf rest0) viaRequest := by
  unfold parse
  split
  · rfl
  split
  · rfl
  split
  · rfl
  cases hg : getScheme raw with
  | error e => rfl
  | ok sr =>
    obtain ⟨scheme0, rest0⟩ := sr
    simp only [parseRest, cutAuthority, forceQueryOf, rawQueryOf, restOf]
    cases strings.IndexByte (List.drop 2
        (if (strings.HasSuffix rest0 (str "?") &&
            decide (strings.Count rest0 (ch '?') = 1)) = true
          then List.take (rest0.length - 1) rest0
          else (strings.Cut rest0 (ch '?')).1)) (ch '/') <;> rfl

end url

namespace url
open Encoding

theorem cutAuthority_path (s : GoString) :
    (cutAuthority s).2 = [] ∨ (cutAuthority s).2.head? = some (ch '/') := by
  unfold cutAuthority
  cases hi : strings.IndexByte s (ch '/') with
  | none => left; rfl
  | some i => right; exact strings.IndexByte_drop_head _ _ _ hi

theorem cutAuthority_append (A E : GoString) (hA : ch '/' ∉ A)
    (hE : E = [] ∨ E.head? = some (ch '/')) : cutAuthority (A ++ E) = (A, E) := by
  unfold cutAuthority
  rcases hE with h | h
  · subst h
    rw [List.append_nil, strings.IndexByte_not_mem _ _ hA]
  · cases E with
    | nil => simp at h
    | cons c t =>
      simp only [List.head?_cons, Option.some.injEq] at h
      subst h
      rw [strings.IndexByte_append _ _ _ hA]
      simp only [take_append_length, drop_append_length]

/-- What `parseRest` did when it returns a URL with a host. -/
theorem parseRest_inv (scheme : GoString) (fq : Bool) (rq rest : GoString) (U : URL)
    (h : parseRest scheme fq rq rest false = .ok U) (hH : U.Host ≠ []) :
    ∃ authority path0,
      U.Scheme = scheme ∧ U.Opaque = [] ∧ U.OmitHost = false ∧ U.ForceQuery = fq ∧
      U.RawQuery = rq ∧
      parseAuthority authority = .ok (U.User, U.Host) ∧
      (path0 = [] ∨ path0.head? = some (ch '/')) ∧
      unescape path0 encodePath = .ok U.Path ∧
      U.RawPath = (if path0 = escape U.Path encodePath then [] else path0) ∧
      U.Fragment = [] ∧ U.RawFragment = [] := by
  unfold parseRest at h
  by_cases c1 : (!strings.HasPrefix rest (str "/")) = true ∧ scheme ≠ []
  · rw [if_pos c1] at h
    simp only [Except.ok.injEq] at h
    subst h
    exact absurd rfl hH
  rw [if_neg c1] at h
  by_cases c2 : (!strings.HasPrefix rest (str "/")) = true ∧ false = true
  · rw [if_pos c2] at h; cases h
  rw [if_neg c2] at h
  by_cases c3 : (!strings.HasPrefix rest (str "/")) = true ∧
      strings.ContainsByte (strings.Cut rest (ch '/')).1 (ch ':') = true
  · rw [if_pos c3] at h; cases h
  rw [if_neg c3] at h
  by_cases c4 : (scheme ≠ [] ∨ (false = false ∧ (!strings.HasPrefix rest (str "///")) = true)) ∧
      strings.HasPrefix rest (str "//") = true
  · rw [if_pos c4] at h
    cases hpa : parseAuthority (cutAuthority (rest.drop 2)).1 with
    | error e => rw [hpa] at h; cases h
    | ok uh =>
      obtain ⟨user, host⟩ := uh
      rw [hpa] at h
      simp only at h
      obtain ⟨path, hpath, hU⟩ := setPath_inv _ _ _ h
      subst hU
      exact ⟨_, _, rfl, rfl, rfl, rfl, rfl, hpa, cutAuthority_path _, hpath, rfl, rfl, rfl⟩
  rw [if_neg c4] at h
  by_cases c5 : scheme ≠ [] ∧ strings.HasPrefix rest (str "/") = true
  · rw [if_pos c5] at h
    obtain ⟨path, -, hU⟩ := setPath_inv _ _ _ h
    subst hU
    exact absurd rfl hH
  · rw [if_neg c5] at h
    obtain ⟨path, -, hU⟩ := setPath_inv _ _ _ h
    subst hU
    exact absurd rfl hH

/-- What `parse` did when it returns a URL with a host. -/
theorem parse_inv (raw : GoString) (U : URL) (h : parse raw false = .ok U) (hH : U.Host ≠ []) :
    stringContainsCTLByte raw = false ∧
    ∃ scheme0 rest0 authority path0,
      getScheme raw = .ok (scheme0, rest0) ∧
      U.Scheme = strings.ToLower scheme0 ∧ U.Opaque = [] ∧ U.OmitHost = false ∧
      U.ForceQuery = forceQueryOf rest0 ∧ U.RawQuery = rawQueryOf rest0 ∧
      parseAuthority authority = .ok (U.User, U.Host) ∧
      (path0 = [] ∨ path0.head? = some (ch '/')) ∧
      unescape path0 encodePath = .ok U.Path ∧
      U.RawPath = (if path0 = escape U.Path encodePath then [] else path0) ∧
      U.Fragment = [] ∧ U.RawFragment = [] := by
  rw [parse_eq] at h
  by_cases c1 : stringContainsCTLByte raw = true
  · rw [if_pos c1] at h; cases h
  rw [if_neg c1] at h
  refine ⟨by simpa using c1, ?_⟩
  by_cases c2 : raw = [] ∧ false = true
  · rw [if_pos c2] at h; cases h
  rw [if_neg c2] at h
  by_cases c3 : raw = str "*"
  · rw [if_pos c3] at h
    simp only [Except.ok.injEq] at h
    subst h
    exact absurd rfl hH
  rw [if_neg c3] at h
  cases hg : getScheme raw with
  | error e => rw [hg] at h; cases h
  | ok sr =>
    obtain ⟨scheme0, rest0⟩ := sr
    rw [hg] at h
    simp only at h
    obtain ⟨authority, path0, h1, h2, h3, h4, h5, h6, h7, h8, h9, h10, h11⟩ :=
      parseRest_inv _ _ _ _ U h hH
    exact ⟨scheme0, rest0, authority, path0, rfl, h1, h2, h3, h4, h5, h6, h7, h8, h9, h10, h11⟩

theorem HasPrefix_cons (x : Byte) (xs : GoString) (y : Byte) (ys : GoString) :
    strings.HasPrefix (x :: xs) (y :: ys) = (decide (y = x) && strings.HasPrefix xs ys) := by
  by_cases h : y = x <;> simp [strings.HasPrefix, List.isPrefixOf, h]

/-- `parseRest` on `//authority path`: the authority and the path are read
back as written. -/
theorem parseRest_authority (scheme : GoString) (fq : Bool) (rq A E : GoString)
    (user : Option Userinfo) (host : GoString)
    (hA : ch '/' ∉ A) (hAne : A ≠ []) (hE : E = [] ∨ E.head? = some (ch '/'))
    (hpa : parseAuthority A = .ok (user, host)) :
    parseRest scheme fq rq (str "//" ++ (A ++ E)) false =
      URL.setPath { Scheme := scheme, ForceQuery := fq, RawQuery := rq,
                    User := user, Host := host } E := by
  have hss : str "//" = [ch '/', ch '/'] := by decide
  have hs1 : str "/" = [ch '/'] := by decide
  have hs3 : str "///" = [ch '/', ch '/', ch '/'] := by decide
  obtain ⟨a, as, rfl⟩ := List.exists_cons_of_ne_nil hAne
  have ha : a ≠ ch '/' := by
    intro e; apply hA; rw [e]; exact List.mem_cons_self _ _
  have ha' : ¬ ch '/' = a := fun e => ha e.symm
  have p1 : strings.HasPrefix (str "//" ++ (a :: as ++ E)) (str "/") = true := by
    rw [hss, hs1]; simp [HasPrefix_cons, strings.HasPrefix]
  have p2 : strings.HasPrefix (str "//" ++ (a :: as ++ E)) (str "//") = true := by
    rw [hss]; simp [HasPrefix_cons, strings.HasPrefix]
  have p3 : strings.HasPrefix (str "//" ++ (a :: as ++ E)) (str "///") = false := by
    rw [hss, hs3]; simp [HasPrefix_cons, ha']
  have hdrop : (str "//" ++ (a :: as ++ E)).drop 2 = a :: as ++ E := by
    rw [hss]; rfl
  unfold parseRest
  simp only [p1, p2, p3, Bool.not_true, Bool.false_eq_true, false_and, if_false, Bool.not_false,
    and_self, or_true, if_true, hdrop, cutAuthority_append (a :: as) E hA hE, hpa]

end url
namespace url
open Encoding

theorem HasSuffix_question (s : GoString) (h : strings.HasSuffix s (str "?") = true) :
    s.getLast? = some (ch '?') := by
  unfold strings.HasSuffix at h
  rw [List.isSuffixOf_iff_suffix] at h
  obtain ⟨t, ht⟩ := h
  have hs : str "?" = [ch '?'] := by decide
  rw [hs] at ht
  rw [← ht]
  simp

/-- The query `String` wrote is cut off as `parse` would cut it. -/
theorem splitQuery (pre q : GoString) (fq : Bool) (hpre : ch '?' ∉ pre)
    (hfq : fq = true → q = []) :
    forceQueryOf (pre ++ (if fq = true ∨ q ≠ [] then ch '?' :: q else [])) = fq ∧
    restOf (pre ++ (if fq = true ∨ q ≠ [] then ch '?' :: q else [])) = pre ∧
    rawQueryOf (pre ++ (if fq = true ∨ q ≠ [] then ch '?' :: q else [])) = q := by
  have hs : str "?" = [ch '?'] := by decide
  have hcount : List.count (ch '?') pre = 0 := List.count_eq_zero.mpr hpre
  cases fq with
  | true =>
    have hq := hfq rfl
    subst hq
    have hf : forceQueryOf (pre ++ [ch '?']) = true := by
      unfold forceQueryOf strings.HasSuffix strings.Count
      rw [hs]
      simp [List.count_append, hcount]
    simp only [true_or, if_true]
    unfold restOf rawQueryOf
    simp only [hf, if_true]
    simp
  | false =>
    by_cases hq : q = []
    · subst hq
      have hf : forceQueryOf pre = false := by
        cases hx : forceQueryOf pre with
        | false => rfl
        | true =>
          unfold forceQueryOf at hx
          simp only [Bool.and_eq_true] at hx
          have := HasSuffix_question pre hx.1
          exact absurd (List.mem_of_getLast?_eq_some this) hpre
      simp only [Bool.false_eq_true, ne_eq, not_true_eq_false, or_self, if_false,
        List.append_nil]
      unfold restOf rawQueryOf
      simp only [hf, Bool.false_eq_true, if_false, strings.Cut_not_mem pre _ hpre]
      exact ⟨trivial, trivial, trivial⟩
    · have hf : forceQueryOf (pre ++ ch '?' :: q) = false := by
        cases hx : forceQueryOf (pre ++ ch '?' :: q) with
        | false => rfl
        | true =>
          exfalso
          unfold forceQueryOf at hx
          simp only [Bool.and_eq_true, decide_eq_true_eq] at hx
          have hl := HasSuffix_question _ hx.1
          have hl2 : (pre ++ ch '?' :: q).getLast? = q.getLast? := by
            have h1 : pre ++ ch '?' :: q = (pre ++ [ch '?']) ++ q := by simp
            rw [h1, List.getLast?_append_of_ne_nil _ hq]
          rw [hl2] at hl
          have hmem : ch '?' ∈ q := List.mem_of_getLast?_eq_some hl
          have hc : 0 < List.count (ch '?') q := List.count_pos_iff.mpr hmem
          have := hx.2
          unfold strings.Count at this
          simp only [List.count_append, List.count_cons_self, hcount] at this
          omega
      simp only [Bool.false_eq_true, false_or, ne_eq, hq, not_false_eq_true, if_true]
      unfold restOf rawQueryOf
      simp only [hf, Bool.false_eq_true, if_false, strings.Cut_append pre q _ hpre]
      exact ⟨trivial, trivial, trivial⟩

theorem plain_byte_facts : ∀ c : Byte,
    (plainByte c = true ↔ (c ≠ ch '#' ∧ ¬ c < ch ' ' ∧ c ≠ 127)) ∧
    ((c = ch '%' ∨ c = ch '+' ∨ isAlnum c = true ∨ c = ch '&' ∨ c = ch '=' ∨ c = ch ':' ∨
      c = ch '@' ∨ c = ch '/' ∨ c = ch '?') → plainByte c = true) ∧
    ((c = ch '%' ∨ c = ch '+' ∨ isAlnum c = true ∨ c = ch ':' ∨ c = ch '@') →
      c ≠ ch '?' ∧ c ≠ ch '/') := by
  decide!

/-- What `escape` writes holds no `#` and no control character, and outside a
fragment no `?`. -/
theorem escape_plain (s : GoString) (mode : Encoding) :
    ∀ c ∈ escape s mode, plainByte c = true ∧ (mode ≠ encodeFragment → c ≠ ch '?') := by
  intro c hc
  rcases mem_escape c s mode hc with ⟨-, h⟩ | h | h | h
  · obtain ⟨-, f2, f3, f4, f5, -⟩ := shouldEscape_facts mode c h
    exact ⟨(plain_byte_facts c).1.mpr ⟨f2, f4, f5⟩, f3⟩
  · exact ⟨(plain_byte_facts c).2.1 (Or.inl h), fun _ => ((plain_byte_facts c).2.2 (Or.inl h)).1⟩
  · exact ⟨(plain_byte_facts c).2.1 (Or.inr (Or.inl h)),
      fun _ => ((plain_byte_facts c).2.2 (Or.inr (Or.inl h))).1⟩
  · exact ⟨(plain_byte_facts c).2.1 (Or.inr (Or.inr (Or.inl h))),
      fun _ => ((plain_byte_facts c).2.2 (Or.inr (Or.inr (Or.inl h)))).1⟩

theorem slash_not_mem_escape (s : GoString) (mode : Encoding)
    (hm : mode = encodeUserPassword ∨ mode = encodeHost) : ch '/' ∉ escape s mode := by
  rcases hm with h | h <;> subst h <;>
    exact not_mem_escape _ s _ (by decide) (by decide) (by decide) (by decide)

theorem encodeKey_plain (ek buf : GoString) (vs : List GoString)
    (hek : ∀ c ∈ ek, plainByte c = true) (hbuf : ∀ c ∈ buf, plainByte c = true) :
    ∀ c ∈ encodeKey ek buf vs, plainByte c = true := by
  unfold encodeKey
  induction vs generalizing buf with
  | nil => simpa using hbuf
  | cons v rest ih =>
    rw [List.foldl_cons]
    apply ih
    intro c hc
    have hamp : str "&" = [ch '&'] := by decide
    have heq : str "=" = [ch '='] := by decide
    simp only [List.mem_append, hamp, heq, List.mem_singleton] at hc
    rcases hc with ((hc | hc) | hc) | hc
    · split at hc
      · simp only [List.mem_append, List.mem_singleton] at hc
        rcases hc with hc | hc
        · exact hbuf c hc
        · rw [hc]; decide
      · exact hbuf c hc
    · exact hek c hc
    · rw [hc]; decide
    · exact (escape_plain v _ c hc).1

theorem Encode_plain (m : Values) : ∀ c ∈ m.Encode, plainByte c = true := by
  unfold Values.Encode
  split
  · intro c hc; exact absurd hc (List.not_mem_nil _)
  · generalize sortStrings (List.map Prod.fst m) = keys
    have : ∀ (buf : GoString), (∀ c ∈ buf, plainByte c = true) →
        ∀ c ∈ keys.foldl (fun buf k => encodeKey (QueryEscape k) buf (Values.get m k)) buf,
          plainByte c = true := by
      induction keys with
      | nil => intro buf hbuf; simpa using hbuf
      | cons k rest ih =>
        intro buf hbuf
        rw [List.foldl_cons]
        apply ih
        exact encodeKey_plain _ _ _ (fun c hc => (escape_plain k _ c hc).1) hbuf
    exact this [] (fun c hc => absurd hc (List.not_mem_nil _))

/-- The text `String` writes for a URL with a host. -/
theorem String_host (U : URL) (hO : U.Opaque = []) (hH : U.Host ≠ [])
    (hE : U.EscapedPath = [] ∨ U.EscapedPath.head? = some (ch '/')) :
    U.String =
      mainText U.Scheme U.User U.Host U.EscapedPath U.ForceQuery U.RawQuery ++
        (if U.Fragment ≠ [] then ch '#' :: U.EscapedFragment else []) := by
  have hcol : str ":" = [ch ':'] := by decide
  have hq : str "?" = [ch '?'] := by decide
  have hhash : str "#" = [ch '#'] := by decide
  have hss : str "//" = [ch '/', ch '/'] := by decide
  have hat : str "@" = [ch '@'] := by decide
  unfold URL.String mainText
  generalize U.EscapedPath = E at hE ⊢
  generalize U.EscapedFragment = EF
  have hE2 : E = [] ∨ ∃ E2, E = ch '/' :: E2 := by
    rcases hE with h | h
    · exact Or.inl h
    · cases E with
      | nil => exact Or.inl rfl
      | cons x xs =>
        simp only [List.head?_cons, Option.some.injEq] at h
        exact Or.inr ⟨xs, by rw [h]⟩
  rcases hE2 with rfl | ⟨E2, rfl⟩
  · cases hu : U.User with
    | none =>
      simp only [hO, hH, hcol, hq, hhash, hss, hat, userText, ne_eq, not_true_eq_false,
        not_false_eq_true, if_true, if_false, or_true, true_or, false_and, and_false,
        List.append_assoc, List.nil_append, List.append_nil, List.singleton_append,
        List.cons_append, List.length_append, List.length_cons]
      split <;> split <;> split <;> simp
    | some ui =>
      simp only [hO, hH, hcol, hq, hhash, hss, hat, userText, ne_eq, not_true_eq_false,
        not_false_eq_true, if_true, if_false, or_true, true_or, false_and, and_false,
        List.append_assoc, List.nil_append, List.append_nil, List.singleton_append,
        List.cons_append, List.length_append, List.length_cons, reduceCtorEq]
      split <;> split <;> split <;> simp
  · cases hu : U.User with
    | none =>
      simp only [hO, hH, hcol, hq, hhash, hss, hat, userText, ne_eq, not_true_eq_false,
        not_false_eq_true, if_true, if_false, or_true, true_or, false_and, and_false,
        List.append_assoc, List.nil_append, List.append_nil, List.singleton_append,
        List.cons_append, List.length_append, List.length_cons, List.head?_cons]
      split <;> split <;> split <;> simp
    | some ui =>
      simp only [hO, hH, hcol, hq, hhash, hss, hat, userText, ne_eq, not_true_eq_false,
        not_false_eq_true, if_true, if_false, or_true, true_or, false_and, and_false,
        List.append_assoc, List.nil_append, List.append_nil, List.singleton_append,
        List.cons_append, List.length_append, List.length_cons, List.head?_cons, reduceCtorEq]
      split <;> split <;> split <;> simp

end url
namespace url
open Encoding

theorem noCTL_iff (s : GoString) :
    stringContainsCTLByte s = false ↔ ∀ b ∈ s, ¬ b < ch ' ' ∧ b ≠ 127 := by
  unfold stringContainsCTLByte
  rw [List.any_eq_false]
  constructor
  · intro h b hb
    have := h b hb
    simpa using this
  · intro h b hb
    have := h b hb
    simpa using this

theorem noCTL_of_plain (s : GoString) (h : ∀ c ∈ s, plainByte c = true) :
    stringContainsCTLByte s = false := by
  rw [noCTL_iff]
  intro b hb
  have := (plain_byte_facts b).1.mp (h b hb)
  exact ⟨this.2.1, this.2.2⟩

theorem hash_not_mem_of_plain (s : GoString) (h : ∀ c ∈ s, plainByte c = true) :
    ch '#' ∉ s := by
  intro hm
  have := (plain_byte_facts _).1.mp (h _ hm)
  exact this.1 rfl

theorem slash_byte_facts : ch '/' ≠ ch '%' ∧ ch '/' ≠ ch '+' := by decide

/-- A path that starts with `/` unescapes to one that does. -/
theorem unescape_path_head (p P : GoString) (hp : p = [] ∨ p.head? = some (ch '/'))
    (h : unescape p encodePath = .ok P) : P = [] ∨ P.head? = some (ch '/') := by
  cases p with
  | nil =>
    rw [unescape.eq_def] at h
    simp only [Except.ok.injEq] at h
    exact Or.inl h.symm
  | cons c rest =>
    rcases hp with hp | hp
    · exact absurd hp (List.cons_ne_nil _ _)
    · simp only [List.head?_cons, Option.some.injEq] at hp
      subst hp
      rcases unescape_cons_inv _ rest _ P h with ⟨h1, -⟩ | ⟨h1, -⟩ | ⟨-, -, -, t, -, hP⟩
      · exact absurd h1 slash_byte_facts.1
      · exact absurd h1 slash_byte_facts.2
      · right; rw [hP]; rfl

/-- What `parse` accepts with a host. -/
theorem parse_facts (raw : GoString) (U : URL) (h : parse raw false = .ok U) (hH : U.Host ≠ [])
    (hhash : ch '#' ∉ raw) :
    (U.Scheme = [] ∨ validScheme U.Scheme = true) ∧ strings.ToLower U.Scheme = U.Scheme ∧
    U.Opaque = [] ∧ (U.ForceQuery = true → U.RawQuery = []) ∧
    (∀ c ∈ U.RawQuery, plainByte c = true) ∧
    userOK U.User = true ∧ (∃ host0, parseHost host0 = .ok U.Host) ∧
    (U.Path = [] ∨ U.Path.head? = some (ch '/')) ∧
    (U.RawPath = [] ∨ U.RawPath.head? = some (ch '/')) := by
  obtain ⟨hctl, scheme0, rest0, authority, path0, hgs, hS, hO, hOm, hFQ, hRQ, hPA, hp0, hun,
    hRP, hF, hRF⟩ := parse_inv raw U h hH
  have hsub : ∀ c ∈ rest0, c ∈ raw := by
    rcases getScheme_inv raw scheme0 rest0 hgs with ⟨-, h2⟩ | ⟨-, h2⟩
    · intro c hc; rw [← h2]; exact hc
    · exact h2
  have hsch : (U.Scheme = [] ∨ validScheme U.Scheme = true) ∧
      strings.ToLower U.Scheme = U.Scheme := by
    rw [hS]
    rcases getScheme_inv raw scheme0 rest0 hgs with ⟨h1, -⟩ | ⟨h1, -⟩
    · subst h1; exact ⟨Or.inl rfl, rfl⟩
    · exact ⟨Or.inr (validScheme_ToLower _ h1).1, (validScheme_ToLower _ h1).2⟩
  obtain ⟨hh, hu⟩ := parseAuthority_inv authority U.User U.Host hPA
  refine ⟨hsch.1, hsch.2, hO, ?_, ?_, hu, hh, unescape_path_head path0 U.Path hp0 hun, ?_⟩
  · intro hfq
    rw [hRQ]
    rw [hFQ] at hfq
    unfold rawQueryOf
    rw [if_pos hfq]
  · intro c hc
    rw [hRQ] at hc
    have hc2 : c ∈ rest0 := by
      unfold rawQueryOf at hc
      split at hc
      · exact absurd hc (List.not_mem_nil _)
      · exact strings.mem_of_mem_Cut_after _ _ _ hc
    have hc3 := hsub c hc2
    have hctl2 := (noCTL_iff raw).mp hctl c hc3
    refine (plain_byte_facts c).1.mpr ⟨?_, hctl2.1, hctl2.2⟩
    intro hcc
    rw [hcc] at hc3
    exact hhash hc3
  · rw [hRP]
    split
    · exact Or.inl rfl
    · exact hp0

/-- What `Parse` accepts with a host. -/
theorem Parse_facts (u : GoString) (U : URL) (h : Parse u = .ok U) (hH : U.Host ≠ []) :
    (U.Scheme = [] ∨ validScheme U.Scheme = true) ∧ strings.ToLower U.Scheme = U.Scheme ∧
    U.Opaque = [] ∧ (U.ForceQuery = true → U.RawQuery = []) ∧
    (∀ c ∈ U.RawQuery, plainByte c = true) ∧
    userOK U.User = true ∧ (∃ host0, parseHost host0 = .ok U.Host) ∧
    (U.Path = [] ∨ U.Path.head? = some (ch '/')) ∧
    (U.RawPath = [] ∨ U.RawPath.head? = some (ch '/')) := by
  unfold Parse at h
  simp only [] at h
  cases hp : parse (strings.Cut u (ch '#')).1 false with
  | error e => rw [hp] at h; exact absurd h (by simp)
  | ok U0 =>
    rw [hp] at h
    simp only [] at h
    have hno := strings.sep_not_mem_Cut_before u (ch '#')
    split at h
    · simp only [Except.ok.injEq] at h
      subst h
      exact parse_facts _ _ hp hH hno
    · obtain ⟨frag, -, hU⟩ := setFragment_inv _ _ _ h
      subst hU
      exact parse_facts _ U0 hp hH hno

/-- The bytes of the authority `String` writes. -/
theorem authority_bytes (user : Option Userinfo) (H : GoString) :
    ∀ c ∈ userText user ++ escape H encodeHost,
      plainByte c = true ∧ c ≠ ch '?' ∧ c ≠ ch '/' := by
  have hesc : ∀ (s : GoString) (mode : Encoding),
      (mode = encodeUserPassword ∨ mode = encodeHost) →
      ∀ c ∈ escape s mode, plainByte c = true ∧ c ≠ ch '?' ∧ c ≠ ch '/' := by
    intro s mode hm c hc
    have h1 := escape_plain s mode c hc
    refine ⟨h1.1, h1.2 ?_, ?_⟩
    · rcases hm with h | h <;> rw [h] <;> decide
    · intro hcc
      rw [hcc] at hc
      exact slash_not_mem_escape s mode hm hc
  have hcolon : ∀ c : Byte, c = ch ':' ∨ c = ch '@' →
      plainByte c = true ∧ c ≠ ch '?' ∧ c ≠ ch '/' := by
    intro c hc
    rcases hc with h | h <;> subst h <;> decide
  intro c hc
  rw [List.mem_append] at hc
  rcases hc with hc | hc
  · cases user with
    | none => exact absurd hc (List.not_mem_nil _)
    | some ui =>
      have hat : str "@" = [ch '@'] := by decide
      have hcol : str ":" = [ch ':'] := by decide
      unfold userText Userinfo.String at hc
      simp only [hat, hcol, List.mem_append, List.mem_singleton] at hc
      rcases hc with (hc | hc) | hc
      · exact hesc _ _ (Or.inl rfl) c hc
      · split at hc
        · simp only [List.mem_append, List.mem_singleton] at hc
          rcases hc with hc | hc
          · exact hcolon c (Or.inl hc)
          · exact hesc _ _ (Or.inl rfl) c hc
        · exact absurd hc (List.not_mem_nil _)
      · exact hcolon c (Or.inr hc)
  · exact hesc _ _ (Or.inr rfl) c hc

theorem validScheme_bytes (S : GoString) (h : validScheme S = true) :
    ∀ c ∈ S, plainByte c = true := by
  cases S with
  | nil => intro c hc; exact absurd hc (List.not_mem_nil _)
  | cons x xs =>
    unfold validScheme at h
    simp only [Bool.and_eq_true, List.all_eq_true] at h
    intro c hc
    have hsb : isSchemeByte c = true := by
      rcases List.mem_cons.mp hc with hc | hc
      · rw [hc]; exact (scheme_byte_facts x).2.2.2.2.2.2 h.1
      · exact h.2 c hc
    obtain ⟨-, f2, -, -, f5, f6⟩ := (scheme_byte_facts c).2.2.2.2.2.1 hsb
    exact (plain_byte_facts c).1.mpr ⟨f2, f5, f6⟩

/-- The text before the fragment holds no `#` and no control character. -/
theorem mainText_plain (S : GoString) (user : Option Userinfo) (H E : GoString) (fq : Bool)
    (Q : GoString) (hS : S = [] ∨ validScheme S = true) (hE : ∀ c ∈ E, plainByte c = true)
    (hQ : ∀ c ∈ Q, plainByte c = true) :
    ∀ c ∈ mainText S user H E fq Q, plainByte c = true := by
  have hss : str "//" = [ch '/', ch '/'] := by decide
  intro c hc
  unfold mainText at hc
  rw [hss] at hc
  simp only [List.mem_append] at hc
  rcases hc with hc | (hc | hc) | hc
  · split at hc
    · rcases hS with hS | hS
      · rename_i hne; exact absurd hS hne
      · simp only [List.mem_append, List.mem_singleton] at hc
        rcases hc with hc | hc
        · exact validScheme_bytes S hS c hc
        · rw [hc]; decide
    · exact absurd hc (List.not_mem_nil _)
  · simp only [List.mem_cons, List.mem_singleton, List.not_mem_nil, or_false] at hc
    rcases hc with hc | hc <;> rw [hc] <;> decide
  · rcases hc with hc | hc
    · exact (authority_bytes user H c (List.mem_append.mpr hc)).1
    · exact hE c hc
  · split at hc
    · rcases List.mem_cons.mp hc with hc | hc
      · rw [hc]; decide
      · exact hQ c hc
    · exact absurd hc (List.not_mem_nil _)

end url
namespace url
open Encoding

/-- Reading back, with `parse`, the text `String` writes before the fragment. -/
theorem parse_mainText (S : GoString) (user : Option Userinfo) (H RP P : GoString) (fq : Bool)
    (Q : GoString) (hS : S = [] ∨ validScheme S = true) (hlow : strings.ToLower S = S)
    (huser : userOK user = true) (hleg : ∀ b ∈ H, hostLegal b = true)
    (hport : portOK H = true) (hb : strings.HasPrefix H (str "[") = false) (hne : H ≠ [])
    (hP : P = [] ∨ P.head? = some (ch '/')) (hRP : RP = [] ∨ RP.head? = some (ch '/'))
    (hQ : ∀ c ∈ Q, plainByte c = true) (hfq : fq = true → Q = []) :
    parse (mainText S user H (escapedForm RP P encodePath) fq Q) false =
      .ok { Scheme := S, User := user, Host := H, Path := P,
            RawPath := (if escapedForm RP P encodePath = escape P encodePath then []
                        else escapedForm RP P encodePath),
            ForceQuery := fq, RawQuery := Q } := by
  have hss : str "//" = [ch '/', ch '/'] := by decide
  have hEb := escapedForm_bytes RP P encodePath (Or.inl rfl)
  have hEplain : ∀ c ∈ escapedForm RP P encodePath, plainByte c = true := by
    intro c hc
    obtain ⟨f1, f2, f3, -⟩ := hEb c hc
    exact (plain_byte_facts c).1.mpr ⟨f1, f2, f3⟩
  have hEhead := escapedForm_head RP P hP hRP
  have hmain := mainText_plain S user H (escapedForm RP P encodePath) fq Q hS hEplain hQ
  have hctl := noCTL_of_plain _ hmain
  have hA := authority_bytes user H
  have hAne : userText user ++ escape H encodeHost ≠ [] := by
    intro h
    exact escape_ne_nil H encodeHost hne (List.append_eq_nil.mp h).2
  have hslash : ch '/' ∉ userText user ++ escape H encodeHost := by
    intro h
    exact (hA _ h).2.2 rfl
  have hpa := parseAuthority_text user H huser hleg hport hb
  have hpre : ch '?' ∉ str "//" ++ (userText user ++ escape H encodeHost ++
      escapedForm RP P encodePath) := by
    intro h
    rw [hss] at h
    simp only [List.mem_append, List.mem_cons, List.mem_singleton, List.not_mem_nil,
      or_false] at h
    rcases h with (h | h) | (h | h) | h
    · exact absurd h (by decide)
    · exact absurd h (by decide)
    · exact (hA _ (List.mem_append.mpr (Or.inl h))).2.1 rfl
    · exact (hA _ (List.mem_append.mpr (Or.inr h))).2.1 rfl
    · exact (hEb _ h).2.2.2 rfl rfl
  obtain ⟨hs1, hs2, hs3⟩ := splitQuery _ Q fq hpre hfq
  have hgs : getScheme (mainText S user H (escapedForm RP P encodePath) fq Q) =
      .ok (S, str "//" ++ (userText user ++ escape H encodeHost ++
        escapedForm RP P encodePath) ++ (if fq = true ∨ Q ≠ [] then ch '?' :: Q else [])) := by
    unfold mainText
    by_cases hSn : S = []
    · subst hSn
      simp only [ne_eq, not_true_eq_false, if_false, List.nil_append]
      rw [hss]
      exact getScheme_slash _
    · rcases hS with hS | hS
      · exact absurd hS hSn
      · simp only [ne_eq, hSn, not_false_eq_true, if_true, List.append_assoc,
          List.singleton_append]
        have := getScheme_valid S (str "//" ++ (userText user ++ (escape H encodeHost ++
          escapedForm RP P encodePath) ++
          (if fq = true ∨ ¬ Q = [] then ch '?' :: Q else []))) hS
        simpa only [List.append_assoc] using this
  have hstar : mainText S user H (escapedForm RP P encodePath) fq Q ≠ str "*" := by
    intro h
    have hm : ch '/' ∈ mainText S user H (escapedForm RP P encodePath) fq Q := by
      unfold mainText
      rw [hss]
      simp
    rw [h] at hm
    exact absurd hm (by decide)
  rw [parse_eq, hctl]
  simp only [Bool.false_eq_true, if_false, and_false, hstar, hgs, hlow, hs1, hs2, hs3]
  rw [parseRest_authority S fq Q _ _ user H hslash hAne hEhead hpa]
  unfold URL.setPath
  rw [escapedForm_unescape RP P encodePath (by decide) (by decide)]

/-- Reading back, with `Parse`, the text `String` writes for a URL with a host. -/
theorem Parse_text (S : GoString) (user : Option Userinfo) (H RP P : GoString) (fq : Bool)
    (Q F RF : GoString) (hS : S = [] ∨ validScheme S = true) (hlow : strings.ToLower S = S)
    (huser : userOK user = true) (hleg : ∀ b ∈ H, hostLegal b = true)
    (hport : portOK H = true) (hb : strings.HasPrefix H (str "[") = false) (hne : H ≠ [])
    (hP : P = [] ∨ P.head? = some (ch '/')) (hRP : RP = [] ∨ RP.head? = some (ch '/'))
    (hQ : ∀ c ∈ Q, plainByte c = true) (hfq : fq = true → Q = []) :
    Parse (mainText S user H (escapedForm RP P encodePath) fq Q ++
        (if F ≠ [] then ch '#' :: escapedForm RF F encodeFragment else [])) =
      .ok { Scheme := S, User := user, Host := H, Path := P,
            RawPath := (if escapedForm RP P encodePath = escape P encodePath then []
                        else escapedForm RP P encodePath),
            ForceQuery := fq, RawQuery := Q, Fragment := F,
            RawFragment :=
              (if F = [] then []
               else if escapedForm RF F encodeFragment = escape F encodeFragment then []
               else escapedForm RF F encodeFragment) } := by
  have hEb := escapedForm_bytes RP P encodePath (Or.inl rfl)
  have hEplain : ∀ c ∈ escapedForm RP P encodePath, plainByte c = true := by
    intro c hc
    obtain ⟨f1, f2, f3, -⟩ := hEb c hc
    exact (plain_byte_facts c).1.mpr ⟨f1, f2, f3⟩
  have hmain := mainText_plain S user H (escapedForm RP P encodePath) fq Q hS hEplain hQ
  have hhash := hash_not_mem_of_plain _ hmain
  have hparse := parse_mainText S user H RP P fq Q hS hlow huser hleg hport hb hne hP hRP hQ hfq
  unfold Parse
  by_cases hF : F = []
  · subst hF
    simp only [ne_eq, not_true_eq_false, if_false, List.append_nil, if_true,
      strings.Cut_not_mem _ _ hhash, hparse]
  · have hEF := escapedForm_ne_nil RF F encodeFragment hF
    simp only [ne_eq, hF, not_false_eq_true, if_true, if_false,
      strings.Cut_append _ _ _ hhash, hparse, hEF]
    unfold URL.setFragment
    rw [escapedForm_unescape RF F encodeFragment (by decide) (by decide)]

end url
namespace shortener
open url url.Encoding

theorem canonicalizeQuery_plain (q : GoString) (h : ∀ c ∈ q, plainByte c = true) :
    ∀ c ∈ canonicalizeQuery q, plainByte c = true := by
  cases hp : url.ParseQuery q with
  | error e => rw [canonicalizeQuery_of_error q e hp]; exact h
  | ok params =>
    unfold canonicalizeQuery
    rw [hp]
    exact Encode_plain _

theorem canonicalizeQuery_nil : canonicalizeQuery [] = [] := by decide!

/-- What stripping a leading `www.` leaves of a host `parseHost` accepted. -/
theorem trimmed_host_facts (host0 H : GoString) (h : parseHost host0 = .ok H)
    (hbr : strings.HasPrefix (strings.TrimPrefix H (str "www.")) (str "[") = false) :
    (∀ b ∈ strings.TrimPrefix H (str "www."), hostLegal b = true) ∧
    portOK (strings.TrimPrefix H (str "www.")) = true := by
  cases hp : strings.HasPrefix H (str "www.") with
  | false =>
    rw [strings.TrimPrefix_of_not H _ hp] at hbr ⊢
    exact parseHost_inv host0 H h hbr
  | true =>
    obtain ⟨t, ht⟩ := (strings.HasPrefix_iff _ _).mp hp
    subst ht
    have hb : strings.HasPrefix (str "www." ++ t) (str "[") = false := by
      have h1 : str "www." ++ t = ch 'w' :: (str "ww." ++ t) := rfl
      have h2 : str "[" = ch '[' :: [] := rfl
      rw [h1, h2, HasPrefix_cons]
      rfl
    obtain ⟨hleg, hport⟩ := parseHost_inv host0 _ h hb
    rw [strings.TrimPrefix_append]
    exact ⟨fun b hb2 => hleg b (List.mem_append.mpr (Or.inr hb2)), portOK_www t hport⟩

theorem path_ne_star (P : GoString) (h : P = [] ∨ P.head? = some (ch '/')) : P ≠ str "*" := by
  intro hs
  subst hs
  rcases h with h | h
  · exact absurd h (by decide)
  · exact absurd h (by decide)

/-- The text `String` writes for a URL with a host and a rooted path. -/
theorem String_rooted (U : url.URL) (hO : U.Opaque = []) (hH : U.Host ≠ [])
    (hP : U.Path = [] ∨ U.Path.head? = some (ch '/'))
    (hE : escapedForm U.RawPath U.Path encodePath = [] ∨
      (escapedForm U.RawPath U.Path encodePath).head? = some (ch '/')) :
    U.String =
      mainText U.Scheme U.User U.Host (escapedForm U.RawPath U.Path encodePath) U.ForceQuery
          U.RawQuery ++
        (if U.Fragment ≠ [] then ch '#' :: escapedForm U.RawFragment U.Fragment encodeFragment
         else []) := by
  have hstar := path_ne_star U.Path hP
  rw [String_host U hO hH (by rw [EscapedPath_eq U hstar]; exact hE),
    EscapedPath_eq U hstar, EscapedFragment_eq]

/-- C3, as stated, fails. Only one leading `www.` is dropped, so a second pass
drops the next one: `https://www.www.example.com/a` is canonicalized to
`https://www.example.com/a`, and that to `https://example.com/a`. When the
host is `www.` alone nothing is left of it and the path takes its place:
`//www.//www.x` is canonicalized to `//www.x`, and that to `//x`. A non-ASCII
byte in the zone of a bracketed IP literal is written escaped, which the second
pass refuses: the canonical form of `http://[a%25é]` is
`http://[a%25%C3%A9]`, on which `canonicalizeURL` fails. -/
theorem C3_counterexample :
    (canonicalizeURL (str "https://www.www.example.com/a") =
        .ok (str "https://www.example.com/a") ∧
      canonicalizeURL (str "https://www.example.com/a") =
        .ok (str "https://example.com/a")) ∧
    (canonicalizeURL (str "//www.//www.x") = .ok (str "//www.x") ∧
      canonicalizeURL (str "//www.x") = .ok (str "//x")) ∧
    (canonicalizeURL (str "http://[a%25é]") = .ok (str "http://[a%25%C3%A9]") ∧
      ∃ e, canonicalizeURL (str "http://[a%25%C3%A9]") = .error e) :=
  ⟨⟨by decide!, by decide!⟩, ⟨by decide!, by decide!⟩,
    ⟨by decide!, "invalid URL escape", by decide!⟩⟩

/-- C3, amended: canonicalising is idempotent on a URL with a host, when the
host that is left after one leading `www.` is dropped is not empty, does not
itself start with `www.` and is not a bracketed IP literal. -/
theorem C3_canonicalize_idempotent (u : GoString) (U : url.URL)
    (hU : url.Parse u = .ok U)
    (hne : strings.TrimPrefix U.Host (str "www.") ≠ [])
    (hwww : strings.HasPrefix (strings.TrimPrefix U.Host (str "www.")) (str "www.") = false)
    (hbr : strings.HasPrefix (strings.TrimPrefix U.Host (str "www.")) (str "[") = false) :
    ∃ c, canonicalizeURL u = .ok c ∧ canonicalizeURL c = .ok c := by
  have hH : U.Host ≠ [] := by
    intro h
    rw [h] at hne
    exact hne rfl
  obtain ⟨hS, hlow, hO, hfq, hQ, huser, ⟨host0, hh⟩, hP, hRP⟩ := Parse_facts u U hU hH
  obtain ⟨hleg, hport⟩ := trimmed_host_facts host0 U.Host hh hbr
  have hQ2 := canonicalizeQuery_plain U.RawQuery hQ
  have hfq2 : U.ForceQuery = true → canonicalizeQuery U.RawQuery = [] := by
    intro h
    rw [hfq h]
    exact canonicalizeQuery_nil
  have hEhead := escapedForm_head U.RawPath U.Path hP hRP
  have hc := String_rooted { U with Host := strings.TrimPrefix U.Host (str "www."),
                                    RawQuery := canonicalizeQuery U.RawQuery } hO hne hP hEhead
  have hparse := Parse_text U.Scheme U.User (strings.TrimPrefix U.Host (str "www."))
    U.RawPath U.Path U.ForceQuery (canonicalizeQuery U.RawQuery) U.Fragment U.RawFragment
    hS hlow huser hleg hport hbr hne hP hRP hQ2 hfq2
  refine ⟨_, by unfold canonicalizeURL; rw [hU], ?_⟩
  unfold canonicalizeURL
  rw [hc]
  simp only [hparse, strings.TrimPrefix_of_not _ _ hwww, canonicalizeQuery_idem]
  refine congrArg Except.ok (Eq.trans (String_rooted _ rfl hne hP ?_) ?_)
  · simp only [escapedForm_stable]
    exact hEhead
  · simp only [escapedForm_stable]
    by_cases hF : U.Fragment = []
    · simp only [hF, ne_eq, not_true_eq_false, if_false]
    · simp only [hF, ne_eq, not_false_eq_true, if_true, if_false, escapedForm_stable]

/-- C3, amended, at `https://www.example.com?b=2&a=1`: the hypotheses hold there
and a second pass leaves the canonical form as it is. -/
theorem C3_canonicalize_idempotent_witness :
    url.Parse (str "https://www.example.com?b=2&a=1") =
        .ok { Scheme := str "https", Host := str "www.example.com",
              RawQuery := str "b=2&a=1" } ∧
      ∃ c, canonicalizeURL (str "https://www.example.com?b=2&a=1") = .ok c ∧
        canonicalizeURL c = .ok c :=
  ⟨by decide!,
    C3_canonicalize_idempotent (str "https://www.example.com?b=2&a=1")
      { Scheme := str "https", Host := str "www.example.com", RawQuery := str "b=2&a=1" }
      (by decide!) (by decide!) (by decide!) (by decide!)⟩

end shortener

namespace handler
open repository

/-- C11, at `httpx://example.com`. `Sanitize` tests that the text starts with
`http`, not what the scheme is: the URL has scheme `httpx`, `Sanitize` accepts
it unchanged, and `ShortenURL` answers 201 and writes the record. -/
theorem C11_prefix_test_admits_other_schemes :
    url.ParseRequestURI (str "httpx://example.com") =
      .ok { Scheme := str "httpx", Host := str "example.com" } ∧
    model.URL.Sanitize { OriginalURL := str "httpx://example.com" } =
      .ok { OriginalURL := str "httpx://example.com" } ∧
    ShortenURL defaultHandler 0 {} (createRequest "httpx://example.com") =
      (.json 201 { OriginalURL := str "httpx://example.com",
                   ShortURL := str "http://tiny.io/r/0Cs5Dv",
                   Expiry := 604800000000000, ClickCount := 0 },
       { urls := [{ OriginalURL := str "httpx://example.com",
                    ShortURL := str "http://tiny.io/r/0Cs5Dv",
                    Expiry := 604800000000000, ClickCount := 0 }],
         log := [.upsert (str "http://tiny.io/r/0Cs5Dv") (str "httpx://example.com")
                   604800000000000 0] }) := by
  decide!

end handler

namespace handler
open repository

/-- `Sanitize` touches no field but `OriginalURL`. -/
theorem Sanitize_fields (u u1 : model.URL) (h : u.Sanitize = .ok u1) :
    u1.ShortURL = u.ShortURL ∧ u1.Expiry = u.Expiry ∧ u1.ClickCount = u.ClickCount := by
  unfold model.URL.Sanitize at h
  split at h
  · exact absurd h (by simp)
  · split at h
    · exact absurd h (by simp)
    · split at h
      · exact absurd h (by simp)
      · simp only [Except.ok.injEq] at h
        subst h
        exact ⟨rfl, rfl, rfl⟩

theorem find_upsert_self (rows : List model.URL) (u : model.URL) :
    ((upsert rows u).find? (fun r => r.ShortURL = u.ShortURL)).map (fun r => r.ClickCount) =
      some u.ClickCount := by
  induction rows with
  | nil => simp [upsert]
  | cons r rest ih =>
    unfold upsert
    by_cases h : r.ShortURL = u.ShortURL
    · simp [h]
    · simp only [h, if_false, List.find?_cons, decide_False]
      exact ih

theorem find_upsert_other (rows : List model.URL) (u : model.URL) (k : GoString)
    (hk : k ≠ u.ShortURL) :
    (upsert rows u).find? (fun r => r.ShortURL = k) = rows.find? (fun r => r.ShortURL = k) := by
  induction rows with
  | nil =>
    have : ¬ u.ShortURL = k := fun e => hk e.symm
    simp [upsert, this]
  | cons r rest ih =>
    unfold upsert
    by_cases h : r.ShortURL = u.ShortURL
    · have hr : ¬ r.ShortURL = k := fun e => hk (e.symm.trans h)
      have hu : ¬ u.ShortURL = k := fun e => hk e.symm
      simp [h, List.find?_cons, hr, hu]
    · simp only [h, if_false, List.find?_cons, ih]

theorem upsert_nonneg (rows : List model.URL) (u : model.URL)
    (hrows : ∀ r ∈ rows, 0 ≤ r.ClickCount) (hu : 0 ≤ u.ClickCount) :
    ∀ r ∈ upsert rows u, 0 ≤ r.ClickCount := by
  induction rows with
  | nil =>
    intro r hr
    simp only [upsert, List.mem_singleton] at hr
    rw [hr]; exact hu
  | cons r0 rest ih =>
    intro r hr
    unfold upsert at hr
    split at hr
    · rcases List.mem_cons.mp hr with h | h
      · rw [h]; exact hu
      · exact hrows r (List.mem_cons_of_mem _ h)
    · rcases List.mem_cons.mp hr with h | h
      · rw [h]; exact hrows r0 (List.mem_cons_self _ _)
      · exact ih (fun x hx => hrows x (List.mem_cons_of_mem _ hx)) r h

theorem bump_nonneg (rows : List model.URL) (key : GoString)
    (hrows : ∀ r ∈ rows, 0 ≤ r.ClickCount) :
    ∀ r ∈ rows.map (fun row =>
        if row.ShortURL = key then { row with ClickCount := row.ClickCount + 1 } else row),
      0 ≤ r.ClickCount := by
  intro r hr
  obtain ⟨r0, hr0, rfl⟩ := List.mem_map.mp hr
  have := hrows r0 hr0
  split
  · show 0 ≤ r0.ClickCount + 1
    omega
  · exact this

/-- The rows after `Redirect`: as before, or, for a request of valid shape whose
record is found, has not expired and has room in its counter, with that
record's counter one higher. -/
theorem Redirect_cases (sh : shortener.Shortener) (domain : GoString) (ttl now : Int)
    (db : DB) (req : RedirectRequest) :
    (Redirect (postgresHandler sh domain ttl) now db req).2.urls = db.urls ∨
    ∃ r, sh.IsValidShortURL (urlConstruct req) = true ∧
      db.urls.find? (fun row => row.ShortURL = urlConstruct req) = some r ∧ now ≤ r.Expiry ∧
      ∀ row ∈ db.urls, row.ShortURL = urlConstruct req → row.ClickCount < maxClickCount := by
  by_cases hshape : sh.IsValidShortURL (urlConstruct req) = true
  · cases hfind : db.urls.find? (fun row => row.ShortURL = urlConstruct req) with
    | none =>
      left
      simp [Redirect, postgresHandler, NewPostgresURLRepository, hshape, Find, hfind]
    | some r =>
      by_cases hexp : now ≤ r.Expiry
      · cases hany : db.urls.any (fun row => decide (row.ShortURL = urlConstruct req) &&
            decide (maxClickCount ≤ row.ClickCount)) with
        | true =>
          left
          rw [Redirect_refused sh domain ttl now db req r hshape hfind hexp hany]
        | false =>
          refine Or.inr ⟨r, hshape, rfl, hexp, ?_⟩
          intro row hrow hk
          have := List.any_eq_false.mp hany row hrow
          simp only [hk, decide_True, Bool.true_and, decide_eq_true_eq] at this
          exact not_le.mp this
      · left
        simp [Redirect, postgresHandler, NewPostgresURLRepository, hshape, Find, hfind,
          not_le.mp hexp]
  · left
    simp [Redirect, postgresHandler, NewPostgresURLRepository, hshape]

/-- The rows after `ShortenURL`: as before, or, when the answer is 201, with the
record of the answer written by the upsert; its counter is the one the body
carried. -/
theorem ShortenURL_cases (sh : shortener.Shortener) (domain : GoString) (ttl now : Int)
    (db : DB) (req : ShortenRequest) :
    (ShortenURL (postgresHandler sh domain ttl) now db req).2.urls = db.urls ∨
    ∃ u0 u3, req.Body = .decoded u0 ∧
      (ShortenURL (postgresHandler sh domain ttl) now db req).1 = .json 201 u3 ∧
      u3.ClickCount = u0.ClickCount ∧
      (ShortenURL (postgresHandler sh domain ttl) now db req).2.urls = upsert db.urls u3 := by
  by_cases hm : req.Method = "POST"
  · cases hb : req.Body with
    | unreadable => left; simp [ShortenURL, hm, hb]
    | malformed => left; simp [ShortenURL, hm, hb]
    | decoded u0 =>
      cases hs : u0.Sanitize with
      | error e => left; simp [ShortenURL, hm, hb, hs]
      | ok u1 =>
        cases hg : sh.GenerateShortURL u1.OriginalURL with
        | none => left; simp [ShortenURL, hm, hb, hs, hg, postgresHandler]
        | some res =>
          cases res with
          | error e => left; simp [ShortenURL, hm, hb, hs, hg, postgresHandler]
          | ok short =>
            cases hs2 : model.URL.Sanitize
                { u1 with ShortURL := short, Expiry := now + ttl } with
            | error e =>
              left
              simp [ShortenURL, hm, hb, hs, hg, postgresHandler, NewPostgresURLRepository,
                Save, hs2]
            | ok u3 =>
              right
              refine ⟨u0, u3, rfl, ?_, ?_, ?_⟩
              · simp [ShortenURL, hm, hb, hs, hg, postgresHandler, NewPostgresURLRepository,
                  Save, hs2]
              · rw [(Sanitize_fields _ _ hs2).2.2]
                exact (Sanitize_fields _ _ hs).2.2
              · simp [ShortenURL, hm, hb, hs, hg, postgresHandler, NewPostgresURLRepository,
                  Save, hs2]
  · left
    simp [ShortenURL, hm]

end handler

namespace handler
open repository

/-- C12, as stated, fails: shortening a URL that is already stored writes the
record anew, counter included. With `DOMAIN=tiny.io`, shortening
`http://test.com` stores it with counter 0, a redirect one nanosecond later
counts one click, and shortening the same URL again, while the record has not
expired, puts the counter back to 0. -/
theorem C12_counterexample :
    (ShortenURL bareDomainHandler 0 {} (createRequest "http://test.com")).1.status = some 201 ∧
    (Redirect bareDomainHandler 1
        (ShortenURL bareDomainHandler 0 {} (createRequest "http://test.com")).2
        { Host := str "tiny.io", Path := str "/r/28UZbv" }).1 =
      .redirect (str "http://test.com") 302 ∧
    storedClickCount
        (Redirect bareDomainHandler 1
          (ShortenURL bareDomainHandler 0 {} (createRequest "http://test.com")).2
          { Host := str "tiny.io", Path := str "/r/28UZbv" }).2
        (str "tiny.io/r/28UZbv") = some 1 ∧
    (ShortenURL bareDomainHandler 2
        (Redirect bareDomainHandler 1
          (ShortenURL bareDomainHandler 0 {} (createRequest "http://test.com")).2
          { Host := str "tiny.io", Path := str "/r/28UZbv" }).2
        (createRequest "http://test.com")) =
      (.json 201 { OriginalURL := str "http://test.com", ShortURL := str "tiny.io/r/28UZbv",
                   Expiry := 604800000000002, ClickCount := 0 },
       { urls := [{ OriginalURL := str "http://test.com", ShortURL := str "tiny.io/r/28UZbv",
                    Expiry := 604800000000002, ClickCount := 0 }],
         log := [.upsert (str "tiny.io/r/28UZbv") (str "http://test.com") 604800000000000 0,
                 .select (str "tiny.io/r/28UZbv"), .increment (str "tiny.io/r/28UZbv"),
                 .upsert (str "tiny.io/r/28UZbv") (str "http://test.com") 604800000000002 0] }) := by
  decide!

/-- C12, amended. Over the Postgres repository, from any rows whose counters are
not negative:
a `Redirect` request leaves every counter not negative and none lower than it
was; the counter of a short URL changes only when it is the one requested, its
record is found and has not expired and the answer is the 302 redirect, and
then it is one higher;
a `ShortenURL` request changes the counter of no short URL but the one it
answers with (status 201), which the upsert sets to the `click_count` the body
carried; when that is not negative, every counter still is not. -/
theorem C12_click_count_steps (sh : shortener.Shortener) (domain : GoString) (ttl now : Int)
    (db : DB) (hnn : ∀ row ∈ db.urls, 0 ≤ row.ClickCount) :
    (∀ req : RedirectRequest,
      (∀ row ∈ (Redirect (postgresHandler sh domain ttl) now db req).2.urls,
        0 ≤ row.ClickCount) ∧
      (∀ k c, storedClickCount db k = some c →
        ∃ c2, storedClickCount (Redirect (postgresHandler sh domain ttl) now db req).2 k =
          some c2 ∧ c ≤ c2) ∧
      (∀ k,
        storedClickCount (Redirect (postgresHandler sh domain ttl) now db req).2 k =
          storedClickCount db k ∨
        (k = urlConstruct req ∧
          ∃ r, db.urls.find? (fun row => row.ShortURL = k) = some r ∧ now ≤ r.Expiry ∧
            (Redirect (postgresHandler sh domain ttl) now db req).1 =
              .redirect r.OriginalURL 302 ∧
            storedClickCount (Redirect (postgresHandler sh domain ttl) now db req).2 k =
              some (r.ClickCount + 1)))) ∧
    (∀ req : ShortenRequest,
      (∀ k,
        storedClickCount (ShortenURL (postgresHandler sh domain ttl) now db req).2 k =
          storedClickCount db k ∨
        ∃ u0 u3, req.Body = .decoded u0 ∧
          (ShortenURL (postgresHandler sh domain ttl) now db req).1 = .json 201 u3 ∧
          k = u3.ShortURL ∧
          storedClickCount (ShortenURL (postgresHandler sh domain ttl) now db req).2 k =
            some u0.ClickCount) ∧
      ((∀ u0, req.Body = .decoded u0 → 0 ≤ u0.ClickCount) →
        ∀ row ∈ (ShortenURL (postgresHandler sh domain ttl) now db req).2.urls,
          0 ≤ row.ClickCount)) := by
  constructor
  · intro req
    have hstep : ∀ k,
        storedClickCount (Redirect (postgresHandler sh domain ttl) now db req).2 k =
          storedClickCount db k ∨
        (k = urlConstruct req ∧
          ∃ r, db.urls.find? (fun row => row.ShortURL = k) = some r ∧ now ≤ r.Expiry ∧
            (Redirect (postgresHandler sh domain ttl) now db req).1 =
              .redirect r.OriginalURL 302 ∧
            storedClickCount (Redirect (postgresHandler sh domain ttl) now db req).2 k =
              some (r.ClickCount + 1)) := by
      intro k
      rcases Redirect_cases sh domain ttl now db req with h | ⟨r, hshape, hfound, hexp, hroom⟩
      · left
        unfold storedClickCount
        rw [h]
      · have hlive := Redirect_live sh domain ttl now db req r hshape hfound hexp hroom
        by_cases hk : k = urlConstruct req
        · right
          subst hk
          refine ⟨rfl, r, hfound, hexp, by rw [hlive], ?_⟩
          rw [hlive]
          simp only [storedClickCount, find_map_bump, hfound, Option.map_some']
        · left
          unfold storedClickCount
          rw [hlive]
          simp only [find_map_bump_other _ k hk db.urls]
    refine ⟨?_, ?_, hstep⟩
    · rcases Redirect_cases sh domain ttl now db req with h | ⟨r, hshape, hfound, hexp, hroom⟩
      · rw [h]; exact hnn
      · rw [Redirect_live sh domain ttl now db req r hshape hfound hexp hroom]
        exact bump_nonneg db.urls _ hnn
    · intro k c hc
      rcases hstep k with h | ⟨-, r, hfound, -, -, h⟩
      · exact ⟨c, by rw [h, hc], le_refl c⟩
      · refine ⟨r.ClickCount + 1, h, ?_⟩
        simp only [storedClickCount, hfound, Option.map_some', Option.some.injEq] at hc
        omega
  · intro req
    rcases ShortenURL_cases sh domain ttl now db req with h | ⟨u0, u3, hbody, hresp, hcount, h⟩
    · refine ⟨fun k => Or.inl ?_, fun _ => ?_⟩
      · unfold storedClickCount
        rw [h]
      · rw [h]; exact hnn
    · refine ⟨fun k => ?_, fun hbodynn => ?_⟩
      · by_cases hk : k = u3.ShortURL
        · right
          refine ⟨u0, u3, hbody, hresp, hk, ?_⟩
          unfold storedClickCount
          rw [h, hk, find_upsert_self, hcount]
        · left
          unfold storedClickCount
          rw [h, find_upsert_other _ _ k hk]
      · rw [h]
        exact upsert_nonneg db.urls u3 hnn (by rw [hcount]; exact hbodynn u0 hbody)

/-- C12, amended, at a table with one live record of counter 3: a redirect to it
answers 302 and leaves the counter at 4, and shortening another URL leaves it
at 3. -/
theorem C12_click_count_steps_witness :
    storedClickCount
        (Redirect (postgresHandler (shortener.NewShortener shortener.testConfig) [] 0) 5
          { urls := [{ OriginalURL := str "http://test.com", ShortURL := str "sho.rt/s/abc123",
                       Expiry := 100, ClickCount := 3 }] }
          { Host := str "sho.rt", Path := str "/s/abc123" }).2
        (str "sho.rt/s/abc123") = some 4 ∧
    ∃ c2, storedClickCount
        (Redirect (postgresHandler (shortener.NewShortener shortener.testConfig) [] 0) 5
          { urls := [{ OriginalURL := str "http://test.com", ShortURL := str "sho.rt/s/abc123",
                       Expiry := 100, ClickCount := 3 }] }
          { Host := str "sho.rt", Path := str "/s/abc123" }).2
        (str "sho.rt/s/abc123") = some c2 ∧ 3 ≤ c2 :=
  ⟨by decide!,
    ((C12_click_count_steps (shortener.NewShortener shortener.testConfig) [] 0 5
      { urls := [{ OriginalURL := str "http://test.com", ShortURL := str "sho.rt/s/abc123",
                   Expiry := 100, ClickCount := 3 }] }
      (by decide)).1 { Host := str "sho.rt", Path := str "/s/abc123" }).2.1
      (str "sho.rt/s/abc123") 3 (by decide!)⟩

end handler

namespace handler
open repository

/-- C13, at three oversized inputs `Sanitize` accepts. The cut at 2048 bytes
pays no regard to where in the URL it falls.
`longSchemeURL` is its own normalized form; cut to 2048 bytes it ends in `://`,
which `Save` sanitizes once more into `httpa...a:`, so the answer is 201 and
the row holds 2046 bytes that are not the first 2048 of the normalized form.
`longerSchemeURL` is cut inside its scheme: the second `Sanitize`, in `Save`,
fails, the answer is 500 and nothing is stored.
`spacesURL` is normalized to 3019 bytes (every space written `%20`); the cut
leaves a lone `%` at the end, `GenerateShortURL` fails on it, the answer is 500
and nothing is stored. -/
theorem C13_truncation_breaks_long_urls :
    (normalizedForm longSchemeURL = .ok longSchemeURL ∧ longSchemeURL.length = 2059 ∧
      model.URL.Sanitize { OriginalURL := longSchemeURL } =
        .ok { OriginalURL := longSchemeURL.take 2048 } ∧
      model.URL.Sanitize { OriginalURL := longSchemeURL.take 2048 } =
        .ok { OriginalURL := longSchemeURL.take 2046 } ∧
      (ShortenURL defaultHandler 0 {} (createRequestOf longSchemeURL)).1.status = some 201 ∧
      (ShortenURL defaultHandler 0 {} (createRequestOf longSchemeURL)).2.urls.map
          (fun row => row.OriginalURL) = [longSchemeURL.take 2046] ∧
      longSchemeURL.take 2046 ≠ longSchemeURL.take 2048) ∧
    (normalizedForm longerSchemeURL = .ok longerSchemeURL ∧ longerSchemeURL.length = 2050 ∧
      model.URL.Sanitize { OriginalURL := longerSchemeURL } =
        .ok { OriginalURL := longerSchemeURL.take 2048 } ∧
      model.URL.Sanitize { OriginalURL := longerSchemeURL.take 2048 } =
        .error "invalid URI for request" ∧
      ShortenURL defaultHandler 0 {} (createRequestOf longerSchemeURL) =
        (.error "Failed to save URL" 500, {})) ∧
    ((∃ n, normalizedForm spacesURL = .ok n ∧ n.length = 3019 ∧
        model.URL.Sanitize { OriginalURL := spacesURL } = .ok { OriginalURL := n.take 2048 } ∧
        (n.take 2048).getLast? = some (ch '%') ∧
        ∃ e, defaultHandler.shortener.GenerateShortURL (n.take 2048) = some (.error e)) ∧
      ShortenURL defaultHandler 0 {} (createRequestOf spacesURL) =
        (.error "Failed to shorten URL" 500, {})) := by
  refine ⟨⟨by decide!, by decide!, by decide!, by decide!, by decide!, by decide!, by decide!⟩,
    ⟨by decide!, by decide!, by decide!, by decide!, by decide!⟩, ⟨?_, by decide!⟩⟩
  exact ⟨str "http://example.com/" ++ (List.replicate 1000 (str "%20")).flatten, by decide!,
    by decide!, by decide!, by decide!, "invalid URL escape", by decide!⟩

end handler
